import Mathlib

/-!
Verification of the CLD (causal loop diagram) analysis core: a shallow
embedding of the Python modules `models.py`, `utils.py`, `sequence.py`,
`loop_set.py`, `network.py` and `matrix_loader.py`, together with proofs
of the specified properties.

Concepts are identified with their integer ids (Python `Concept.__eq__`
and `__hash__` are by id, and every operation the analysis performs on a
concept reads only its id), so a concept is modelled as a `Nat`.
-/

set_option linter.unusedSectionVars false

namespace CLD

/-- The two influence tags of `models.Influence`. -/
inductive Influence
  | increases
  | decreases
deriving DecidableEq, Repr, Inhabited

/-- The sign rendered for an influence inside a sequence representation
(`sequence.Sequence._create_short_representation`). -/
def Influence.symbol : Influence → String
  | .increases => "+"
  | .decreases => "-"

/-- A directed signed link between two concepts (`models.Link`); equality
is componentwise on (source id, influence, target id). -/
structure Link where
  source : Nat
  influence : Influence
  target : Nat
deriving DecidableEq, Repr, Inhabited

namespace Sequence

/-- The list of source concept ids of a sequence
(`Sequence.get_sequence_as_ints`). -/
def sourceIds (links : List Link) : List Nat :=
  links.map (fun l => l.source)

/-- Index of the first link whose source is the given concept, if any
(`Sequence._index_of_source_with_concept`; Python returns -1 for `none`). -/
def indexOfSourceWithConcept (links : List Link) (c : Nat) : Option Nat :=
  links.findIdx? (fun l => l.source == c)

/-- Whether the last link's target equals the source of some link of the
sequence (`Sequence._detect_closed_loop`, field `is_closed`). -/
def isClosed (links : List Link) : Bool :=
  match links.getLast? with
  | none => false
  | some l => (indexOfSourceWithConcept links l.target).isSome

/-- Whether the last link's target equals the source of the first link
(`Sequence._detect_closed_loop`, field `is_loop`: the first source match
sits at index 0). -/
def isLoop (links : List Link) : Bool :=
  match links.getLast? with
  | none => false
  | some l => indexOfSourceWithConcept links l.target == some 0

/-- Count of DECREASES links (`Sequence._set_count_negative_influences`). -/
def countNegativeInfluences (links : List Link) : Nat :=
  (links.filter (fun l => l.influence == Influence.decreases)).length

/-- Body of the short representation: for each link, its sign followed by
its target id, the final target wrapped in braces when the sequence is
closed (`Sequence._create_short_representation`, loop body). -/
def reprBody (isCl : Bool) : List Link → String
  | [] => ""
  | l :: rest =>
    match rest with
    | [] =>
      l.influence.symbol ++
        (if isCl then "\x7b" ++ toString l.target ++ "\x7d" else toString l.target)
    | _ :: _ => l.influence.symbol ++ toString l.target ++ reprBody isCl rest

/-- The short string representation of a sequence
(`Sequence._create_short_representation` / `Sequence.__str__`); it is the
equality, hash and sort key for sequences. -/
def seqRepr (links : List Link) : String :=
  let pfx :=
    if isLoop links then "LOOP: "
    else if isClosed links then "CLOSED: "
    else "SEQUENCE: "
  match links with
  | [] => pfx ++ "<EMPTY>"
  | first :: _ => pfx ++ toString first.source ++ reprBody (isClosed links) links

/-- The smallest source id of a sequence (`min` over the links keyed by
source id in `Sequence.rotate_to_standard`). -/
def minSourceId (links : List Link) : Nat :=
  match sourceIds links with
  | [] => 0
  | x :: xs => xs.foldl Nat.min x

/-- Rotation of a loop to put the given concept at the head
(`Sequence.rotate_to_concept`): the Python while-loop moves the head link
to the tail once per step and stops the first time the head's source is
the requested concept, i.e. it performs `findIdx` single rotations. -/
def rotateToConcept (links : List Link) (c : Nat) : List Link :=
  if isLoop links then
    if (indexOfSourceWithConcept links c).isSome then
      links.rotate (links.findIdx (fun l => l.source == c))
    else links
  else links

/-- Rotation of a loop so that the smallest source id is at the head
(`Sequence.rotate_to_standard`). -/
def rotateToStandard (links : List Link) : List Link :=
  if isLoop links then rotateToConcept links (minSourceId links) else links

end Sequence

/-- A list of links forming one simple directed cycle, traversed in order:
nonempty, each link's target is the next link's source cyclically, and no
source concept repeats. This is the shape of every sequence the DFS in
`network.py` admits as a loop. -/
structure IsSimpleLoop (links : List Link) : Prop where
  pos : 0 < links.length
  cyc : ∀ i, i < links.length →
    (links.getD i default).target = (links.getD ((i + 1) % links.length) default).source
  nodup : (Sequence.sourceIds links).Nodup

namespace LoopSet

/-- Stored loops of a `LoopSet`, in insertion order (`LoopSet.add_loop`):
a sequence that is not a loop is rejected; otherwise a copy is rotated to
standard form and inserted unless a stored loop already has the same
string representation. -/
def addLoop (stored : List (List Link)) (toAdd : List Link) : List (List Link) :=
  if Sequence.isLoop toAdd then
    let loop := Sequence.rotateToStandard toAdd
    if stored.any (fun e => Sequence.seqRepr e == Sequence.seqRepr loop) then stored
    else stored ++ [loop]
  else stored

end LoopSet

section Helpers

/-- A fold of `Nat.min` over a list starting from `x` yields `x` or a
member of the list. -/
theorem foldl_min_mem (xs : List Nat) (x : Nat) :
    xs.foldl Nat.min x = x ∨ xs.foldl Nat.min x ∈ xs := by
  induction xs generalizing x with
  | nil => exact Or.inl rfl
  | cons y ys ih =>
    rcases ih (Nat.min x y) with h | h
    · rcases Nat.le_total x y with hxy | hxy
      · exact Or.inl (h.trans (Nat.min_eq_left hxy))
      · refine Or.inr ?_
        have hxy' : Nat.min x y = y := Nat.min_eq_right hxy
        rw [List.foldl_cons, h, hxy']
        exact List.mem_cons_self y ys
    · exact Or.inr (List.mem_cons_of_mem y h)

/-- A fold of `Nat.min` is a lower bound for the start and every member. -/
theorem foldl_min_le (xs : List Nat) (x : Nat) :
    xs.foldl Nat.min x ≤ x ∧ ∀ y ∈ xs, xs.foldl Nat.min x ≤ y := by
  induction xs generalizing x with
  | nil => exact ⟨Nat.le_refl x, by simp⟩
  | cons z zs ih =>
    obtain ⟨h1, h2⟩ := ih (Nat.min x z)
    refine ⟨le_trans h1 (Nat.min_le_left x z), ?_⟩
    intro y hy
    rcases List.mem_cons.mp hy with rfl | hy
    · exact le_trans h1 (Nat.min_le_right x y)
    · exact h2 y hy

/-- The smallest source id of a nonempty sequence occurs among its source
ids and bounds each of them from below. -/
theorem minSourceId_spec (links : List Link) (h : links ≠ []) :
    Sequence.minSourceId links ∈ Sequence.sourceIds links ∧
      ∀ y ∈ Sequence.sourceIds links, Sequence.minSourceId links ≤ y := by
  obtain ⟨x, xs, hs⟩ : ∃ x xs, Sequence.sourceIds links = x :: xs := by
    cases hs : Sequence.sourceIds links with
    | nil => exact absurd (List.map_eq_nil_iff.mp hs) h
    | cons a as => exact ⟨a, as, rfl⟩
  have hmin : Sequence.minSourceId links = xs.foldl Nat.min x := by
    unfold Sequence.minSourceId
    rw [hs]
  rw [hmin, hs]
  constructor
  · rcases foldl_min_mem xs x with h' | h'
    · rw [h']; exact List.mem_cons_self x xs
    · exact List.mem_cons_of_mem x h'
  · intro y hy
    obtain ⟨h1, h2⟩ := foldl_min_le xs x
    rcases List.mem_cons.mp hy with rfl | hy
    · exact h1
    · exact h2 y hy

/-- Bridge from `getD` to `getElem` at an in-bounds index. -/
theorem getD_eq_getElem' (l : List Link) (i : Nat) (h : i < l.length) :
    l.getD i default = l[i] := by
  simp [List.getD_eq_getElem?_getD, List.getElem?_eq_getElem h]

/-- The default head of a list of links is its entry at index 0. -/
theorem headD_eq_getD (l : List Link) : l.headD default = l.getD 0 default := by
  rw [List.headD_eq_head?_getD, List.head?_eq_getElem?, List.getD_eq_getElem?_getD]

/-- Indexing into a rotation, phrased with defaults. -/
theorem getD_rotate (ls : List Link) (k i : Nat) (hi : i < ls.length) :
    (ls.rotate k).getD i default = ls.getD ((i + k) % ls.length) default := by
  have h0 : 0 < ls.length := Nat.lt_of_le_of_lt (Nat.zero_le i) hi
  have h1 : i < (ls.rotate k).length := by rw [List.length_rotate]; exact hi
  have h2 : (i + k) % ls.length < ls.length := Nat.mod_lt _ h0
  rw [getD_eq_getElem' _ _ h1, getD_eq_getElem' _ _ h2, List.getElem_rotate]

/-- Rotations of a simple loop are simple loops. -/
theorem rotate_isSimpleLoop {ls : List Link} (h : IsSimpleLoop ls) (k : Nat) :
    IsSimpleLoop (ls.rotate k) := by
  obtain ⟨pos, cyc, nodup⟩ := h
  have hn : 0 < ls.length := pos
  refine ⟨?_, ?_, ?_⟩
  · rw [List.length_rotate]; exact pos
  · intro i hi
    rw [List.length_rotate] at hi ⊢
    have h2 : (i + 1) % ls.length < ls.length := Nat.mod_lt _ hn
    rw [getD_rotate _ _ _ hi, getD_rotate _ _ _ h2]
    have hcyc := cyc ((i + k) % ls.length) (Nat.mod_lt _ hn)
    rw [hcyc]
    have e1 : ((i + k) % ls.length + 1) % ls.length
        = ((i + 1) % ls.length + k) % ls.length := by
      rw [Nat.mod_add_mod, Nat.mod_add_mod]
      congr 1
      omega
    rw [e1]
  · have hperm : List.Perm (Sequence.sourceIds (ls.rotate k)) (Sequence.sourceIds ls) :=
      (List.rotate_perm ls k).map _
    exact hperm.nodup_iff.mpr nodup

/-- A simple loop satisfies the code's `is_loop` test. -/
theorem isLoop_of_isSimpleLoop {ls : List Link} (h : IsSimpleLoop ls) :
    Sequence.isLoop ls = true := by
  obtain ⟨pos, cyc, _⟩ := h
  have hn : ls.length - 1 < ls.length := by omega
  have hlast : ls.getLast? = some (ls.getD (ls.length - 1) default) := by
    rw [List.getLast?_eq_getElem?, List.getElem?_eq_getElem hn, getD_eq_getElem' _ _ hn]
  have hcyc := cyc (ls.length - 1) hn
  have hidx : (ls.length - 1 + 1) % ls.length = 0 := by
    have h1 : ls.length - 1 + 1 = ls.length := by omega
    rw [h1, Nat.mod_self]
  rw [hidx] at hcyc
  have hfind : ls.findIdx?
      (fun l => l.source == (ls.getD (ls.length - 1) default).target) = some 0 := by
    rw [List.findIdx?_eq_some_iff_getElem]
    refine ⟨pos, ?_, ?_⟩
    · rw [hcyc, getD_eq_getElem' _ _ pos]
      exact beq_self_eq_true _
    · intro j hj
      omega
  unfold Sequence.isLoop Sequence.indexOfSourceWithConcept
  rw [hlast]
  show (List.findIdx? (fun l => l.source == (ls.getD (ls.length - 1) default).target) ls
    == some 0) = true
  rw [hfind]
  rfl

/-- On a simple loop, `rotate_to_standard` rotates by the index of the
first (and only) link whose source is the minimal source id. -/
theorem rotateToStandard_eq {ls : List Link} (h : IsSimpleLoop ls) :
    Sequence.rotateToStandard ls =
      ls.rotate (ls.findIdx (fun l => l.source == Sequence.minSourceId ls)) := by
  have hloop := isLoop_of_isSimpleLoop h
  have hne : ls ≠ [] := by
    intro e
    rw [e] at h
    exact absurd h.pos (by simp)
  obtain ⟨hmem, _⟩ := minSourceId_spec ls hne
  obtain ⟨l0, hl0, hsrc⟩ := List.mem_map.mp hmem
  have hsome : (Sequence.indexOfSourceWithConcept ls (Sequence.minSourceId ls)).isSome = true := by
    unfold Sequence.indexOfSourceWithConcept
    rw [List.findIdx?_isSome]
    exact List.any_eq_true.mpr ⟨l0, hl0, by simp [hsrc]⟩
  unfold Sequence.rotateToStandard Sequence.rotateToConcept
  rw [hloop, hsome]
  simp

/-- Two in-bounds positions of a simple loop with the same source id
coincide. -/
theorem source_idx_unique {ls : List Link} (nd : (Sequence.sourceIds ls).Nodup)
    {i j : Nat} (hi : i < ls.length) (hj : j < ls.length)
    (hs : (ls.getD i default).source = (ls.getD j default).source) : i = j := by
  have hi' : i < (Sequence.sourceIds ls).length := by
    simpa [Sequence.sourceIds] using hi
  have hj' : j < (Sequence.sourceIds ls).length := by
    simpa [Sequence.sourceIds] using hj
  have hg : (Sequence.sourceIds ls)[i] = (Sequence.sourceIds ls)[j] := by
    simp only [Sequence.sourceIds, List.getElem_map]
    rw [← getD_eq_getElem' _ _ hi, ← getD_eq_getElem' _ _ hj]
    exact hs
  exact nd.getElem_inj_iff.mp hg

/-- The minimal source id is invariant under rotation. -/
theorem minSourceId_rotate (ls : List Link) (h : ls ≠ []) (k : Nat) :
    Sequence.minSourceId (ls.rotate k) = Sequence.minSourceId ls := by
  have hlen : (ls.rotate k).length = ls.length := List.length_rotate ls k
  have hne : ls.rotate k ≠ [] := by
    intro e
    rw [e] at hlen
    exact h (List.length_eq_zero.mp hlen.symm)
  obtain ⟨m1, b1⟩ := minSourceId_spec (ls.rotate k) hne
  obtain ⟨m2, b2⟩ := minSourceId_spec ls h
  have hperm : List.Perm (Sequence.sourceIds (ls.rotate k)) (Sequence.sourceIds ls) :=
    (List.rotate_perm ls k).map _
  exact Nat.le_antisymm (b1 _ (hperm.mem_iff.mpr m2)) (b2 _ (hperm.mem_iff.mp m1))

/-- Canonicalization is invariant under rotation: rotating a simple loop
and then rotating to standard form yields the same list of links as
standardizing the original. -/
theorem rotateToStandard_rotate {ls : List Link} (h : IsSimpleLoop ls) (k : Nat) :
    Sequence.rotateToStandard (ls.rotate k) = Sequence.rotateToStandard ls := by
  have hrot := rotate_isSimpleLoop h k
  have hne : ls ≠ [] := by
    intro e
    rw [e] at h
    exact absurd h.pos (by simp)
  have hn : 0 < ls.length := h.pos
  have hmrot := minSourceId_rotate ls hne k
  rw [rotateToStandard_eq h, rotateToStandard_eq hrot, hmrot]
  obtain ⟨hmem, _⟩ := minSourceId_spec ls hne
  obtain ⟨l0, hl0, hsrc⟩ := List.mem_map.mp hmem
  have hex : ∃ x ∈ ls, (fun l : Link => l.source == Sequence.minSourceId ls) x = true :=
    ⟨l0, hl0, by simp [hsrc]⟩
  have hex' : ∃ x ∈ ls.rotate k,
      (fun l : Link => l.source == Sequence.minSourceId ls) x = true :=
    ⟨l0, (List.rotate_perm ls k).mem_iff.mpr hl0, by simp [hsrc]⟩
  have hi0 : ls.findIdx (fun l => l.source == Sequence.minSourceId ls) < ls.length :=
    List.findIdx_lt_length_of_exists hex
  have hi1 : (ls.rotate k).findIdx (fun l => l.source == Sequence.minSourceId ls)
      < (ls.rotate k).length :=
    List.findIdx_lt_length_of_exists hex'
  have hi1' : (ls.rotate k).findIdx (fun l => l.source == Sequence.minSourceId ls)
      < ls.length := by rwa [List.length_rotate] at hi1
  have hsrc0 : ((ls.getD (ls.findIdx
      (fun l => l.source == Sequence.minSourceId ls)) default)).source
      = Sequence.minSourceId ls := by
    rw [getD_eq_getElem' _ _ hi0]
    exact eq_of_beq (List.findIdx_getElem (w := hi0))
  have hsrc1 : (((ls.rotate k).getD ((ls.rotate k).findIdx
      (fun l => l.source == Sequence.minSourceId ls)) default)).source
      = Sequence.minSourceId ls := by
    rw [getD_eq_getElem' _ _ hi1]
    exact eq_of_beq (List.findIdx_getElem (w := hi1))
  rw [getD_rotate _ _ _ hi1'] at hsrc1
  have hmod : ((ls.rotate k).findIdx (fun l => l.source == Sequence.minSourceId ls) + k)
      % ls.length
      = ls.findIdx (fun l => l.source == Sequence.minSourceId ls) := by
    apply source_idx_unique h.nodup (Nat.mod_lt _ hn) hi0
    rw [hsrc1, hsrc0]
  rw [List.rotate_rotate, ← List.rotate_mod, Nat.add_comm, hmod]

/-- The head of the standardized form of a simple loop carries the
minimal source id. -/
theorem head_rotateToStandard {ls : List Link} (h : IsSimpleLoop ls) :
    ((Sequence.rotateToStandard ls).headD default).source = Sequence.minSourceId ls := by
  have hne : ls ≠ [] := by
    intro e
    rw [e] at h
    exact absurd h.pos (by simp)
  obtain ⟨hmem, _⟩ := minSourceId_spec ls hne
  obtain ⟨l0, hl0, hsrc⟩ := List.mem_map.mp hmem
  have hex : ∃ x ∈ ls, (fun l : Link => l.source == Sequence.minSourceId ls) x = true :=
    ⟨l0, hl0, by simp [hsrc]⟩
  have hi0 : ls.findIdx (fun l => l.source == Sequence.minSourceId ls) < ls.length :=
    List.findIdx_lt_length_of_exists hex
  rw [rotateToStandard_eq h, headD_eq_getD, getD_rotate _ _ _ h.pos, Nat.zero_add,
    Nat.mod_eq_of_lt hi0, getD_eq_getElem' _ _ hi0]
  exact eq_of_beq (List.findIdx_getElem (w := hi0))

/-- Shape of the representation of a nonempty loop: prefix, head source
id, then the body. -/
theorem seqRepr_loop_shape (ls : List Link) (hne : ls ≠ [])
    (hloop : Sequence.isLoop ls = true) :
    Sequence.seqRepr ls =
      "LOOP: " ++ toString ((ls.headD default).source)
        ++ Sequence.reprBody (Sequence.isClosed ls) ls := by
  obtain ⟨a, t, rfl⟩ : ∃ a t, ls = a :: t := by
    cases ls with
    | nil => exact absurd rfl hne
    | cons a t => exact ⟨a, t, rfl⟩
  unfold Sequence.seqRepr
  rw [hloop]
  simp

end Helpers

section ClaimC4

/-- Claim C4: for every loop sequence L and every rotation of L, the
copies stored by `LoopSet.add_loop` have identical string representations
beginning with the smallest source concept id occurring in L, and calling
`add_loop` with L and then with any of its rotations leaves the LoopSet
unchanged after the first insertion. -/
theorem add_loop_rotation_invariant (ls : List Link) (k : Nat)
    (s : List (List Link)) (h : IsSimpleLoop ls) :
    Sequence.seqRepr (Sequence.rotateToStandard (ls.rotate k))
        = Sequence.seqRepr (Sequence.rotateToStandard ls) ∧
    (∃ rest, Sequence.seqRepr (Sequence.rotateToStandard ls)
        = "LOOP: " ++ toString (Sequence.minSourceId ls) ++ rest) ∧
    LoopSet.addLoop (LoopSet.addLoop s ls) (ls.rotate k) = LoopSet.addLoop s ls := by
  have hcan := rotateToStandard_rotate h k
  have hl := isLoop_of_isSimpleLoop h
  have hlr := isLoop_of_isSimpleLoop (rotate_isSimpleLoop h k)
  refine ⟨by rw [hcan], ?_, ?_⟩
  · have hcs : IsSimpleLoop (Sequence.rotateToStandard ls) := by
      rw [rotateToStandard_eq h]
      exact rotate_isSimpleLoop h _
    have hne : Sequence.rotateToStandard ls ≠ [] := by
      intro e
      rw [e] at hcs
      exact absurd hcs.pos (by simp)
    refine ⟨Sequence.reprBody (Sequence.isClosed (Sequence.rotateToStandard ls))
      (Sequence.rotateToStandard ls), ?_⟩
    rw [seqRepr_loop_shape _ hne (isLoop_of_isSimpleLoop hcs), head_rotateToStandard h]
  · unfold LoopSet.addLoop
    rw [hl, hlr, hcan]
    simp only [if_true]
    by_cases hany : s.any
        (fun e => Sequence.seqRepr e == Sequence.seqRepr (Sequence.rotateToStandard ls)) = true
    · rw [if_pos hany, if_pos hany]
    · rw [if_neg hany]
      have hin : (s ++ [Sequence.rotateToStandard ls]).any
          (fun e => Sequence.seqRepr e
            == Sequence.seqRepr (Sequence.rotateToStandard ls)) = true := by
        rw [List.any_append]
        simp
      rw [if_pos hin]

/-- A concrete three-link reinforcing/balancing loop used as witness input. -/
def c4wit : List Link :=
  [⟨0, Influence.increases, 1⟩, ⟨1, Influence.increases, 2⟩, ⟨2, Influence.decreases, 0⟩]

/-- Witness for C4 at a concrete three-link loop, rotated by one. -/
theorem add_loop_rotation_invariant_witness :
    IsSimpleLoop c4wit ∧
    (Sequence.seqRepr (Sequence.rotateToStandard (c4wit.rotate 1))
        = Sequence.seqRepr (Sequence.rotateToStandard c4wit) ∧
    (∃ rest, Sequence.seqRepr (Sequence.rotateToStandard c4wit)
        = "LOOP: " ++ toString (Sequence.minSourceId c4wit) ++ rest) ∧
    LoopSet.addLoop (LoopSet.addLoop [] c4wit) (c4wit.rotate 1)
        = LoopSet.addLoop [] c4wit) :=
  ⟨⟨by decide, by decide, by decide⟩,
    add_loop_rotation_invariant c4wit 1 [] ⟨by decide, by decide, by decide⟩⟩

end ClaimC4

section MatrixLoader

/-- The ASCII whitespace characters stripped by Python `str.strip()` and
by `int()` around a numeric literal. -/
def isPyWhitespace (c : Char) : Bool :=
  c = ' ' || c = '\t' || c = '\n' || c = '\r' || c = '\x0b' || c = '\x0c'

/-- Python `str.strip()`: remove leading and trailing whitespace. -/
def pyStrip (cs : List Char) : List Char :=
  ((cs.dropWhile isPyWhitespace).reverse.dropWhile isPyWhitespace).reverse

/-- Decimal value of a nonempty all-digit character list, `none` otherwise. -/
def digitsVal (cs : List Char) : Option Nat :=
  if cs = [] then none
  else if cs.all Char.isDigit then
    some (cs.foldl (fun acc c => 10 * acc + (c.toNat - 48)) 0)
  else none

/-- CPython `int(str)` on the character data reachable from spreadsheet
cells: surrounding whitespace is stripped, then an optional single sign
precedes one or more decimal digits (underscore grouping and non-ASCII
digits are not modelled). -/
def parseIntChars (cs : List Char) : Option Int :=
  match pyStrip cs with
  | '+' :: rest => (digitsVal rest).map (fun n => (n : Int))
  | '-' :: rest => (digitsVal rest).map (fun n => -(n : Int))
  | other => (digitsVal other).map (fun n => (n : Int))

/-- Python `int(x)` on a numeric value: truncation toward zero; rationals
stand in for the int and float cell values of the spreadsheet. -/
def pyTrunc (q : ℚ) : Int :=
  q.num.tdiv (q.den : Int)

/-- A spreadsheet cell as seen by `_parse_polarity`: missing (NaN/None),
numeric, or a string (modelled as its character list). -/
inductive CellValue
  | missing
  | num (q : ℚ)
  | str (s : List Char)
deriving DecidableEq

/-- The distinct `ValueError` messages of `_parse_polarity` that the
loader inspects: the first three are treated as "no connection". -/
inductive ParseError
  | nanOrNone
  | emptyOrZero
  | zero
  | invalid
deriving DecidableEq

/-- The cleaned form of a string cell: `value.replace(" ", "").strip()`. -/
def cleanedOfStr (s : List Char) : List Char :=
  pyStrip (s.filter (fun c => c ≠ ' '))

/-- Embedding of `matrix_loader._parse_polarity`. -/
def parsePolarity : CellValue → Except ParseError Int
  | .missing => .error .nanOrNone
  | .num q =>
    let i := pyTrunc q
    if i = 0 then .error .zero
    else if i = 1 ∨ i = -1 then .ok i
    else .error .invalid
  | .str s =>
    let cleaned := cleanedOfStr s
    if cleaned = [] ∨ cleaned = ['0'] then .error .emptyOrZero
    else
      match parseIntChars cleaned with
      | some i =>
        if i = 0 then .error .zero
        else if i = 1 ∨ i = -1 then .ok i
        else .error .invalid
      | none =>
        match parseIntChars (cleaned.filter (fun c => c != '+')) with
        | some i =>
          if i = 0 then .error .zero
          else if i = 1 ∨ i = -1 then .ok i
          else .error .invalid
        | none => .error .invalid

/-- What the loader does with one cell (`load_adjacency_matrix_from_excel`
inner loop): emit a link with the parsed polarity, skip silently on the
three "no connection" errors, or warn and skip. -/
inductive CellAction
  | emit (polarity : Int)
  | skipSilent
  | skipWarn
deriving DecidableEq

/-- Per-cell routing of `load_adjacency_matrix_from_excel`. -/
def cellAction (v : CellValue) : CellAction :=
  match parsePolarity v with
  | .ok i => .emit i
  | .error e =>
    if e = .nanOrNone ∨ e = .emptyOrZero ∨ e = .zero then .skipSilent
    else .skipWarn

/-- Modelled from the claim's words: the cell's parsed integer, where a
string cell is parsed after removing all whitespace and one leading plus
sign. -/
def specParsedInt : CellValue → Option Int
  | .missing => none
  | .num q => some (pyTrunc q)
  | .str s =>
    let cleaned := s.filter (fun c => isPyWhitespace c = false)
    let cleaned := match cleaned with
      | '+' :: rest => rest
      | other => other
    parseIntChars cleaned

/-- Modelled from the amended claim: the parsed integer of a string cell
follows the code's two-stage rule - delete space characters, strip the
surrounding whitespace, parse as a signed integer, and on failure retry
with every plus sign deleted. -/
def amendedParsedInt : CellValue → Option Int
  | .missing => none
  | .num q => some (pyTrunc q)
  | .str s =>
    match parseIntChars (cleanedOfStr s) with
    | some i => some i
    | none => parseIntChars ((cleanedOfStr s).filter (fun c => c != '+'))

/-- Whether the cell is a string whose cleaned form is empty. -/
def stringCleanedEmpty : CellValue → Bool
  | .str s => cleanedOfStr s = []
  | _ => false

end MatrixLoader

section ClaimC5

/-- Claim C5 counterexample: on the string cell "1+" the loader emits a
link with polarity +1, although after removing all whitespace and a
leading plus sign the cell does not parse as an integer at all, so the
claim's characterization wrongly predicts that the cell is skipped. -/
theorem cell_emit_claim_counterexample :
    cellAction (CellValue.str ['1', '+']) = CellAction.emit 1 ∧
      specParsedInt (CellValue.str ['1', '+']) = none := by
  decide

/-- Claim C5 (amended): the loader emits a Link iff the cell's parsed
integer is +1 or -1, where a string cell is parsed by deleting spaces,
stripping surrounding whitespace and parsing as a signed integer,
retrying with every plus sign deleted if that fails; missing cells,
cells whose parsed integer is zero, and empty string cells are skipped
silently; every other cell emits a warning and is skipped. -/
theorem cell_emit_iff_parsed_unit (v : CellValue) :
    ((∃ i, cellAction v = CellAction.emit i) ↔
      (amendedParsedInt v = some 1 ∨ amendedParsedInt v = some (-1))) ∧
    (∀ i, cellAction v = CellAction.emit i → amendedParsedInt v = some i) ∧
    (cellAction v = CellAction.skipSilent ↔
      (v = CellValue.missing ∨ amendedParsedInt v = some 0 ∨
        stringCleanedEmpty v = true)) ∧
    (cellAction v = CellAction.skipWarn ↔
      (¬ (amendedParsedInt v = some 1 ∨ amendedParsedInt v = some (-1)) ∧
        ¬ (v = CellValue.missing ∨ amendedParsedInt v = some 0 ∨
          stringCleanedEmpty v = true))) := by
  cases v with
  | missing =>
    refine ⟨?_, ?_, ?_, ?_⟩ <;> simp [cellAction, parsePolarity, amendedParsedInt,
      stringCleanedEmpty]
  | num q =>
    by_cases h0 : pyTrunc q = 0
    · refine ⟨?_, ?_, ?_, ?_⟩ <;>
        simp [cellAction, parsePolarity, amendedParsedInt, stringCleanedEmpty, h0]
    · by_cases h1 : pyTrunc q = 1
      · refine ⟨?_, ?_, ?_, ?_⟩ <;>
          simp [cellAction, parsePolarity, amendedParsedInt, stringCleanedEmpty, h0, h1]
      · by_cases hm : pyTrunc q = -1
        · refine ⟨?_, ?_, ?_, ?_⟩ <;>
            simp [cellAction, parsePolarity, amendedParsedInt, stringCleanedEmpty, h0, h1, hm]
        · refine ⟨?_, ?_, ?_, ?_⟩ <;>
            simp [cellAction, parsePolarity, amendedParsedInt, stringCleanedEmpty, h0, h1, hm]
  | str s =>
    by_cases hemp : cleanedOfStr s = [] ∨ cleanedOfStr s = ['0']
    · have hpe : parseIntChars [] = none := by decide
      have hp0 : parseIntChars ['0'] = some 0 := by decide
      rcases hemp with he | he
      · refine ⟨?_, ?_, ?_, ?_⟩ <;>
          simp [cellAction, parsePolarity, amendedParsedInt, stringCleanedEmpty, he, hpe]
      · refine ⟨?_, ?_, ?_, ?_⟩ <;>
          simp [cellAction, parsePolarity, amendedParsedInt, stringCleanedEmpty, he, hp0]
    · push_neg at hemp
      obtain ⟨he1, he2⟩ := hemp
      cases hp : parseIntChars (cleanedOfStr s) with
      | some i =>
        by_cases h0 : i = 0
        · refine ⟨?_, ?_, ?_, ?_⟩ <;>
            simp [cellAction, parsePolarity, amendedParsedInt, stringCleanedEmpty,
              he1, he2, hp, h0]
        · by_cases h1 : i = 1
          · refine ⟨?_, ?_, ?_, ?_⟩ <;>
              simp [cellAction, parsePolarity, amendedParsedInt, stringCleanedEmpty,
                he1, he2, hp, h0, h1]
          · by_cases hm : i = -1
            · refine ⟨?_, ?_, ?_, ?_⟩ <;>
                simp [cellAction, parsePolarity, amendedParsedInt, stringCleanedEmpty,
                  he1, he2, hp, h0, h1, hm]
            · refine ⟨?_, ?_, ?_, ?_⟩ <;>
                simp [cellAction, parsePolarity, amendedParsedInt, stringCleanedEmpty,
                  he1, he2, hp, h0, h1, hm]
      | none =>
        cases hq : parseIntChars ((cleanedOfStr s).filter (fun c => c != '+')) with
        | some j =>
          by_cases h0 : j = 0
          · refine ⟨?_, ?_, ?_, ?_⟩ <;>
              simp [cellAction, parsePolarity, amendedParsedInt, stringCleanedEmpty,
                he1, he2, hp, hq, h0]
          · by_cases h1 : j = 1
            · refine ⟨?_, ?_, ?_, ?_⟩ <;>
                simp [cellAction, parsePolarity, amendedParsedInt, stringCleanedEmpty,
                  he1, he2, hp, hq, h0, h1]
            · by_cases hm : j = -1
              · refine ⟨?_, ?_, ?_, ?_⟩ <;>
                  simp [cellAction, parsePolarity, amendedParsedInt, stringCleanedEmpty,
                    he1, he2, hp, hq, h0, h1, hm]
              · refine ⟨?_, ?_, ?_, ?_⟩ <;>
                  simp [cellAction, parsePolarity, amendedParsedInt, stringCleanedEmpty,
                    he1, he2, hp, hq, h0, h1, hm]
        | none =>
          refine ⟨?_, ?_, ?_, ?_⟩ <;>
            simp [cellAction, parsePolarity, amendedParsedInt, stringCleanedEmpty,
              he1, he2, hp, hq]

end ClaimC5

section EditDistance

variable {α : Type} [DecidableEq α]

/-- Entry (i, j) of the Levenshtein DP matrix of
`utils.levenshtein_distance`: row 0 and column 0 are the identities, and
every inner cell is the minimum of deletion, insertion and substitution.
The substitution cost compares the optional entries `a[i]?` and `b[j]?`,
which agrees with the code's `a[i - 1] == b[j - 1]` at every cell the
algorithm reads (`1 ≤ i ≤ |a|`, `1 ≤ j ≤ |b|`). `MrowStep` computes row
`i + 1` from row `i` (`prev`), by structural recursion on the column. -/
def MrowStep (a b : List α) (i : Nat) (prev : Nat → Nat) : Nat → Nat
  | 0 => i + 1
  | j + 1 =>
    Nat.min (Nat.min (prev (j + 1) + 1) (MrowStep a b i prev j + 1))
      (prev j + (if a[i]? = b[j]? then 0 else 1))

/-- Row `i` of the DP matrix as a function of the column index; row 0 is
the identity and each later row is produced from the previous one by
`MrowStep`. -/
def M (a b : List α) : Nat → Nat → Nat
  | 0 => fun j => j
  | i + 1 => MrowStep a b i (M a b i)

/-- The value `levenshtein_distance(a, b)` returns: the corner of the DP
matrix. -/
def lev (a b : List α) : Nat :=
  M a b a.length b.length

/-- The running column minimum `lowest_in_row` of
`levenshtein_distance_with_rotation`: the value starts at `j`
(= `matrix[0][j]`) and is lowered by each `matrix[i][j]` for `1 ≤ i ≤ m`. -/
def colMin (a b : List α) (m j : Nat) : Nat :=
  (List.range' 1 m).foldl (fun acc i => Nat.min acc (M a b i j)) j

/-- The window of length `|a|` starting at offset `s` of the doubled list
`a + a` (`a_double[a_start + i - 1]` indexing of the rotation loop). -/
def rotAccess (a : List α) (s : Nat) : List α :=
  ((a ++ a).drop s).take a.length

/-- The bail-out bound `min_possible = max(0, abs(m - n))`. -/
def minPossible (m n : Nat) : Nat :=
  Nat.max (m - n) (n - m)

/-- One rotation attempt of `levenshtein_distance_with_rotation`: the
inner double loop breaks out of the column loop as soon as a column
minimum reaches `lowest` (checking columns in order is equivalent to
checking that some column violates), else it produces the corner value. -/
def tryRotation (a' b' : List α) (lowest : Nat) : Option Nat :=
  if (List.range' 1 b'.length).any
      (fun j => decide (lowest ≤ colMin a' b' a'.length j)) then none
  else some (M a' b' a'.length b'.length)

/-- The rotation pairs `(a_start, b_start)` in iteration order. -/
def rotPairs (m n : Nat) : List (Nat × Nat) :=
  (List.range m).flatMap (fun sa => (List.range n).map (fun sb => (sa, sb)))

/-- The outer double loop of `levenshtein_distance_with_rotation`:
process the rotation pairs in order, carrying `lowest`; a completed
rotation lowers `lowest` and returns it immediately when it hits the
bail-out bound. -/
def rotLoop (a b : List α) : List (Nat × Nat) → Nat → Nat
  | [], lowest => lowest
  | (sa, sb) :: rest, lowest =>
    match tryRotation (rotAccess a sa) (rotAccess b sb) lowest with
    | none => rotLoop a b rest lowest
    | some d =>
      if Nat.min d lowest = minPossible a.length b.length then Nat.min d lowest
      else rotLoop a b rest (Nat.min d lowest)

/-- Embedding of `utils.levenshtein_distance_with_rotation`. -/
def levWithRotation (a b : List α) : Nat :=
  if a.length = 0 || b.length = 0 then a.length + b.length
  else rotLoop a b (rotPairs a.length b.length) (a.length + b.length)

/-- Either branch of a binary `Nat.min` can be the value. -/
theorem nat_min_choice (x y : Nat) : Nat.min x y = x ∨ Nat.min x y = y := by
  rcases Nat.le_total x y with h | h
  · exact Or.inl (Nat.min_eq_left h)
  · exact Or.inr (Nat.min_eq_right h)

/-- A three-way minimum takes one of its three values. -/
theorem min3_choice (x y z : Nat) :
    Nat.min (Nat.min x y) z = x ∨ Nat.min (Nat.min x y) z = y ∨
      Nat.min (Nat.min x y) z = z := by
  rcases nat_min_choice (Nat.min x y) z with h | h
  · rcases nat_min_choice x y with h' | h'
    · exact Or.inl (h.trans h')
    · exact Or.inr (Or.inl (h.trans h'))
  · exact Or.inr (Or.inr h)

/-- Row-0 equation of the DP matrix. -/
theorem M_zero' (a b : List α) (j : Nat) : M a b 0 j = j := rfl

/-- The inner-cell equation of the DP matrix. -/
theorem M_succ_succ (a b : List α) (i j : Nat) :
    M a b (i + 1) (j + 1) =
      Nat.min (Nat.min (M a b i (j + 1) + 1) (M a b (i + 1) j + 1))
        (M a b i j + (if a[i]? = b[j]? then 0 else 1)) := rfl

/-- The column-0 equation of the DP matrix. -/
theorem M_succ_zero (a b : List α) (i : Nat) : M a b (i + 1) 0 = i + 1 := rfl

/-- Every matrix entry is at most the sum of its indices. -/
theorem M_le_add (a b : List α) : ∀ i j, M a b i j ≤ i + j := by
  intro i
  induction i with
  | zero => intro j; rw [M_zero']; omega
  | succ i ih =>
    intro j
    induction j with
    | zero => rw [M_succ_zero]
    | succ j ihj =>
      rw [M_succ_succ]
      have h3 := ih j
      have hc : (if a[i]? = b[j]? then 0 else 1) ≤ 1 := by split <;> simp
      rcases min3_choice (M a b i (j + 1) + 1) (M a b (i + 1) j + 1)
        (M a b i j + (if a[i]? = b[j]? then 0 else 1)) with h | h | h <;>
        rw [h]
      · have h1 := ih (j + 1)
        omega
      · omega
      · omega

/-- Lower bound of every matrix entry by the index difference, in both
directions. -/
theorem M_ge_sub (a b : List α) : ∀ i j, i ≤ M a b i j + j ∧ j ≤ M a b i j + i := by
  intro i
  induction i with
  | zero => intro j; rw [M_zero']; omega
  | succ i ih =>
    intro j
    induction j with
    | zero => rw [M_succ_zero]; omega
    | succ j ihj =>
      rw [M_succ_succ]
      obtain ⟨ha3, hb3⟩ := ih j
      obtain ⟨ha1, hb1⟩ := ih (j + 1)
      obtain ⟨ha2, hb2⟩ := ihj
      rcases min3_choice (M a b i (j + 1) + 1) (M a b (i + 1) j + 1)
        (M a b i j + (if a[i]? = b[j]? then 0 else 1)) with h | h | h <;>
        rw [h]
      · omega
      · omega
      · have hc : (if a[i]? = b[j]? then 0 else 1) ≤ 1 := by split <;> simp
        omega

/-- The plain distance is bounded below by the length difference. -/
theorem minPossible_le_lev (a b : List α) : minPossible a.length b.length ≤ lev a b := by
  obtain ⟨h1, h2⟩ := M_ge_sub a b a.length b.length
  unfold minPossible lev
  rcases Nat.le_total (a.length - b.length) (b.length - a.length) with h | h
  · have hm : Nat.max (a.length - b.length) (b.length - a.length)
        = b.length - a.length := Nat.max_eq_right h
    omega
  · have hm : Nat.max (a.length - b.length) (b.length - a.length)
        = a.length - b.length := Nat.max_eq_left h
    omega


/-- Generic bounds for a fold of `Nat.min` over mapped values. -/
theorem foldl_minf_le (f : Nat → Nat) (xs : List Nat) (x : Nat) :
    (xs.foldl (fun acc i => Nat.min acc (f i)) x ≤ x) ∧
      ∀ i ∈ xs, xs.foldl (fun acc i => Nat.min acc (f i)) x ≤ f i := by
  induction xs generalizing x with
  | nil => exact ⟨Nat.le_refl x, by simp⟩
  | cons z zs ih =>
    obtain ⟨h1, h2⟩ := ih (Nat.min x (f z))
    refine ⟨le_trans h1 (Nat.min_le_left _ _), ?_⟩
    intro i hi
    rcases List.mem_cons.mp hi with rfl | hi
    · exact le_trans h1 (Nat.min_le_right _ _)
    · exact h2 i hi

/-- A common lower bound of the start and all mapped values bounds the
fold of `Nat.min`. -/
theorem le_foldl_minf (f : Nat → Nat) (xs : List Nat) (x L : Nat)
    (hx : L ≤ x) (hf : ∀ i ∈ xs, L ≤ f i) :
    L ≤ xs.foldl (fun acc i => Nat.min acc (f i)) x := by
  induction xs generalizing x with
  | nil => exact hx
  | cons z zs ih =>
    refine ih (Nat.min x (f z)) ?_ (fun i hi => hf i (List.mem_cons_of_mem z hi))
    exact Nat.le_min.mpr ⟨hx, hf z (List.mem_cons_self z zs)⟩

/-- The column minimum bounds every entry of its column up to row `m`. -/
theorem colMin_le (a b : List α) (m j : Nat) :
    ∀ i, i ≤ m → colMin a b m j ≤ M a b i j := by
  intro i hi
  unfold colMin
  obtain ⟨h1, h2⟩ := foldl_minf_le (fun i => M a b i j) (List.range' 1 m) j
  rcases Nat.eq_zero_or_pos i with rfl | hpos
  · rw [M_zero']
    exact h1
  · exact h2 i (by rw [List.mem_range']; exact ⟨i - 1, by omega, by omega⟩)

/-- A common lower bound of a column bounds its minimum. -/
theorem le_colMin (a b : List α) (m j L : Nat)
    (h : ∀ i, i ≤ m → L ≤ M a b i j) : L ≤ colMin a b m j := by
  unfold colMin
  refine le_foldl_minf _ _ _ _ ?_ ?_
  · have h0 := h 0 (Nat.zero_le m)
    rw [M_zero'] at h0
    exact h0
  · intro i hi
    rw [List.mem_range'] at hi
    obtain ⟨i', hi', rfl⟩ := hi
    exact h _ (by omega)

/-- Column minima never decrease from one column to the next. -/
theorem colMin_mono (a b : List α) (m j : Nat) :
    colMin a b m j ≤ colMin a b m (j + 1) := by
  refine le_colMin a b m (j + 1) _ ?_
  intro i
  induction i with
  | zero =>
    intro _
    have h0 := colMin_le a b m j 0 (Nat.zero_le m)
    rw [M_zero'] at h0
    rw [M_zero']
    omega
  | succ i ih =>
    intro hi
    rw [M_succ_succ]
    have h1 : colMin a b m j ≤ M a b i (j + 1) := ih (by omega)
    have h2 : colMin a b m j ≤ M a b (i + 1) j := colMin_le a b m j (i + 1) hi
    have h3 : colMin a b m j ≤ M a b i j := colMin_le a b m j i (by omega)
    rcases min3_choice (M a b i (j + 1) + 1) (M a b (i + 1) j + 1)
      (M a b i j + (if a[i]? = b[j]? then 0 else 1)) with h | h | h <;>
      rw [h] <;> omega

/-- Column minima are monotone in the column index. -/
theorem colMin_mono_le (a b : List α) (m : Nat) {j n : Nat} (h : j ≤ n) :
    colMin a b m j ≤ colMin a b m n := by
  induction n with
  | zero =>
    cases Nat.le_zero.mp h
    exact Nat.le_refl _
  | succ n ih =>
    rcases Nat.lt_or_ge j (n + 1) with hl | hg
    · exact le_trans (ih (by omega)) (colMin_mono a b m n)
    · have hj : j = n + 1 := by omega
      subst hj
      exact Nat.le_refl _

/-- Soundness of the early-row pruning: a pruned rotation's true distance
is at least the current best. -/
theorem tryRotation_none_le {a' b' : List α} {lowest : Nat}
    (h : tryRotation a' b' lowest = none) :
    lowest ≤ lev a' b' := by
  by_cases hc : (List.range' 1 b'.length).any
      (fun j => decide (lowest ≤ colMin a' b' a'.length j)) = true
  · obtain ⟨j, hj, hcj⟩ := List.any_eq_true.mp hc
    rw [List.mem_range'] at hj
    obtain ⟨j', hj', rfl⟩ := hj
    have hle : lowest ≤ colMin a' b' a'.length (1 + 1 * j') := of_decide_eq_true hcj
    have hchain : colMin a' b' a'.length (1 + 1 * j')
        ≤ colMin a' b' a'.length b'.length :=
      colMin_mono_le a' b' a'.length (by omega)
    have hfin : colMin a' b' a'.length b'.length ≤ M a' b' a'.length b'.length :=
      colMin_le a' b' a'.length b'.length a'.length (Nat.le_refl _)
    unfold lev
    omega
  · unfold tryRotation at h
    rw [if_neg] at h
    · exact absurd h (by simp)
    · simpa using hc

/-- A completed rotation produces exactly the plain distance. -/
theorem tryRotation_some_eq {a' b' : List α} {lowest d : Nat}
    (h : tryRotation a' b' lowest = some d) : d = lev a' b' := by
  unfold tryRotation at h
  split at h
  · exact absurd h (by simp)
  · exact (Option.some_inj.mp h).symm

/-- The doubled-array window at offset `s ≤ |a|` is the rotation by `s`. -/
theorem rotAccess_eq (a : List α) {s : Nat} (h : s ≤ a.length) :
    rotAccess a s = a.drop s ++ a.take s := by
  unfold rotAccess
  rw [List.drop_append_eq_append_drop]
  have h2 : s - a.length = 0 := by omega
  rw [h2, List.drop_zero, List.take_append_eq_append_take]
  have h3 : (a.drop s).length ≤ a.length := by
    rw [List.length_drop]
    omega
  rw [List.take_of_length_le h3]
  have h4 : a.length - (a.drop s).length = s := by
    rw [List.length_drop]
    omega
  rw [h4]

/-- The window has the same length as the original list. -/
theorem length_rotAccess (a : List α) {s : Nat} (h : s ≤ a.length) :
    (rotAccess a s).length = a.length := by
  rw [rotAccess_eq a h]
  simp only [List.length_append, List.length_drop, List.length_take]
  omega

/-- Membership in the rotation pair list. -/
theorem mem_rotPairs {m n sa sb : Nat} :
    (sa, sb) ∈ rotPairs m n ↔ sa < m ∧ sb < n := by
  unfold rotPairs
  simp [List.mem_flatMap, List.mem_map, List.mem_range]

/-- Unfolding of the rotation loop when the head rotation is pruned. -/
theorem rotLoop_cons_none {a b : List α} {sa sb : Nat} {rest : List (Nat × Nat)}
    {low : Nat} (h : tryRotation (rotAccess a sa) (rotAccess b sb) low = none) :
    rotLoop a b ((sa, sb) :: rest) low = rotLoop a b rest low := by
  show (match tryRotation (rotAccess a sa) (rotAccess b sb) low with
    | none => rotLoop a b rest low
    | some d =>
      if Nat.min d low = minPossible a.length b.length then Nat.min d low
      else rotLoop a b rest (Nat.min d low)) = rotLoop a b rest low
  rw [h]

/-- Unfolding of the rotation loop when the head rotation completes. -/
theorem rotLoop_cons_some {a b : List α} {sa sb : Nat} {rest : List (Nat × Nat)}
    {low d : Nat} (h : tryRotation (rotAccess a sa) (rotAccess b sb) low = some d) :
    rotLoop a b ((sa, sb) :: rest) low =
      if Nat.min d low = minPossible a.length b.length then Nat.min d low
      else rotLoop a b rest (Nat.min d low) := by
  show (match tryRotation (rotAccess a sa) (rotAccess b sb) low with
    | none => rotLoop a b rest low
    | some d =>
      if Nat.min d low = minPossible a.length b.length then Nat.min d low
      else rotLoop a b rest (Nat.min d low)) = _
  rw [h]

/-- The rotation loop never exceeds its accumulator. -/
theorem rotLoop_le_init (a b : List α) (P : List (Nat × Nat)) (low : Nat) :
    rotLoop a b P low ≤ low := by
  induction P generalizing low with
  | nil => exact Nat.le_refl _
  | cons p rest ih =>
    obtain ⟨sa, sb⟩ := p
    cases htr : tryRotation (rotAccess a sa) (rotAccess b sb) low with
    | none =>
      rw [rotLoop_cons_none htr]
      exact ih low
    | some d =>
      rw [rotLoop_cons_some htr]
      split
      · exact Nat.min_le_right _ _
      · exact le_trans (ih _) (Nat.min_le_right _ _)

/-- The rotation loop result is bounded by the true distance of every
valid pair it processes. -/
theorem rotLoop_le_mem (a b : List α) (P : List (Nat × Nat)) (low : Nat)
    (hP : ∀ p ∈ P, p.1 ≤ a.length ∧ p.2 ≤ b.length) :
    ∀ p ∈ P, rotLoop a b P low ≤ lev (rotAccess a p.1) (rotAccess b p.2) := by
  induction P generalizing low with
  | nil => intro p hp; exact absurd hp (List.not_mem_nil p)
  | cons q rest ih =>
    obtain ⟨sa, sb⟩ := q
    intro p hp
    cases htr : tryRotation (rotAccess a sa) (rotAccess b sb) low with
    | none =>
      have hlow : low ≤ lev (rotAccess a sa) (rotAccess b sb) := tryRotation_none_le htr
      rw [rotLoop_cons_none htr]
      rcases List.mem_cons.mp hp with rfl | hp'
      · exact le_trans (rotLoop_le_init a b rest low) hlow
      · exact ih low (fun q hq => hP q (List.mem_cons_of_mem _ hq)) p hp'
    | some d =>
      have hd : d = lev (rotAccess a sa) (rotAccess b sb) := tryRotation_some_eq htr
      rw [rotLoop_cons_some htr]
      by_cases hc : Nat.min d low = minPossible a.length b.length
      · rw [if_pos hc, hc]
        obtain ⟨hpa, hpb⟩ := hP p hp
        have hla := length_rotAccess a hpa
        have hlb := length_rotAccess b hpb
        have hmp := minPossible_le_lev (rotAccess a p.1) (rotAccess b p.2)
        rw [hla, hlb] at hmp
        exact hmp
      · rw [if_neg hc]
        rcases List.mem_cons.mp hp with rfl | hp'
        · exact le_trans (rotLoop_le_init a b rest _)
            (le_trans (Nat.min_le_left d low) (le_of_eq hd))
        · exact ih (Nat.min d low) (fun q hq => hP q (List.mem_cons_of_mem _ hq)) p hp'

/-- The rotation loop result is the accumulator or an exactly computed
distance of one of its pairs. -/
theorem rotLoop_attained (a b : List α) (P : List (Nat × Nat)) (low : Nat) :
    rotLoop a b P low = low ∨
      ∃ p ∈ P, rotLoop a b P low = lev (rotAccess a p.1) (rotAccess b p.2) := by
  induction P generalizing low with
  | nil => exact Or.inl rfl
  | cons q rest ih =>
    obtain ⟨sa, sb⟩ := q
    cases htr : tryRotation (rotAccess a sa) (rotAccess b sb) low with
    | none =>
      rw [rotLoop_cons_none htr]
      rcases ih low with h | ⟨p, hp, hres⟩
      · exact Or.inl h
      · exact Or.inr ⟨p, List.mem_cons_of_mem _ hp, hres⟩
    | some d =>
      have hd : d = lev (rotAccess a sa) (rotAccess b sb) := tryRotation_some_eq htr
      rw [rotLoop_cons_some htr]
      by_cases hc : Nat.min d low = minPossible a.length b.length
      · rw [if_pos hc]
        rcases nat_min_choice d low with hm | hm
        · exact Or.inr ⟨(sa, sb), List.mem_cons_self _ _, hm.trans hd⟩
        · exact Or.inl hm
      · rw [if_neg hc]
        rcases ih (Nat.min d low) with h | ⟨p, hp, hres⟩
        · rcases nat_min_choice d low with hm | hm
          · exact Or.inr ⟨(sa, sb), List.mem_cons_self _ _, by rw [h, hm, hd]⟩
          · exact Or.inl (by rw [h, hm])
        · exact Or.inr ⟨p, List.mem_cons_of_mem _ hp, hres⟩

/-- Validity bounds for the members of the rotation pair list. -/
theorem rotPairs_valid (m n : Nat) :
    ∀ p ∈ rotPairs m n, p.1 ≤ m ∧ p.2 ≤ n := by
  intro p hp
  obtain ⟨sa, sb⟩ := p
  have h := mem_rotPairs.mp hp
  exact ⟨le_of_lt h.1, le_of_lt h.2⟩

/-- Characterization of `levenshtein_distance_with_rotation` on nonempty
inputs: the result is a lower bound of the plain distances of all
rotation pairs and is attained by one of them. -/
theorem levWithRotation_char (a b : List α) (ha : 0 < a.length) (hb : 0 < b.length) :
    (∀ sa, sa < a.length → ∀ sb, sb < b.length →
        levWithRotation a b ≤ lev (a.drop sa ++ a.take sa) (b.drop sb ++ b.take sb)) ∧
      ∃ sa, sa < a.length ∧ ∃ sb, sb < b.length ∧
        levWithRotation a b = lev (a.drop sa ++ a.take sa) (b.drop sb ++ b.take sb) := by
  have hne : (a.length = 0 || b.length = 0) = false := by
    simp only [Bool.or_eq_false_iff, decide_eq_false_iff_not]
    omega
  have hun : levWithRotation a b
      = rotLoop a b (rotPairs a.length b.length) (a.length + b.length) := by
    unfold levWithRotation
    rw [hne]
    simp
  constructor
  · intro sa hsa sb hsb
    rw [hun, ← rotAccess_eq a (le_of_lt hsa), ← rotAccess_eq b (le_of_lt hsb)]
    exact rotLoop_le_mem a b _ _ (rotPairs_valid _ _) (sa, sb)
      (mem_rotPairs.mpr ⟨hsa, hsb⟩)
  · rcases rotLoop_attained a b (rotPairs a.length b.length)
        (a.length + b.length) with h | ⟨p, hp, hres⟩
    · refine ⟨0, ha, 0, hb, ?_⟩
      rw [hun, ← rotAccess_eq a (Nat.zero_le _), ← rotAccess_eq b (Nat.zero_le _)]
      have h00 : ((0, 0) : Nat × Nat) ∈ rotPairs a.length b.length :=
        mem_rotPairs.mpr ⟨ha, hb⟩
      have hle : rotLoop a b (rotPairs a.length b.length) (a.length + b.length)
          ≤ lev (rotAccess a 0) (rotAccess b 0) :=
        rotLoop_le_mem a b _ (a.length + b.length) (rotPairs_valid _ _) (0, 0) h00
      have h2 : (rotAccess a 0).length = a.length := length_rotAccess a (Nat.zero_le _)
      have h3 : (rotAccess b 0).length = b.length := length_rotAccess b (Nat.zero_le _)
      have hub : lev (rotAccess a 0) (rotAccess b 0) ≤ a.length + b.length := by
        have h1 := M_le_add (rotAccess a 0) (rotAccess b 0)
          ((rotAccess a 0).length) ((rotAccess b 0).length)
        unfold lev
        omega
      omega
    · obtain ⟨sa, sb⟩ := p
      have hm := mem_rotPairs.mp hp
      exact ⟨sa, hm.1, sb, hm.2, by
        rw [hun, hres, rotAccess_eq a (le_of_lt hm.1), rotAccess_eq b (le_of_lt hm.2)]⟩

end EditDistance

section ClaimC2

/-- Claim C2: for all integer lists, `levenshtein_distance_with_rotation`
returns the sum of lengths when either list is empty, and otherwise
returns exactly the minimum over all start offsets of the plain
Levenshtein distance between the two rotated lists - the lower-bound
bail-out and early-row pruning never change the returned integer. -/
theorem lev_with_rotation_is_rotation_minimum (a b : List Int) :
    ((a.length = 0 ∨ b.length = 0) → levWithRotation a b = a.length + b.length) ∧
    (0 < a.length → 0 < b.length →
      (∀ sa, sa < a.length → ∀ sb, sb < b.length →
          levWithRotation a b ≤ lev (a.drop sa ++ a.take sa) (b.drop sb ++ b.take sb)) ∧
        ∃ sa, sa < a.length ∧ ∃ sb, sb < b.length ∧
          levWithRotation a b
            = lev (a.drop sa ++ a.take sa) (b.drop sb ++ b.take sb)) := by
  constructor
  · intro h
    have hc : (a.length = 0 || b.length = 0) = true := by
      simp only [Bool.or_eq_true, decide_eq_true_eq]
      exact h
    unfold levWithRotation
    rw [hc]
    simp
  · intro ha hb
    exact levWithRotation_char a b ha hb

/-- Witness for C2 at concrete integer lists. -/
theorem lev_with_rotation_is_rotation_minimum_witness :
    (((([1, 2, 3] : List Int).length = 0 ∨ ([3, 1] : List Int).length = 0) →
        levWithRotation ([1, 2, 3] : List Int) [3, 1] = ([1, 2, 3] : List Int).length
          + ([3, 1] : List Int).length) ∧
    (0 < ([1, 2, 3] : List Int).length → 0 < ([3, 1] : List Int).length →
      (∀ sa, sa < ([1, 2, 3] : List Int).length → ∀ sb, sb < ([3, 1] : List Int).length →
          levWithRotation ([1, 2, 3] : List Int) [3, 1]
            ≤ lev (([1, 2, 3] : List Int).drop sa ++ ([1, 2, 3] : List Int).take sa)
                (([3, 1] : List Int).drop sb ++ ([3, 1] : List Int).take sb)) ∧
        ∃ sa, sa < ([1, 2, 3] : List Int).length ∧
          ∃ sb, sb < ([3, 1] : List Int).length ∧
            levWithRotation ([1, 2, 3] : List Int) [3, 1]
              = lev (([1, 2, 3] : List Int).drop sa ++ ([1, 2, 3] : List Int).take sa)
                  (([3, 1] : List Int).drop sb ++ ([3, 1] : List Int).take sb))) :=
  lev_with_rotation_is_rotation_minimum [1, 2, 3] [3, 1]

end ClaimC2

section Scoring

/-- Whether some link of the sequence has the given concept as source
(`Sequence.has_source`). -/
def Sequence.hasSource (links : List Link) (c : Nat) : Bool :=
  (Sequence.indexOfSourceWithConcept links c).isSome

/-- Normalized rotation distance between two sequences
(`Sequence.distance`); `none` models the `float('inf')` returned for
non-loops or empty sequences, and the rationals model the exact values
of the float arithmetic. -/
def seqDistance (a b : List Link) : Option ℚ :=
  if Sequence.isLoop a = false ∨ Sequence.isLoop b = false then none
  else if a.length = 0 ∨ b.length = 0 then none
  else
    let ia := Sequence.sourceIds a
    let ib := Sequence.sourceIds b
    let denom := ia.length + ib.length
    if 0 < denom then some ((levWithRotation ia ib : ℚ) / (denom : ℚ))
    else some 0

/-- The distance cache `LoopSet.distances`, keyed by the unordered id
pair (stored as min, max). -/
abbrev Cache : Type := List ((Nat × Nat) × Option ℚ)

/-- Cached distance between two id-carrying loops
(`LoopSet.get_distance`): look the unordered pair up, else compute,
store and return. -/
def getDistance (st : Cache) (a b : Nat × List Link) : Option ℚ × Cache :=
  let key := (Nat.min a.1 b.1, Nat.max a.1 b.1)
  match List.lookup key st with
  | some d => (d, st)
  | none =>
    let d := seqDistance a.2 b.2
    (d, ((key, d) :: st : List ((Nat × Nat) × Option ℚ)))

/-- One distance-update pass over the remaining working entries
(`get_concepts_and_scores`, inner `for source_loop in source_loops`
loop): each entry's score is lowered to the distance to the last added
loop when that distance is smaller; the cache is threaded left to
right. -/
def updateAll (st : Cache) (last : Nat × List Link) :
    List ((Nat × List Link) × ℚ) → List ((Nat × List Link) × ℚ) × Cache
  | [] => ([], st)
  | e :: rest =>
    let p := getDistance st e.1 last
    let sc := match p.1 with
      | none => e.2
      | some q => if q < e.2 then q else e.2
    let r := updateAll p.2 last rest
    ((e.1, sc) :: r.1, r.2)

/-- The scan for the entry of minimum score (`min_idx` / `min_score`
selection): strictly smaller scores move the index, so the earliest
index with the minimum wins; `none` models the initial `float('inf')`. -/
def selectMinAux : List ℚ → Nat → Nat → Option ℚ → Nat
  | [], _, best, _ => best
  | q :: rest, idx, best, cur =>
    match cur with
    | none => selectMinAux rest (idx + 1) idx (some q)
    | some m =>
      if q < m then selectMinAux rest (idx + 1) idx (some q)
      else selectMinAux rest (idx + 1) best (some m)

/-- Index of the earliest entry with the smallest score. -/
def selectMin (scores : List ℚ) : Nat :=
  selectMinAux scores 0 0 none

/-- The greedy accumulation loop of `get_concepts_and_scores`: while
entries remain, update all scores against the last added loop, pop the
earliest minimum, and add its size times its score to the total. The
fuel equals the initial number of entries, which the loop consumes one
per iteration. -/
def greedyLoop : Nat → Cache → (Nat × List Link) → ℚ →
    List ((Nat × List Link) × ℚ) → ℚ × Cache
  | 0, st, _, total, _ => (total, st)
  | n + 1, st, last, total, entries =>
    match entries with
    | [] => (total, st)
    | e :: rest =>
      let u := updateAll st last (e :: rest)
      let k := selectMin (u.1.map (fun x => x.2))
      let chosen := u.1.getD k ((0, []), 1)
      greedyLoop n u.2 chosen.1
        (total + (chosen.1.2.length : ℚ) * chosen.2) (u.1.eraseIdx k)

/-- Scoring of one concept (`get_concepts_and_scores`, body of the
`for concept in concepts` loop): collect the loops containing the
concept from the size-sorted list, skip when at most one, else seed with
the popped last entry and run the greedy loop. -/
def scoreConcept (st : Cache) (loopsBySz : List (Nat × List Link)) (c : Nat) :
    Option ℚ × Cache :=
  let sourceLoops := (loopsBySz.filter (fun p => Sequence.hasSource p.2 c)).map
    (fun p => (p, (1 : ℚ)))
  if sourceLoops.length ≤ 1 then (none, st)
  else
    match sourceLoops.getLast? with
    | none => (none, st)
    | some lastE =>
      let working := sourceLoops.dropLast
      (some (greedyLoop working.length st lastE.1 ((lastE.1.2.length : ℚ)) working).1,
        (greedyLoop working.length st lastE.1 ((lastE.1.2.length : ℚ)) working).2)

/-- The stored loops paired with the dense ids `finalize` assigns (loop
at sorted position `i` has id `i`). -/
def indexedLoops (L : List (List Link)) : List (Nat × List Link) :=
  L.enum

/-- `LoopSet.loops_sorted_by_size`: a stable descending sort by size of
the finalized list (Python `sorted(..., key=get_size, reverse=True)`
keeps ties in list order). -/
def loopsBySize (L : List (List Link)) : List (Nat × List Link) :=
  (indexedLoops L).mergeSort (fun x y => y.2.length ≤ x.2.length)

/-- The concept loop of `get_concepts_and_scores`, iterating the
concepts in the given order and threading the distance cache; emits one
`(concept, score)` pair per scored concept. -/
def scoresFold (loopsBySz : List (Nat × List Link)) :
    List Nat → Cache → List (Nat × ℚ)
  | [], _ => []
  | c :: cs, st =>
    match scoreConcept st loopsBySz c with
    | (none, st') => scoresFold loopsBySz cs st'
    | (some q, st') => (c, q) :: scoresFold loopsBySz cs st'

/-- `LoopSet.get_concepts_and_scores` on a finalized loop list, with the
set-iteration order over concepts passed explicitly (Python set order is
unspecified) and the fresh empty cache of a new `LoopSet`. -/
def getConceptsAndScores (L : List (List Link)) (order : List Nat) :
    List (Nat × ℚ) :=
  scoresFold (loopsBySize L) order ([] : List ((Nat × Nat) × Option ℚ))

/-- Modelled from the claim: the normalized reference distance
`lev_cyclic(a.ids(), b.ids()) / (|a| + |b|)`. -/
def refDist (a b : List Link) : ℚ :=
  (levWithRotation (Sequence.sourceIds a) (Sequence.sourceIds b) : ℚ)
    / ((a.length + b.length : Nat) : ℚ)

/-- Modelled from the claim: the reference order - size descending with
ties in canonical repr order (x may precede y when its repr is not
greater). -/
def refLe (x y : List Link) : Bool :=
  (decide (y.length < x.length)) ||
    ((x.length == y.length) && !(decide (Sequence.seqRepr y < Sequence.seqRepr x)))

/-- Modelled from the claim: S sorted by size descending with ties in
canonical repr order. -/
def refSorted (S : List (List Link)) : List (List Link) :=
  S.mergeSort refLe

/-- Modelled from the claim: the greedy reference loop - repeatedly
lower each remaining loop's best_dist to the minimum of its value and
its normalized distance to the last-added loop, select the earliest
indexed entry with the smallest best_dist, and add size times best_dist
to the total. -/
def refGreedy : Nat → List Link → ℚ → List (List Link × ℚ) → ℚ
  | 0, _, total, _ => total
  | n + 1, last, total, entries =>
    match entries with
    | [] => total
    | e :: rest =>
      let entries' := (e :: rest).map (fun x => (x.1, min x.2 (refDist x.1 last)))
      let k := selectMin (entries'.map (fun x => x.2))
      let chosen := entries'.getD k ([], 1)
      refGreedy n chosen.1
        (total + (chosen.1.length : ℚ) * chosen.2) (entries'.eraseIdx k)

/-- Modelled from the claim: the greedy reference computation for a
concept - `none` when the concept is in at most one stored loop, else
the total started at the seed's size and accumulated greedily. -/
def refScoreOpt (L : List (List Link)) (c : Nat) : Option ℚ :=
  let S := L.filter (fun ls => Sequence.hasSource ls c)
  if S.length ≤ 1 then none
  else
    let entries := (refSorted S).map (fun ls => (ls, (1 : ℚ)))
    match entries.getLast? with
    | none => none
    | some lastE =>
      some (refGreedy entries.dropLast.length lastE.1
        ((lastE.1.length : ℚ)) entries.dropLast)

/-- A finalized `LoopSet`: every stored sequence is a loop and the list
is strictly ascending in the representation order (the state `finalize`
establishes: loops deduplicated by repr and sorted by repr). -/
structure FinalizedWF (L : List (List Link)) : Prop where
  loops : ∀ ls ∈ L, Sequence.isLoop ls = true
  sorted : L.Pairwise (fun x y => Sequence.seqRepr x < Sequence.seqRepr y)

/-- A loop is nonempty. -/
theorem ne_nil_of_isLoop {ls : List Link} (h : Sequence.isLoop ls = true) :
    ls ≠ [] := by
  intro e
  rw [e] at h
  simp [Sequence.isLoop] at h

section EditSymm

variable {α : Type} [DecidableEq α]

/-- The DP matrix is symmetric up to transposition. -/
theorem M_symm (a b : List α) : ∀ i j, M a b i j = M b a j i := by
  intro i
  induction i with
  | zero =>
    intro j
    cases j with
    | zero => rfl
    | succ j => rw [M_zero', M_succ_zero]
  | succ i ih =>
    intro j
    induction j with
    | zero => rw [M_succ_zero, M_zero']
    | succ j ihj =>
      have hcost : (if a[i]? = b[j]? then 0 else 1)
          = (if b[j]? = a[i]? then 0 else 1) := by
        by_cases h : a[i]? = b[j]?
        · rw [if_pos h, if_pos h.symm]
        · rw [if_neg h, if_neg (fun hh => h hh.symm)]
      rw [M_succ_succ, M_succ_succ, ihj, ih (j + 1), ih j, hcost]
      congr 1
      exact Nat.min_comm _ _

/-- The plain Levenshtein distance is symmetric. -/
theorem lev_symm (a b : List α) : lev a b = lev b a :=
  M_symm a b a.length b.length

/-- The empty-input branch of the rotation distance. -/
theorem levWithRotation_empty {a b : List α} (h : a.length = 0 ∨ b.length = 0) :
    levWithRotation a b = a.length + b.length := by
  have hc : (a.length = 0 || b.length = 0) = true := by
    simp only [Bool.or_eq_true, decide_eq_true_eq]
    exact h
  unfold levWithRotation
  rw [hc]
  simp

/-- The rotation-minimum distance is symmetric. -/
theorem levWithRotation_symm (a b : List α) :
    levWithRotation a b = levWithRotation b a := by
  by_cases ha : a.length = 0
  · rw [levWithRotation_empty (Or.inl ha), levWithRotation_empty (Or.inr ha)]
    omega
  · by_cases hb : b.length = 0
    · rw [levWithRotation_empty (Or.inr hb), levWithRotation_empty (Or.inl hb)]
      omega
    · have ha' : 0 < a.length := Nat.pos_of_ne_zero ha
      have hb' : 0 < b.length := Nat.pos_of_ne_zero hb
      obtain ⟨bAB, sa, hsa, sb, hsb, hatAB⟩ :
          _ ∧ ∃ sa, sa < a.length ∧ ∃ sb, sb < b.length ∧ _ :=
        levWithRotation_char a b ha' hb'
      obtain ⟨bBA, sb', hsb', sa', hsa', hatBA⟩ :
          _ ∧ ∃ sb', sb' < b.length ∧ ∃ sa', sa' < a.length ∧ _ :=
        levWithRotation_char b a hb' ha'
      apply Nat.le_antisymm
      · rw [hatBA, ← lev_symm]
        exact bAB sa' hsa' sb' hsb'
      · rw [hatAB, ← lev_symm]
        exact bBA sb hsb sa hsa

end EditSymm

section ScoringLemmas

/-- On two loops, `Sequence.distance` is the normalized reference
distance. -/
theorem seqDistance_eq_refDist {a b : List Link}
    (ha : Sequence.isLoop a = true) (hb : Sequence.isLoop b = true) :
    seqDistance a b = some (refDist a b) := by
  have ha' : a ≠ [] := ne_nil_of_isLoop ha
  have hb' : b ≠ [] := ne_nil_of_isLoop hb
  have hla : 0 < a.length := List.length_pos.mpr ha'
  have hlb : 0 < b.length := List.length_pos.mpr hb'
  have hia : (Sequence.sourceIds a).length = a.length := List.length_map _ _
  have hib : (Sequence.sourceIds b).length = b.length := List.length_map _ _
  unfold seqDistance refDist
  rw [if_neg (by simp [ha, hb]), if_neg (by omega), if_pos (by omega)]
  rw [hia, hib]

/-- `Sequence.distance` is symmetric. -/
theorem seqDistance_symm (a b : List Link) : seqDistance a b = seqDistance b a := by
  by_cases ha : Sequence.isLoop a = true
  · by_cases hb : Sequence.isLoop b = true
    · rw [seqDistance_eq_refDist ha hb, seqDistance_eq_refDist hb ha]
      unfold refDist
      rw [levWithRotation_symm, Nat.add_comm b.length a.length]
    · have hb' : Sequence.isLoop b = false := by simpa using hb
      unfold seqDistance
      rw [if_pos (Or.inr hb'), if_pos (Or.inl hb')]
  · have ha' : Sequence.isLoop a = false := by simpa using ha
    unfold seqDistance
    rw [if_pos (Or.inl ha'), if_pos (Or.inr ha')]

/-- The id-to-loop binding of an indexed loop: the id is in range and
names the loop at that position of the finalized list. -/
def ValidEntry (L : List (List Link)) (p : Nat × List Link) : Prop :=
  p.1 < L.length ∧ p.2 = L.getD p.1 []

/-- Cache well-formedness: every cached value is the distance of the two
loops its key names. -/
def CacheWF (L : List (List Link)) (st : Cache) : Prop :=
  ∀ e ∈ st, e.2 = seqDistance (L.getD e.1.1 []) (L.getD e.1.2 [])

/-- Unfolding of `getDistance` on a cache hit. -/
theorem getDistance_some {st : Cache} {a b : Nat × List Link} {d : Option ℚ}
    (hl : List.lookup (Nat.min a.1 b.1, Nat.max a.1 b.1) st = some d) :
    getDistance st a b = (d, st) := by
  simp only [getDistance]
  rw [hl]

/-- Unfolding of `getDistance` on a cache miss. -/
theorem getDistance_none {st : Cache} {a b : Nat × List Link}
    (hl : List.lookup (Nat.min a.1 b.1, Nat.max a.1 b.1) st = none) :
    getDistance st a b = (seqDistance a.2 b.2,
      ((Nat.min a.1 b.1, Nat.max a.1 b.1), seqDistance a.2 b.2) :: st) := by
  simp only [getDistance]
  rw [hl]

/-- Transparency of the distance cache: under the well-formedness
invariant, `get_distance` returns exactly the fresh distance and
preserves the invariant. -/
theorem getDistance_eq {L : List (List Link)} {st : Cache} {a b : Nat × List Link}
    (hWF : CacheWF L st) (ha : ValidEntry L a) (hb : ValidEntry L b) :
    (getDistance st a b).1 = seqDistance a.2 b.2 ∧
      CacheWF L (getDistance st a b).2 := by
  obtain ⟨ha1, ha2⟩ := ha
  obtain ⟨hb1, hb2⟩ := hb
  cases hl : List.lookup (Nat.min a.1 b.1, Nat.max a.1 b.1) st with
  | some d =>
    rw [getDistance_some hl]
    obtain ⟨l₁, l₂, heq, -⟩ := List.lookup_eq_some_iff.mp hl
    have hmem : ((Nat.min a.1 b.1, Nat.max a.1 b.1), d) ∈ st := by
      rw [heq]
      exact List.mem_append_right _ (List.mem_cons_self _ _)
    have hd : d = seqDistance (L.getD (Nat.min a.1 b.1) [])
        (L.getD (Nat.max a.1 b.1) []) := hWF _ hmem
    refine ⟨?_, hWF⟩
    rcases Nat.le_total a.1 b.1 with hab | hab
    · have hmin : Nat.min a.1 b.1 = a.1 := Nat.min_eq_left hab
      have hmax : Nat.max a.1 b.1 = b.1 := Nat.max_eq_right hab
      rw [hmin, hmax] at hd
      rw [hd, ← ha2, ← hb2]
    · have hmin : Nat.min a.1 b.1 = b.1 := Nat.min_eq_right hab
      have hmax : Nat.max a.1 b.1 = a.1 := Nat.max_eq_left hab
      rw [hmin, hmax] at hd
      rw [hd, ← ha2, ← hb2, seqDistance_symm]
  | none =>
    rw [getDistance_none hl]
    refine ⟨rfl, ?_⟩
    intro e he
    rcases List.mem_cons.mp he with rfl | he'
    · rcases Nat.le_total a.1 b.1 with hab | hab
      · have hmin : Nat.min a.1 b.1 = a.1 := Nat.min_eq_left hab
        have hmax : Nat.max a.1 b.1 = b.1 := Nat.max_eq_right hab
        simp only [hmin, hmax]
        rw [← ha2, ← hb2]
      · have hmin : Nat.min a.1 b.1 = b.1 := Nat.min_eq_right hab
        have hmax : Nat.max a.1 b.1 = a.1 := Nat.max_eq_left hab
        simp only [hmin, hmax]
        rw [← ha2, ← hb2, seqDistance_symm]
    · exact hWF e he'

/-- Erasing an index commutes with mapping. -/
theorem map_eraseIdx' {β γ : Type} (f : β → γ) :
    ∀ (l : List β) (k : Nat), (l.map f).eraseIdx k = (l.eraseIdx k).map f := by
  intro l
  induction l with
  | nil => intro k; rfl
  | cons x t ih =>
    intro k
    cases k with
    | zero => rfl
    | succ k =>
      simp only [List.map_cons, List.eraseIdx_cons_succ, ih]

/-- Reading at an index with a mapped default commutes with mapping. -/
theorem getD_map' {β γ : Type} (f : β → γ) (l : List β) (k : Nat) (d : β) :
    (l.map f).getD k (f d) = f (l.getD k d) := by
  rw [List.getD_eq_getElem?_getD, List.getD_eq_getElem?_getD, List.getElem?_map]
  cases l[k]? with
  | none => rfl
  | some x => rfl

/-- Unfolding of the minimum-scan with no current minimum. -/
theorem selectMinAux_cons_none {q : ℚ} {rest : List ℚ} {idx best : Nat} :
    selectMinAux (q :: rest) idx best none
      = selectMinAux rest (idx + 1) idx (some q) := rfl

/-- Unfolding of the minimum-scan with a current minimum. -/
theorem selectMinAux_cons_some {q m : ℚ} {rest : List ℚ} {idx best : Nat} :
    selectMinAux (q :: rest) idx best (some m)
      = if q < m then selectMinAux rest (idx + 1) idx (some q)
        else selectMinAux rest (idx + 1) best (some m) := rfl

/-- Range of the minimum-scan: it returns the running best or an index
of the scanned segment. -/
theorem selectMinAux_bound :
    ∀ (scores : List ℚ) (idx best : Nat) (cur : Option ℚ),
      selectMinAux scores idx best cur = best ∨
        (idx ≤ selectMinAux scores idx best cur ∧
          selectMinAux scores idx best cur < idx + scores.length) := by
  intro scores
  induction scores with
  | nil => intro idx best cur; exact Or.inl rfl
  | cons q rest ih =>
    intro idx best cur
    cases cur with
    | none =>
      rw [selectMinAux_cons_none]
      rcases ih (idx + 1) idx (some q) with h | ⟨h1, h2⟩ <;>
        · rw [List.length_cons]
          right
          omega
    | some m =>
      rw [selectMinAux_cons_some]
      by_cases hq : q < m
      · rw [if_pos hq]
        rcases ih (idx + 1) idx (some q) with h | ⟨h1, h2⟩ <;>
          · rw [List.length_cons]
            right
            omega
      · rw [if_neg hq]
        rcases ih (idx + 1) best (some m) with h | ⟨h1, h2⟩
        · exact Or.inl h
        · rw [List.length_cons]
          right
          omega

/-- On a nonempty score list the scan returns an in-bounds index. -/
theorem selectMin_lt_length (scores : List ℚ) (h : scores ≠ []) :
    selectMin scores < scores.length := by
  cases scores with
  | nil => exact absurd rfl h
  | cons q rest =>
    show selectMinAux (q :: rest) 0 0 none < (q :: rest).length
    rw [selectMinAux_cons_none, List.length_cons]
    rcases selectMinAux_bound rest (0 + 1) 0 (some q) with h' | ⟨h1, h2⟩
    · omega
    · omega

/-- A position read inside the bounds of a finalized list is a member. -/
theorem getD_mem_of_lt {L : List (List Link)} {i : Nat} (h : i < L.length) :
    L.getD i [] ∈ L := by
  rw [List.getD_eq_getElem?_getD, List.getElem?_eq_getElem h]
  exact List.getElem_mem h

/-- A valid indexed entry of a finalized loop set is a loop. -/
theorem isLoop_of_valid {L : List (List Link)}
    (hLl : ∀ ls ∈ L, Sequence.isLoop ls = true) {p : Nat × List Link}
    (h : ValidEntry L p) : Sequence.isLoop p.2 = true := by
  obtain ⟨h1, h2⟩ := h
  rw [h2]
  exact hLl _ (getD_mem_of_lt h1)

/-- The projection from a cache-side working entry to the reference
entry: drop the id, keep the loop and the score. -/
def toRefEntry (x : (Nat × List Link) × ℚ) : List Link × ℚ :=
  (x.1.2, x.2)

/-- The guarded score update of the code equals the reference `min`. -/
theorem update_if_eq_min (q sc : ℚ) : (if q < sc then q else sc) = min sc q := by
  by_cases hlt : q < sc
  · rw [if_pos hlt]
    exact (min_eq_right hlt.le).symm
  · rw [if_neg hlt]
    exact (min_eq_left (le_of_not_lt hlt)).symm

/-- Transparency of the update pass: under the invariants it computes
the reference `min` update of every entry and preserves cache
well-formedness. -/
theorem updateAll_eq {L : List (List Link)} {last : Nat × List Link}
    (hLl : ∀ ls ∈ L, Sequence.isLoop ls = true) (hlast : ValidEntry L last) :
    ∀ (entries : List ((Nat × List Link) × ℚ)) (st : Cache), CacheWF L st →
      (∀ e ∈ entries, ValidEntry L e.1) →
      (updateAll st last entries).1
          = entries.map (fun e => (e.1, min e.2 (refDist e.1.2 last.2)))
        ∧ CacheWF L (updateAll st last entries).2 := by
  have hll : Sequence.isLoop last.2 = true := isLoop_of_valid hLl hlast
  intro entries
  induction entries with
  | nil =>
    intro st hWF hv
    exact ⟨rfl, hWF⟩
  | cons e rest ih =>
    intro st hWF hv
    have hve : ValidEntry L e.1 := hv e (List.mem_cons_self _ _)
    have hloopE : Sequence.isLoop e.1.2 = true := isLoop_of_valid hLl hve
    obtain ⟨hd1, hd2⟩ := getDistance_eq hWF hve hlast
    obtain ⟨ih1, ih2⟩ := ih (getDistance st e.1 last).2 hd2
      (fun x hx => hv x (List.mem_cons_of_mem _ hx))
    rw [seqDistance_eq_refDist hloopE hll] at hd1
    constructor
    · simp only [updateAll]
      rw [hd1, ih1, List.map_cons]
      congr 1
      show (e.1, if refDist e.1.2 last.2 < e.2 then refDist e.1.2 last.2 else e.2)
        = (e.1, min e.2 (refDist e.1.2 last.2))
      rw [update_if_eq_min]
    · simp only [updateAll]
      exact ih2

/-- Transparency of the greedy loop: with a well-formed cache it
computes exactly the reference greedy total and preserves the cache
invariant. -/
theorem greedyLoop_eq {L : List (List Link)}
    (hLl : ∀ ls ∈ L, Sequence.isLoop ls = true) :
    ∀ (fuel : Nat) (st : Cache) (last : Nat × List Link) (total : ℚ)
      (entries : List ((Nat × List Link) × ℚ)),
      CacheWF L st → ValidEntry L last → (∀ e ∈ entries, ValidEntry L e.1) →
      (greedyLoop fuel st last total entries).1
          = refGreedy fuel last.2 total (entries.map toRefEntry)
        ∧ CacheWF L (greedyLoop fuel st last total entries).2 := by
  intro fuel
  induction fuel with
  | zero =>
    intro st last total entries hWF _ _
    exact ⟨rfl, hWF⟩
  | succ n ih =>
    intro st last total entries hWF hlast hv
    cases entries with
    | nil => exact ⟨rfl, hWF⟩
    | cons e rest =>
      obtain ⟨hu1, hu2⟩ := updateAll_eq hLl hlast (e :: rest) st hWF hv
      have hmapped : (updateAll st last (e :: rest)).1.map toRefEntry
          = ((e :: rest).map toRefEntry).map
              (fun x => (x.1, min x.2 (refDist x.1 last.2))) := by
        rw [hu1, List.map_map, List.map_map]
        rfl
      have hscores : (((e :: rest).map toRefEntry).map
              (fun x => (x.1, min x.2 (refDist x.1 last.2)))).map (fun x => x.2)
          = (updateAll st last (e :: rest)).1.map (fun x => x.2) := by
        rw [← hmapped, List.map_map]
        rfl
      have hlen : (updateAll st last (e :: rest)).1.length = rest.length + 1 := by
        rw [hu1, List.length_map, List.length_cons]
      have hne : (updateAll st last (e :: rest)).1.map (fun x => x.2) ≠ [] := by
        intro hcon
        have hl := congrArg List.length hcon
        rw [List.length_map, hlen] at hl
        simp at hl
      have hk : selectMin ((updateAll st last (e :: rest)).1.map (fun x => x.2))
          < (updateAll st last (e :: rest)).1.length := by
        have hb := selectMin_lt_length _ hne
        rwa [List.length_map] at hb
      have hchosen_mem : (updateAll st last (e :: rest)).1.getD
          (selectMin ((updateAll st last (e :: rest)).1.map (fun x => x.2)))
          ((0, []), 1) ∈ (updateAll st last (e :: rest)).1 := by
        rw [List.getD_eq_getElem?_getD, List.getElem?_eq_getElem hk]
        exact List.getElem_mem hk
      have hall_u : ∀ z ∈ (updateAll st last (e :: rest)).1, ValidEntry L z.1 := by
        intro z hz
        rw [hu1] at hz
        obtain ⟨x, hx, hxe⟩ := List.mem_map.mp hz
        rw [← hxe]
        exact hv x hx
      have hchosen_valid : ValidEntry L ((updateAll st last (e :: rest)).1.getD
          (selectMin ((updateAll st last (e :: rest)).1.map (fun x => x.2)))
          ((0, []), 1)).1 := hall_u _ hchosen_mem
      have hrest_valid : ∀ x ∈ (updateAll st last (e :: rest)).1.eraseIdx
          (selectMin ((updateAll st last (e :: rest)).1.map (fun x => x.2))),
          ValidEntry L x.1 := fun x hx =>
        hall_u x ((List.eraseIdx_sublist _ _).subset hx)
      have hgd : (((updateAll st last (e :: rest)).1).map toRefEntry).getD
          (selectMin ((updateAll st last (e :: rest)).1.map (fun x => x.2))) ([], 1)
          = toRefEntry ((updateAll st last (e :: rest)).1.getD
              (selectMin ((updateAll st last (e :: rest)).1.map (fun x => x.2)))
              ((0, []), 1)) :=
        getD_map' toRefEntry _ _ ((0, []), 1)
      obtain ⟨hrec1, hrec2⟩ := ih (updateAll st last (e :: rest)).2
        ((updateAll st last (e :: rest)).1.getD
          (selectMin ((updateAll st last (e :: rest)).1.map (fun x => x.2)))
          ((0, []), 1)).1
        (total + (((updateAll st last (e :: rest)).1.getD
          (selectMin ((updateAll st last (e :: rest)).1.map (fun x => x.2)))
          ((0, []), 1)).1.2.length : ℚ)
            * ((updateAll st last (e :: rest)).1.getD
              (selectMin ((updateAll st last (e :: rest)).1.map (fun x => x.2)))
              ((0, []), 1)).2)
        ((updateAll st last (e :: rest)).1.eraseIdx
          (selectMin ((updateAll st last (e :: rest)).1.map (fun x => x.2))))
        hu2 hchosen_valid hrest_valid
      constructor
      · show (greedyLoop n (updateAll st last (e :: rest)).2
            ((updateAll st last (e :: rest)).1.getD
              (selectMin ((updateAll st last (e :: rest)).1.map (fun x => x.2)))
              ((0, []), 1)).1
            (total + (((updateAll st last (e :: rest)).1.getD
              (selectMin ((updateAll st last (e :: rest)).1.map (fun x => x.2)))
              ((0, []), 1)).1.2.length : ℚ)
                * ((updateAll st last (e :: rest)).1.getD
                  (selectMin ((updateAll st last (e :: rest)).1.map (fun x => x.2)))
                  ((0, []), 1)).2)
            ((updateAll st last (e :: rest)).1.eraseIdx
              (selectMin ((updateAll st last (e :: rest)).1.map (fun x => x.2))))).1
          = refGreedy n
            ((((e :: rest).map toRefEntry).map
              (fun x => (x.1, min x.2 (refDist x.1 last.2)))).getD
              (selectMin ((((e :: rest).map toRefEntry).map
                (fun x => (x.1, min x.2 (refDist x.1 last.2)))).map (fun x => x.2)))
              ([], 1)).1
            (total + (((((e :: rest).map toRefEntry).map
              (fun x => (x.1, min x.2 (refDist x.1 last.2)))).getD
              (selectMin ((((e :: rest).map toRefEntry).map
                (fun x => (x.1, min x.2 (refDist x.1 last.2)))).map (fun x => x.2)))
              ([], 1)).1.length : ℚ)
                * ((((e :: rest).map toRefEntry).map
                  (fun x => (x.1, min x.2 (refDist x.1 last.2)))).getD
                  (selectMin ((((e :: rest).map toRefEntry).map
                    (fun x => (x.1, min x.2 (refDist x.1 last.2)))).map
                      (fun x => x.2)))
                  ([], 1)).2)
            ((((e :: rest).map toRefEntry).map
              (fun x => (x.1, min x.2 (refDist x.1 last.2)))).eraseIdx
              (selectMin ((((e :: rest).map toRefEntry).map
                (fun x => (x.1, min x.2 (refDist x.1 last.2)))).map (fun x => x.2))))
        rw [hscores, ← hmapped, hgd, map_eraseIdx', hrec1]
        rfl
      · exact hrec2

/-- A relation that holds between all members of a list holds pairwise. -/
theorem pairwise_of_forall_mem {X : Type} {R : X → X → Prop} :
    ∀ {l : List X}, (∀ x ∈ l, ∀ y ∈ l, R x y) → l.Pairwise R := by
  intro l
  induction l with
  | nil => intro _; exact List.Pairwise.nil
  | cons x t ih =>
    intro h
    refine List.Pairwise.cons ?_ (ih ?_)
    · intro y hy
      exact h x (List.mem_cons_self _ _) y (List.mem_cons_of_mem _ hy)
    · intro a ha b hb
      exact h a (List.mem_cons_of_mem _ ha) b (List.mem_cons_of_mem _ hb)

/-- Stability of the size sort, as an equality of size classes: filtering
the stable sort at one size gives the same list as filtering the input. -/
theorem mergeSort_size_class {X : Type} (size : X → Nat) (l : List X) (s : Nat) :
    (l.mergeSort (fun x y => size y ≤ size x)).filter (fun x => size x == s)
      = l.filter (fun x => size x == s) := by
  have htrans : ∀ (a b c : X),
      (fun x y => (decide (size y ≤ size x))) a b = true →
      (fun x y => (decide (size y ≤ size x))) b c = true →
      (fun x y => (decide (size y ≤ size x))) a c = true := by
    intro a b c h1 h2
    simp only [decide_eq_true_eq] at h1 h2 ⊢
    omega
  have htotal : ∀ (a b : X),
      ((fun x y => (decide (size y ≤ size x))) a b
        || (fun x y => (decide (size y ≤ size x))) b a) = true := by
    intro a b
    simp only [Bool.or_eq_true, decide_eq_true_eq]
    omega
  have hc : (l.filter (fun x => size x == s)).Pairwise
      (fun x y => (decide (size y ≤ size x)) = true) := by
    apply pairwise_of_forall_mem
    intro x hx y hy
    have hxs := (List.mem_filter.mp hx).2
    have hys := (List.mem_filter.mp hy).2
    simp only [beq_iff_eq] at hxs hys
    simp only [decide_eq_true_eq, hxs, hys]
    exact Nat.le_refl s
  have hsub : List.Sublist (l.filter (fun x => size x == s))
      (l.mergeSort (fun x y => size y ≤ size x)) :=
    List.sublist_mergeSort htrans htotal hc (List.filter_sublist l)
  have hall : ∀ x ∈ l.filter (fun x => size x == s), (size x == s) = true :=
    fun x hx => (List.mem_filter.mp hx).2
  have hsub2 : List.Sublist (l.filter (fun x => size x == s))
      ((l.mergeSort (fun x y => size y ≤ size x)).filter (fun x => size x == s)) := by
    have h1 := hsub.filter (fun x => size x == s)
    rwa [List.filter_eq_self.mpr hall] at h1
  have hlen : ((l.mergeSort (fun x y => size y ≤ size x)).filter
      (fun x => size x == s)).length = (l.filter (fun x => size x == s)).length := by
    rw [← List.countP_eq_length_filter, ← List.countP_eq_length_filter]
    exact (List.mergeSort_perm l _).countP_eq _
  exact (hsub2.eq_of_length hlen.symm).symm

/-- A list pairwise sorted by size descending whose size classes are each
pairwise sorted by a tie relation is pairwise sorted lexicographically. -/
theorem pairwise_lex_of {X : Type} (size : X → Nat) (rlt : X → X → Prop) :
    ∀ (l : List X), l.Pairwise (fun x y => size y ≤ size x) →
      (∀ s, (l.filter (fun x => size x == s)).Pairwise rlt) →
      l.Pairwise (fun x y => size y < size x ∨ (size x = size y ∧ rlt x y)) := by
  intro l
  induction l with
  | nil => intro _ _; exact List.Pairwise.nil
  | cons x t ih =>
    intro h1 h2
    obtain ⟨hx1, ht1⟩ := List.pairwise_cons.mp h1
    refine List.Pairwise.cons ?_ (ih ht1 ?_)
    · intro y hy
      rcases Nat.lt_or_ge (size y) (size x) with hlt | hge
      · exact Or.inl hlt
      · have heq : size x = size y := Nat.le_antisymm hge (hx1 y hy)
        refine Or.inr ⟨heq, ?_⟩
        have hfx := h2 (size x)
        rw [List.filter_cons, if_pos (by simp)] at hfx
        have hyf : y ∈ t.filter (fun z => size z == size x) :=
          List.mem_filter.mpr ⟨hy, by simp [heq.symm]⟩
        exact (List.pairwise_cons.mp hfx).1 y hyf
    · intro s
      have hfs := h2 s
      rw [List.filter_cons] at hfs
      by_cases hxs : (size x == s) = true
      · rw [if_pos hxs] at hfs
        exact (List.pairwise_cons.mp hfs).2
      · rw [if_neg hxs] at hfs
        exact hfs

/-- Filtering the enumeration on the payload and dropping the indices is
filtering the original list. -/
theorem enumFrom_filter_map_snd (p : List Link → Bool) :
    ∀ (L : List (List Link)) (i : Nat),
      ((L.enumFrom i).filter (fun x => p x.2)).map (fun x => x.2) = L.filter p := by
  intro L
  induction L with
  | nil => intro i; rfl
  | cons a t ih =>
    intro i
    show (((i, a) :: t.enumFrom (i + 1)).filter (fun x => p x.2)).map (fun x => x.2)
      = (a :: t).filter p
    rw [List.filter_cons, List.filter_cons]
    by_cases hp : p a = true
    · rw [if_pos (by simpa using hp), if_pos hp, List.map_cons, ih]
    · rw [if_neg (by simpa using hp), if_neg hp, ih]

/-- The `enum` form of the filtered projection identity. -/
theorem enum_filter_map_snd (p : List Link → Bool) (L : List (List Link)) :
    ((L.enum).filter (fun x => p x.2)).map (fun x => x.2) = L.filter p :=
  enumFrom_filter_map_snd p L 0

/-- Every element of the enumeration is a valid indexed entry. -/
theorem enum_valid (L : List (List Link)) :
    ∀ x ∈ L.enum, ValidEntry L x := by
  intro x hx
  obtain ⟨i, ls⟩ := x
  have h := List.mk_mem_enum_iff_getElem?.mp hx
  have hi : i < L.length := by
    rcases List.getElem?_eq_some_iff.mp h with ⟨hlt, -⟩
    exact hlt
  refine ⟨hi, ?_⟩
  show ls = L.getD i []
  rw [List.getD_eq_getElem?_getD, h]
  rfl

/-- Two stored loops of a finalized set with the same representation are
the same loop. -/
theorem repr_inj_of_sorted {L : List (List Link)}
    (hs : L.Pairwise (fun x y => Sequence.seqRepr x < Sequence.seqRepr y)) :
    ∀ a ∈ L, ∀ b ∈ L, Sequence.seqRepr a = Sequence.seqRepr b → a = b := by
  induction L with
  | nil => intro a ha; exact absurd ha (List.not_mem_nil a)
  | cons x t ih =>
    obtain ⟨hx, ht⟩ := List.pairwise_cons.mp hs
    intro a ha b hb heq
    rcases List.mem_cons.mp ha with rfl | ha'
    · rcases List.mem_cons.mp hb with rfl | hb'
      · rfl
      · exact absurd (heq ▸ hx b hb') (lt_irrefl _)
    · rcases List.mem_cons.mp hb with rfl | hb'
      · exact absurd (heq ▸ hx a ha') (by simp [heq])
      · exact ih ht a ha' b hb' heq

/-- The reference order is transitive. -/
theorem refLe_trans (a b c : List Link) (h1 : refLe a b = true)
    (h2 : refLe b c = true) : refLe a c = true := by
  simp only [refLe, Bool.or_eq_true, Bool.and_eq_true, decide_eq_true_eq,
    beq_iff_eq, Bool.not_eq_true', decide_eq_false_iff_not] at h1 h2 ⊢
  rcases h1 with h1 | ⟨h1e, h1r⟩
  · rcases h2 with h2 | ⟨h2e, h2r⟩
    · exact Or.inl (by omega)
    · exact Or.inl (by omega)
  · rcases h2 with h2 | ⟨h2e, h2r⟩
    · exact Or.inl (by omega)
    · refine Or.inr ⟨by omega, ?_⟩
      have hab : Sequence.seqRepr a ≤ Sequence.seqRepr b := le_of_not_lt h1r
      have hbc : Sequence.seqRepr b ≤ Sequence.seqRepr c := le_of_not_lt h2r
      exact not_lt_of_ge (le_trans hab hbc)

/-- The reference order is total. -/
theorem refLe_total (a b : List Link) : (refLe a b || refLe b a) = true := by
  simp only [refLe, Bool.or_eq_true, Bool.and_eq_true, decide_eq_true_eq,
    beq_iff_eq, Bool.not_eq_true', decide_eq_false_iff_not]
  rcases Nat.lt_trichotomy a.length b.length with h | h | h
  · exact Or.inr (Or.inl h)
  · by_cases hr : Sequence.seqRepr b < Sequence.seqRepr a
    · exact Or.inr (Or.inr ⟨h.symm, not_lt_of_gt hr⟩)
    · exact Or.inl (Or.inr ⟨h, hr⟩)
  · exact Or.inl (Or.inl h)

/-- Stability of the code's size sort against the reference order: the
loops containing a concept, read off the stable size-descending sort of
the finalized list, are exactly the claim's reference sort (size
descending, ties in repr order) of the filtered loops. -/
theorem code_filter_eq_refSorted {L : List (List Link)} (hWF : FinalizedWF L)
    (c : Nat) :
    ((loopsBySize L).filter (fun p => Sequence.hasSource p.2 c)).map (fun p => p.2)
      = refSorted (L.filter (fun ls => Sequence.hasSource ls c)) := by
  have hmapsnd : (L.enum).map (fun x => x.2) = L := List.enum_map_snd L
  have hEp : (L.enum).Pairwise
      (fun x y => Sequence.seqRepr x.2 < Sequence.seqRepr y.2) := by
    have h0 : ((L.enum).map (fun x => x.2)).Pairwise
        (fun x y => Sequence.seqRepr x < Sequence.seqRepr y) := by
      rw [hmapsnd]
      exact hWF.sorted
    exact (List.pairwise_map (f := fun x : Nat × List Link => x.2)
      (R := fun u v : List Link => Sequence.seqRepr u < Sequence.seqRepr v)).mp h0
  have hsortP : (loopsBySize L).Pairwise
      (fun x y => (decide (y.2.length ≤ x.2.length)) = true) := by
    apply List.sorted_mergeSort
    · intro x y z h1 h2
      simp only [decide_eq_true_eq] at h1 h2 ⊢
      omega
    · intro x y
      simp only [Bool.or_eq_true, decide_eq_true_eq]
      omega
  have h1 : (loopsBySize L).Pairwise (fun x y => y.2.length ≤ x.2.length) :=
    hsortP.imp (fun h => by simpa using h)
  have h2 : ∀ s, ((loopsBySize L).filter
      (fun x => x.2.length == s)).Pairwise
      (fun x y => Sequence.seqRepr x.2 < Sequence.seqRepr y.2) := by
    intro s
    have hclass : ((L.enum).mergeSort
          (fun x y => y.2.length ≤ x.2.length)).filter (fun x => x.2.length == s)
        = (L.enum).filter (fun x => x.2.length == s) :=
      mergeSort_size_class (fun x => x.2.length) (L.enum) s
    show ((L.enum).mergeSort (fun x y => y.2.length ≤ x.2.length)).filter
        (fun x => x.2.length == s) |>.Pairwise _
    rw [hclass]
    exact hEp.sublist (List.filter_sublist _)
  have hlex := pairwise_lex_of (fun x : Nat × List Link => x.2.length)
    (fun x y => Sequence.seqRepr x.2 < Sequence.seqRepr y.2)
    (loopsBySize L) h1 h2
  have hLHSpair : (((loopsBySize L).filter
      (fun p => Sequence.hasSource p.2 c)).map (fun p => p.2)).Pairwise
      (fun x y => refLe x y = true) := by
    rw [List.pairwise_map]
    refine (hlex.sublist (List.filter_sublist _)).imp ?_
    intro x y h
    simp only [refLe, Bool.or_eq_true, Bool.and_eq_true, decide_eq_true_eq,
      beq_iff_eq, Bool.not_eq_true', decide_eq_false_iff_not]
    rcases h with h | ⟨he, hr⟩
    · exact Or.inl h
    · exact Or.inr ⟨he, not_lt_of_gt hr⟩
  have hRHSpair : (refSorted (L.filter
      (fun ls => Sequence.hasSource ls c))).Pairwise (fun x y => refLe x y = true) := by
    apply List.sorted_mergeSort
    · exact refLe_trans
    · exact refLe_total
  have hpermL : List.Perm (((loopsBySize L).filter
      (fun p => Sequence.hasSource p.2 c)).map (fun p => p.2))
      (L.filter (fun ls => Sequence.hasSource ls c)) := by
    have hp1 : List.Perm ((loopsBySize L).filter (fun p => Sequence.hasSource p.2 c))
        ((L.enum).filter (fun p => Sequence.hasSource p.2 c)) :=
      (List.mergeSort_perm (L.enum) _).filter _
    have hp2 := hp1.map (fun p : Nat × List Link => p.2)
    rw [enum_filter_map_snd (fun ls => Sequence.hasSource ls c) L] at hp2
    exact hp2
  have hpermR : List.Perm (refSorted (L.filter (fun ls => Sequence.hasSource ls c)))
      (L.filter (fun ls => Sequence.hasSource ls c)) :=
    List.mergeSort_perm _ _
  have hperm := hpermL.trans hpermR.symm
  refine List.Perm.eq_of_sorted ?_ hLHSpair hRHSpair hperm
  intro a b ha hb hab hba
  have haS : a ∈ L := (List.filter_sublist L).subset (hpermL.subset ha)
  have hbS : b ∈ L := (List.filter_sublist L).subset (hpermR.subset hb)
  simp only [refLe, Bool.or_eq_true, Bool.and_eq_true, decide_eq_true_eq,
    beq_iff_eq, Bool.not_eq_true', decide_eq_false_iff_not] at hab hba
  have hrepr : Sequence.seqRepr a = Sequence.seqRepr b := by
    rcases hab with hab | ⟨habe, habr⟩
    · rcases hba with hba | ⟨hbae, hbar⟩
      · omega
      · omega
    · rcases hba with hba | ⟨hbae, hbar⟩
      · omega
      · exact le_antisymm (le_of_not_lt habr) (le_of_not_lt hbar)
  exact repr_inj_of_sorted hWF.sorted a haS b hbS hrepr

/-- Transparency of per-concept scoring: with a well-formed cache the
code computes exactly the reference greedy score and preserves the cache
invariant. -/
theorem scoreConcept_eq {L : List (List Link)} (hWF : FinalizedWF L)
    (st : Cache) (hst : CacheWF L st) (c : Nat) :
    (scoreConcept st (loopsBySize L) c).1 = refScoreOpt L c ∧
      CacheWF L (scoreConcept st (loopsBySize L) c).2 := by
  have hsort := code_filter_eq_refSorted hWF c
  have hmapref : (((loopsBySize L).filter
        (fun p => Sequence.hasSource p.2 c)).map (fun p => (p, (1 : ℚ)))).map toRefEntry
      = (refSorted (L.filter (fun ls => Sequence.hasSource ls c))).map
          (fun ls => (ls, (1 : ℚ))) := by
    rw [List.map_map, ← hsort, List.map_map]
    rfl
  have hlenS : (((loopsBySize L).filter
        (fun p => Sequence.hasSource p.2 c)).map (fun p => (p, (1 : ℚ)))).length
      = ((refSorted (L.filter (fun ls => Sequence.hasSource ls c))).map
          (fun ls => (ls, (1 : ℚ)))).length := by
    rw [← hmapref]
    simp only [List.length_map]
  have hlenS2 : ((refSorted (L.filter (fun ls => Sequence.hasSource ls c))).map
        (fun ls => (ls, (1 : ℚ)))).length
      = (L.filter (fun ls => Sequence.hasSource ls c)).length := by
    rw [List.length_map]
    exact List.length_mergeSort _
  have hall : ∀ e ∈ ((loopsBySize L).filter
      (fun p => Sequence.hasSource p.2 c)).map (fun p => (p, (1 : ℚ))),
      ValidEntry L e.1 := by
    intro e he
    obtain ⟨p, hp, hpe⟩ := List.mem_map.mp he
    have hp1 : p ∈ loopsBySize L := (List.filter_sublist _).subset hp
    have hp2 : p ∈ L.enum := List.mem_mergeSort.mp hp1
    rw [← hpe]
    exact enum_valid L p hp2
  by_cases hle : (((loopsBySize L).filter
      (fun p => Sequence.hasSource p.2 c)).map (fun p => (p, (1 : ℚ)))).length ≤ 1
  · have hleS : (L.filter (fun ls => Sequence.hasSource ls c)).length ≤ 1 := by
      rw [← hlenS2, ← hlenS]
      exact hle
    constructor
    · simp only [scoreConcept, refScoreOpt]
      rw [if_pos hle, if_pos hleS]
    · simp only [scoreConcept]
      rw [if_pos hle]
      exact hst
  · have hleS : ¬ (L.filter (fun ls => Sequence.hasSource ls c)).length ≤ 1 := by
      rw [← hlenS2, ← hlenS]
      exact hle
    cases hgl : (((loopsBySize L).filter
        (fun p => Sequence.hasSource p.2 c)).map (fun p => (p, (1 : ℚ)))).getLast? with
    | none =>
      exfalso
      have hnil := List.getLast?_eq_none_iff.mp hgl
      rw [hnil] at hle
      simp at hle
    | some lastE =>
      have hglref : ((refSorted (L.filter (fun ls => Sequence.hasSource ls c))).map
          (fun ls => (ls, (1 : ℚ)))).getLast? = some (toRefEntry lastE) := by
        rw [← hmapref, List.getLast?_map, hgl]
        rfl
      have hlastmem : lastE ∈ ((loopsBySize L).filter
          (fun p => Sequence.hasSource p.2 c)).map (fun p => (p, (1 : ℚ))) :=
        List.mem_of_getLast?_eq_some hgl
      have hlastvalid : ValidEntry L lastE.1 := hall lastE hlastmem
      have halldrop : ∀ e ∈ (((loopsBySize L).filter
          (fun p => Sequence.hasSource p.2 c)).map (fun p => (p, (1 : ℚ)))).dropLast,
          ValidEntry L e.1 :=
        fun e he => hall e ((List.dropLast_sublist _).subset he)
      obtain ⟨hg1, hg2⟩ := greedyLoop_eq hWF.loops
        ((((loopsBySize L).filter
          (fun p => Sequence.hasSource p.2 c)).map (fun p => (p, (1 : ℚ)))).dropLast.length)
        st lastE.1 ((lastE.1.2.length : ℚ))
        ((((loopsBySize L).filter
          (fun p => Sequence.hasSource p.2 c)).map (fun p => (p, (1 : ℚ)))).dropLast)
        hst hlastvalid halldrop
      have hdropmap : ((((loopsBySize L).filter
            (fun p => Sequence.hasSource p.2 c)).map (fun p => (p, (1 : ℚ)))).dropLast).map
            toRefEntry
          = ((refSorted (L.filter (fun ls => Sequence.hasSource ls c))).map
              (fun ls => (ls, (1 : ℚ)))).dropLast := by
        rw [List.map_dropLast, hmapref]
      have hdroplen : ((((loopsBySize L).filter
            (fun p => Sequence.hasSource p.2 c)).map (fun p => (p, (1 : ℚ)))).dropLast).length
          = (((refSorted (L.filter (fun ls => Sequence.hasSource ls c))).map
              (fun ls => (ls, (1 : ℚ)))).dropLast).length := by
        rw [← hdropmap, List.length_map]
      constructor
      · simp only [scoreConcept, refScoreOpt]
        rw [if_neg hle, if_neg hleS, hgl, hglref]
        show (some ((greedyLoop
            ((((loopsBySize L).filter (fun p => Sequence.hasSource p.2 c)).map
              (fun p => (p, (1 : ℚ)))).dropLast.length)
            st lastE.1 ((lastE.1.2.length : ℚ))
            ((((loopsBySize L).filter (fun p => Sequence.hasSource p.2 c)).map
              (fun p => (p, (1 : ℚ)))).dropLast)).1) : Option ℚ)
          = some (refGreedy
            (((refSorted (L.filter (fun ls => Sequence.hasSource ls c))).map
              (fun ls => (ls, (1 : ℚ)))).dropLast.length)
            (toRefEntry lastE).1 (((toRefEntry lastE).1.length : ℚ))
            (((refSorted (L.filter (fun ls => Sequence.hasSource ls c))).map
              (fun ls => (ls, (1 : ℚ)))).dropLast))
        rw [hg1, hdropmap, hdroplen]
        rfl
      · simp only [scoreConcept]
        rw [if_neg hle, hgl]
        show CacheWF L ((greedyLoop
            ((((loopsBySize L).filter (fun p => Sequence.hasSource p.2 c)).map
              (fun p => (p, (1 : ℚ)))).dropLast.length)
            st lastE.1 ((lastE.1.2.length : ℚ))
            ((((loopsBySize L).filter (fun p => Sequence.hasSource p.2 c)).map
              (fun p => (p, (1 : ℚ)))).dropLast)).2)
        exact hg2

/-- Soundness of the concept loop: every emitted entry carries the
reference score of its concept. -/
theorem scoresFold_sound {L : List (List Link)} (hWF : FinalizedWF L) :
    ∀ (cs : List Nat) (st : Cache), CacheWF L st →
      ∀ c q, (c, q) ∈ scoresFold (loopsBySize L) cs st →
        refScoreOpt L c = some q := by
  intro cs
  induction cs with
  | nil =>
    intro st _ c q h
    exact absurd h (List.not_mem_nil _)
  | cons d ds ih =>
    intro st hst c q h
    obtain ⟨hs1, hs2⟩ := scoreConcept_eq hWF st hst d
    rcases hsc : scoreConcept st (loopsBySize L) d with ⟨o, st'⟩
    simp only [hsc] at hs1 hs2
    cases o with
    | none =>
      simp only [scoresFold, hsc] at h
      exact ih st' hs2 c q h
    | some qd =>
      simp only [scoresFold, hsc] at h
      rcases List.mem_cons.mp h with hh | hh
      · have h1 : c = d := congrArg Prod.fst hh
        have h2 : q = qd := congrArg Prod.snd hh
        subst h1
        subst h2
        exact hs1.symm
      · exact ih st' hs2 c q hh

/-- Completeness of the concept loop: a concept in the iteration order
with a reference score receives exactly that entry. -/
theorem scoresFold_complete {L : List (List Link)} (hWF : FinalizedWF L) :
    ∀ (cs : List Nat) (st : Cache), CacheWF L st → ∀ c q, c ∈ cs →
      refScoreOpt L c = some q → (c, q) ∈ scoresFold (loopsBySize L) cs st := by
  intro cs
  induction cs with
  | nil =>
    intro st _ c q hc _
    exact absurd hc (List.not_mem_nil _)
  | cons d ds ih =>
    intro st hst c q hc href
    obtain ⟨hs1, hs2⟩ := scoreConcept_eq hWF st hst d
    rcases hsc : scoreConcept st (loopsBySize L) d with ⟨o, st'⟩
    simp only [hsc] at hs1 hs2
    rcases List.mem_cons.mp hc with rfl | hc'
    · rw [href] at hs1
      subst hs1
      simp only [scoresFold, hsc]
      exact List.mem_cons_self _ _
    · cases o with
      | none =>
        simp only [scoresFold, hsc]
        exact ih st' hs2 c q hc' href
      | some qd =>
        simp only [scoresFold, hsc]
        exact List.mem_cons_of_mem _ (ih st' hs2 c q hc' href)

/-- Unfolding of the reference score when the last sorted entry exists. -/
theorem refScoreOpt_eq_some (L : List (List Link)) (c : Nat)
    (hgt : ¬ (L.filter (fun ls => Sequence.hasSource ls c)).length ≤ 1)
    (lastE : List Link × ℚ)
    (hgl : ((refSorted (L.filter (fun ls => Sequence.hasSource ls c))).map
      (fun ls => (ls, (1 : ℚ)))).getLast? = some lastE) :
    refScoreOpt L c = some (refGreedy
      ((refSorted (L.filter (fun ls => Sequence.hasSource ls c))).map
        (fun ls => (ls, (1 : ℚ)))).dropLast.length lastE.1 ((lastE.1.length : ℚ))
      ((refSorted (L.filter (fun ls => Sequence.hasSource ls c))).map
        (fun ls => (ls, (1 : ℚ)))).dropLast) := by
  show (if (L.filter (fun ls => Sequence.hasSource ls c)).length ≤ 1 then (none : Option ℚ)
    else
      match ((refSorted (L.filter (fun ls => Sequence.hasSource ls c))).map
          (fun ls => (ls, (1 : ℚ)))).getLast? with
      | none => none
      | some lastE => some (refGreedy
          ((refSorted (L.filter (fun ls => Sequence.hasSource ls c))).map
            (fun ls => (ls, (1 : ℚ)))).dropLast.length lastE.1 ((lastE.1.length : ℚ))
          ((refSorted (L.filter (fun ls => Sequence.hasSource ls c))).map
            (fun ls => (ls, (1 : ℚ)))).dropLast)) = _
  rw [if_neg hgt, hgl]

/-- The reference score is absent exactly on concepts in at most one
stored loop. -/
theorem refScoreOpt_none_iff (L : List (List Link)) (c : Nat) :
    refScoreOpt L c = none ↔
      (L.filter (fun ls => Sequence.hasSource ls c)).length ≤ 1 := by
  constructor
  · intro h
    by_contra hgt
    have hlen : ((refSorted (L.filter (fun ls => Sequence.hasSource ls c))).map
        (fun ls => (ls, (1 : ℚ)))).length
        = (L.filter (fun ls => Sequence.hasSource ls c)).length := by
      rw [List.length_map]
      exact List.length_mergeSort _
    cases hgl : ((refSorted (L.filter (fun ls => Sequence.hasSource ls c))).map
        (fun ls => (ls, (1 : ℚ)))).getLast? with
    | none =>
      have hnil := List.getLast?_eq_none_iff.mp hgl
      rw [hnil] at hlen
      simp at hlen
      omega
    | some lastE =>
      rw [refScoreOpt_eq_some L c hgt lastE hgl] at h
      exact Option.noConfusion h
  · intro h
    unfold refScoreOpt
    rw [if_pos h]

/-- Claim C3: for every finalized LoopSet and every concept c, if c
occurs in at most one stored loop no score entry is emitted for c, and
if c occurs in two or more stored loops the emitted score equals the
greedy reference computation (sort by size descending with repr
tie-break, seed with the last element, lower best_dist by normalized
rotation distance to the last added loop, pop the earliest minimum, and
accumulate size times best_dist). -/
theorem get_concepts_and_scores_spec (L : List (List Link)) (order : List Nat)
    (c : Nat) (hWF : FinalizedWF L) (hc : c ∈ order) :
    ((L.filter (fun ls => Sequence.hasSource ls c)).length ≤ 1 →
      ∀ q, (c, q) ∉ getConceptsAndScores L order) ∧
    (2 ≤ (L.filter (fun ls => Sequence.hasSource ls c)).length →
      ∃ q, refScoreOpt L c = some q ∧ (c, q) ∈ getConceptsAndScores L order ∧
        ∀ q', (c, q') ∈ getConceptsAndScores L order → q' = q) := by
  have hstWF : CacheWF L [] := fun e he => absurd he (List.not_mem_nil e)
  constructor
  · intro hle q hmem
    have hs := scoresFold_sound hWF order [] hstWF c q hmem
    rw [(refScoreOpt_none_iff L c).mpr hle] at hs
    exact Option.noConfusion hs
  · intro hge
    have hne : ¬ refScoreOpt L c = none := by
      rw [refScoreOpt_none_iff]
      omega
    cases hq : refScoreOpt L c with
    | none => exact absurd hq hne
    | some q =>
      refine ⟨q, rfl, scoresFold_complete hWF order [] hstWF c q hc hq, ?_⟩
      intro q' hq'
      have hs := scoresFold_sound hWF order [] hstWF c q' hq'
      rw [hq] at hs
      exact (Option.some_inj.mp hs).symm

/-- A concrete finalized loop set with two loops through concept 0, used
as the witness input for C3. -/
def c3wit : List (List Link) :=
  [[⟨0, Influence.increases, 1⟩, ⟨1, Influence.increases, 0⟩],
   [⟨0, Influence.increases, 2⟩, ⟨2, Influence.decreases, 0⟩]]

/-- Witness for C3 at a concrete two-loop set and concept 0. -/
theorem get_concepts_and_scores_spec_witness :
    (FinalizedWF c3wit ∧ 0 ∈ [0, 1, 2]) ∧
    ((((c3wit.filter (fun ls => Sequence.hasSource ls 0)).length ≤ 1 →
      ∀ q, (0, q) ∉ getConceptsAndScores c3wit [0, 1, 2]) ∧
    (2 ≤ ((c3wit.filter (fun ls => Sequence.hasSource ls 0)).length) →
      ∃ q, refScoreOpt c3wit 0 = some q ∧
        (0, q) ∈ getConceptsAndScores c3wit [0, 1, 2] ∧
        ∀ q', (0, q') ∈ getConceptsAndScores c3wit [0, 1, 2] → q' = q))) := by
  have hsorted : List.Pairwise
      (fun x y => Sequence.seqRepr x < Sequence.seqRepr y) c3wit := by
    unfold c3wit
    refine List.Pairwise.cons ?_ (List.Pairwise.cons ?_ List.Pairwise.nil)
    · intro y hy
      rcases List.mem_cons.mp hy with rfl | hy'
      · exact String.lt_iff_toList_lt.mpr (by decide)
      · exact absurd hy' (List.not_mem_nil y)
    · intro y hy
      exact absurd hy (List.not_mem_nil y)
  exact ⟨⟨⟨by decide, hsorted⟩, by decide⟩,
    get_concepts_and_scores_spec c3wit [0, 1, 2] 0 ⟨by decide, hsorted⟩ (by decide)⟩

end ScoringLemmas

end Scoring

section NetworkC1

/-- A node of the diagram network (`network.Node`): a concept id together
with its outward and inward links, each an insertion-ordered association
list keyed by the neighbouring concept, as Python dicts preserve
insertion order. -/
structure Node where
  concept : Nat
  outward : List (Nat × Link)
  inward : List (Nat × Link)
deriving DecidableEq, Repr, Inhabited

/-- `Node.add_outward_link`: refused when the target key is already
present. -/
def addOutwardLink (n : Node) (l : Link) : Node :=
  if (n.outward.lookup l.target).isSome then n
  else { n with outward := n.outward ++ [(l.target, l)] }

/-- `Node.add_inward_link`: refused when the source key is already
present. -/
def addInwardLink (n : Node) (l : Link) : Node :=
  if (n.inward.lookup l.source).isSome then n
  else { n with inward := n.inward ++ [(l.source, l)] }

/-- `Node.is_sink`: no outward links. -/
def isSink (n : Node) : Bool := n.outward.length == 0

/-- `Node.is_source`: no inward links. -/
def isSource (n : Node) : Bool := n.inward.length == 0

/-- `Node.remove_links_to`: drop the entries keyed by the given concept
from both link tables. -/
def removeLinksTo (n : Node) (c : Nat) : Node :=
  { n with outward := n.outward.filter (fun p => p.1 != c),
           inward := n.inward.filter (fun p => p.1 != c) }

/-- Lookup in the network's node table (`self.nodes[c]`); the network is
the insertion-ordered list of nodes and concepts are unique keys. -/
def findNode (net : List Node) (c : Nat) : Option Node :=
  net.find? (fun n => n.concept == c)

/-- `c in self.nodes`. -/
def hasNode (net : List Node) (c : Nat) : Bool :=
  (findNode net c).isSome

/-- Replace the node stored under a concept key by an updated copy. -/
def updateNode (net : List Node) (c : Nat) (f : Node → Node) : List Node :=
  net.map (fun n => if n.concept == c then f n else n)

/-- `if c not in self.nodes: self.nodes[c] = Node(c)`. -/
def ensureNode (net : List Node) (c : Nat) : List Node :=
  if hasNode net c then net else net ++ [⟨c, [], []⟩]

/-- `DiagramNetwork.add_link`: create the endpoints if missing, then file
the link in the source's outward table and the target's inward table. -/
def addLink (net : List Node) (l : Link) : List Node :=
  updateNode (ensureNode (updateNode (ensureNode net l.source) l.source
    (fun n => addOutwardLink n l)) l.target) l.target (fun n => addInwardLink n l)

/-- The network built by `add_link` over the input links in order. -/
def buildNetwork (E : List Link) : List Node :=
  E.foldl addLink []

/-- `DiagramNetwork.remove_node`: strip all links keyed by the concept
from every node, then delete the node itself. -/
def removeNode (net : List Node) (c : Nat) : List Node :=
  (net.map (fun n => removeLinksTo n c)).filter (fun n => n.concept != c)

/-- One pass of `DiagramNetwork.remove_sources_and_sinks`: collect the
current sources and sinks, remove each of them, and report how many. The
Python code collects the concepts into a set and removes them in set
iteration order; the removals commute and the collected concepts are
distinct keys, so removing in table order computes the same network and
the same count. -/
def pruneOnce (net : List Node) : List Node × Nat :=
  let toRemove := (net.filter (fun n => isSource n || isSink n)).map (fun n => n.concept)
  (toRemove.foldl removeNode net, toRemove.length)

/-- `while self.remove_sources_and_sinks() > 0: pass`, with explicit
fuel: every productive pass removes at least one node, so any fuel
exceeding the node count reaches the fixed point. -/
def pruneLoop : Nat → List Node → List Node
  | 0, net => net
  | fuel + 1, net =>
    let p := pruneOnce net
    if p.2 == 0 then net else pruneLoop fuel p.1

/-- The pruning loop run with adequate fuel. -/
def pruneFix (net : List Node) : List Node := pruneLoop (net.length + 1) net

/-- One DFS layer (`DiagramNetwork._get_loops_recursive`): iterate the
current node's outward links; a sequence completing a loop is handed to
`add_loop`, a sequence closing on an interior concept is dropped, and
otherwise the walk descends into the target node (when still present)
through `rec`. -/
def dfsRound (net : List Node)
    (rec : List (Nat × Link) → List Link → List (List Link) → List (List Link)) :
    List (Nat × Link) → List Link → List (List Link) → List (List Link)
  | [], _, acc => acc
  | (t, l) :: rest, seq, acc =>
    let nseq := seq ++ [l]
    let acc' :=
      if Sequence.isLoop nseq then LoopSet.addLoop acc nseq
      else if Sequence.isClosed nseq then acc
      else
        match findNode net t with
        | some nd => rec nd.outward nseq acc
        | none => acc
    dfsRound net rec rest seq acc'

/-- The DFS with explicit recursion depth. The Python recursion is
unbounded, but an open walk has pairwise distinct source concepts, so the
depth never exceeds the number of nodes plus one and the fuel used by the
driver below is never exhausted. -/
def dfsFuel (net : List Node) :
    Nat → List (Nat × Link) → List Link → List (List Link) → List (List Link)
  | 0 => fun _ _ acc => acc
  | fuel + 1 => dfsRound net (dfsFuel net fuel)

/-- The driver of `DiagramNetwork.get_loops`: walk the snapshot of node
concepts taken after the initial pruning; for each concept still present
whose node is neither a sink nor a source, run the DFS rooted there, then
remove the root and re-prune to a fixed point. (Python iterates over the
snapshot of `Node` objects, which are shared and mutated in place, so
testing the snapshot object for sink/source is testing the current
node.) -/
def processRoots : List Nat → List Node → List (List Link) → List Node × List (List Link)
  | [], net, acc => (net, acc)
  | c :: rest, net, acc =>
    match findNode net c with
    | none => processRoots rest net acc
    | some nd =>
      if !isSink nd && !isSource nd then
        processRoots rest (pruneFix (removeNode net c))
          (dfsFuel net (net.length + 1) nd.outward [] acc)
      else processRoots rest net acc

/-- `LoopSet.finalize`: sort the stored loops ascending by their string
representation (`Sequence.__lt__` compares `str(self)`), Python `sorted`
being a stable merge sort. -/
def finalizeLoops (stored : List (List Link)) : List (List Link) :=
  stored.mergeSort (fun a b => !decide (Sequence.seqRepr b < Sequence.seqRepr a))

/-- `DiagramNetwork.get_loops` followed by `LoopSet.finalize`: prune to a
fixed point, process every remaining node as a DFS root, and sort the
stored loops. -/
def getLoopsList (E : List Link) : List (List Link) :=
  finalizeLoops (processRoots ((pruneFix (buildNetwork E)).map (fun n => n.concept))
    (pruneFix (buildNetwork E)) []).2

/-- All links present in a network, read off the outward tables. -/
def netLinks (net : List Node) : List Link :=
  net.flatMap (fun n => n.outward.map (fun p => p.2))

/-- A stored sequence that is the canonical rotation of a simple cycle
drawn from the link collection `U`. -/
def GoodLoop (U : List Link) (s : List Link) : Prop :=
  ∃ cy, IsSimpleLoop cy ∧ (∀ l ∈ cy, l ∈ U) ∧ s = Sequence.rotateToStandard cy

/-- Some stored sequence has the same string representation as `x`; this
is the duplicate test of `add_loop`. -/
def ReprIn (acc : List (List Link)) (x : List Link) : Prop :=
  ∃ s ∈ acc, Sequence.seqRepr s = Sequence.seqRepr x

/-- No two stored sequences share a string representation. -/
def ReprNodup (acc : List (List Link)) : Prop :=
  acc.Pairwise (fun a b => Sequence.seqRepr a ≠ Sequence.seqRepr b)

/-- Well-formedness of a network, maintained by every operation of
`DiagramNetwork`: concept keys are unique; outward entries are keyed by
their link's target and owned by their link's source; inward entries are
keyed by their link's source, owned by their link's target, and present
among the network's links; every network link is registered in its
target's inward table; and every network link's target node exists. -/
structure NetWF (net : List Node) : Prop where
  nodupC : (net.map (fun n => n.concept)).Nodup
  outSrc : ∀ n ∈ net, ∀ p ∈ n.outward, (p.2).source = n.concept ∧ (p.2).target = p.1
  inTgt : ∀ n ∈ net, ∀ p ∈ n.inward, (p.2).target = n.concept ∧ (p.2).source = p.1
  inLink : ∀ n ∈ net, ∀ p ∈ n.inward, p.2 ∈ netLinks net
  inCom : ∀ n ∈ net, ∀ l ∈ netLinks net, l.target = n.concept → (l.source, l) ∈ n.inward
  tgtMem : ∀ l ∈ netLinks net, ∃ m ∈ net, m.concept = l.target

end NetworkC1

section NetworkC1Lemmas

/-- Membership in the network's link collection. -/
theorem mem_netLinks {net : List Node} {l : Link} :
    l ∈ netLinks net ↔ ∃ n ∈ net, ∃ p ∈ n.outward, p.2 = l := by
  simp [netLinks, List.mem_flatMap, List.mem_map]

/-- A successful node lookup returns a member with the requested
concept. -/
theorem findNode_some {net : List Node} {c : Nat} {nd : Node}
    (h : findNode net c = some nd) : nd ∈ net ∧ nd.concept = c := by
  refine ⟨List.mem_of_find?_eq_some h, ?_⟩
  have := List.find?_some h
  exact eq_of_beq this

/-- The node lookup succeeds exactly when a node with the concept is
present. -/
theorem findNode_isSome {net : List Node} {c : Nat} :
    (findNode net c).isSome = true ↔ ∃ n ∈ net, n.concept = c := by
  unfold findNode
  rw [List.find?_isSome]
  constructor
  · rintro ⟨n, hn, hp⟩
    exact ⟨n, hn, eq_of_beq hp⟩
  · rintro ⟨n, hn, hp⟩
    exact ⟨n, hn, by simp [hp]⟩

/-- A failed node lookup means no node carries the concept. -/
theorem findNode_none {net : List Node} {c : Nat}
    (h : findNode net c = none) : ∀ n ∈ net, n.concept ≠ c := by
  intro n hn hc
  have : (findNode net c).isSome = true := findNode_isSome.mpr ⟨n, hn, hc⟩
  rw [h] at this
  exact Bool.noConfusion this

/-- In a well-formed network, two member nodes with one concept are one
node. -/
theorem node_unique {net : List Node} (W : NetWF net) {n1 n2 : Node}
    (h1 : n1 ∈ net) (h2 : n2 ∈ net) (hc : n1.concept = n2.concept) : n1 = n2 :=
  List.inj_on_of_nodup_map W.nodupC h1 h2 hc

/-- In a well-formed network, looking up a member node's concept returns
that node. -/
theorem findNode_of_mem {net : List Node} (W : NetWF net) {nd : Node}
    (h : nd ∈ net) : findNode net nd.concept = some nd := by
  cases hf : findNode net nd.concept with
  | none => exact absurd rfl (findNode_none hf nd h)
  | some nd' =>
    obtain ⟨hm, hc⟩ := findNode_some hf
    rw [node_unique W hm h hc]

/-- In a well-formed network, every link is filed in its source node's
outward table under its target key. -/
theorem netLinks_owner {net : List Node} (W : NetWF net) {l : Link}
    (h : l ∈ netLinks net) :
    ∃ nd ∈ net, nd.concept = l.source ∧ (l.target, l) ∈ nd.outward := by
  obtain ⟨n, hn, p, hp, hpl⟩ := mem_netLinks.mp h
  obtain ⟨pk, pl⟩ := p
  obtain ⟨hs, ht⟩ := W.outSrc n hn (pk, pl) hp
  subst hpl
  refine ⟨n, hn, hs.symm, ?_⟩
  rw [ht]
  exact hp

/-- Unfolding membership in `add_loop`'s result. -/
theorem mem_addLoop {acc : List (List Link)} {x s : List Link}
    (h : s ∈ LoopSet.addLoop acc x) :
    s ∈ acc ∨ (Sequence.isLoop x = true ∧ s = Sequence.rotateToStandard x) := by
  unfold LoopSet.addLoop at h
  by_cases hl : Sequence.isLoop x = true
  · rw [if_pos hl] at h
    by_cases hd : acc.any
        (fun e => Sequence.seqRepr e == Sequence.seqRepr (Sequence.rotateToStandard x)) = true
    · rw [if_pos hd] at h
      exact Or.inl h
    · rw [if_neg hd] at h
      rcases List.mem_append.mp h with h' | h'
      · exact Or.inl h'
      · exact Or.inr ⟨hl, List.mem_singleton.mp h'⟩
  · rw [if_neg hl] at h
    exact Or.inl h

/-- `add_loop` keeps every stored sequence. -/
theorem addLoop_keeps {acc : List (List Link)} {x s : List Link}
    (h : s ∈ acc) : s ∈ LoopSet.addLoop acc x := by
  unfold LoopSet.addLoop
  by_cases hl : Sequence.isLoop x = true
  · rw [if_pos hl]
    by_cases hd : acc.any
        (fun e => Sequence.seqRepr e == Sequence.seqRepr (Sequence.rotateToStandard x)) = true
    · rw [if_pos hd]; exact h
    · rw [if_neg hd]; exact List.mem_append_left _ h
  · rw [if_neg hl]; exact h

/-- After `add_loop` of a loop, some stored sequence carries the
representation of its canonical rotation. -/
theorem addLoop_reprIn {acc : List (List Link)} {x : List Link}
    (hl : Sequence.isLoop x = true) :
    ReprIn (LoopSet.addLoop acc x) (Sequence.rotateToStandard x) := by
  unfold LoopSet.addLoop
  rw [if_pos hl]
  by_cases hd : acc.any
      (fun e => Sequence.seqRepr e == Sequence.seqRepr (Sequence.rotateToStandard x)) = true
  · rw [if_pos hd]
    obtain ⟨e, he, hrep⟩ := List.any_eq_true.mp hd
    exact ⟨e, he, eq_of_beq hrep⟩
  · rw [if_neg hd]
    exact ⟨Sequence.rotateToStandard x, List.mem_append_right _ (List.mem_singleton.mpr rfl), rfl⟩

/-- `add_loop` preserves representation matches. -/
theorem addLoop_reprIn_mono {acc : List (List Link)} {x y : List Link}
    (h : ReprIn acc y) : ReprIn (LoopSet.addLoop acc x) y := by
  obtain ⟨s, hs, hr⟩ := h
  exact ⟨s, addLoop_keeps hs, hr⟩

/-- `add_loop` never stores two sequences with one representation. -/
theorem addLoop_reprNodup {acc : List (List Link)} {x : List Link}
    (h : ReprNodup acc) : ReprNodup (LoopSet.addLoop acc x) := by
  unfold LoopSet.addLoop
  by_cases hl : Sequence.isLoop x = true
  · rw [if_pos hl]
    by_cases hd : acc.any
        (fun e => Sequence.seqRepr e == Sequence.seqRepr (Sequence.rotateToStandard x)) = true
    · rw [if_pos hd]; exact h
    · rw [if_neg hd]
      rw [ReprNodup, List.pairwise_append]
      refine ⟨h, List.pairwise_singleton _ _, ?_⟩
      intro a ha b hb
      rw [List.mem_singleton.mp hb]
      intro hrep
      have : acc.any
          (fun e => Sequence.seqRepr e == Sequence.seqRepr (Sequence.rotateToStandard x)) = true :=
        List.any_eq_true.mpr ⟨a, ha, by simp [hrep]⟩
      exact hd this
  · rw [if_neg hl]; exact h

/-- Outward membership after `remove_links_to`. -/
theorem mem_removeLinksTo_outward {n : Node} {c : Nat} {p : Nat × Link} :
    p ∈ (removeLinksTo n c).outward ↔ p ∈ n.outward ∧ p.1 ≠ c := by
  simp [removeLinksTo, List.mem_filter, bne_iff_ne]

/-- Inward membership after `remove_links_to`. -/
theorem mem_removeLinksTo_inward {n : Node} {c : Nat} {p : Nat × Link} :
    p ∈ (removeLinksTo n c).inward ↔ p ∈ n.inward ∧ p.1 ≠ c := by
  simp [removeLinksTo, List.mem_filter, bne_iff_ne]

/-- `remove_links_to` keeps the node's concept. -/
theorem concept_removeLinksTo (n : Node) (c : Nat) :
    (removeLinksTo n c).concept = n.concept := rfl

/-- Node-table membership after `remove_node`. -/
theorem mem_removeNode {net : List Node} {c : Nat} {m : Node} :
    m ∈ removeNode net c ↔ ∃ n ∈ net, m = removeLinksTo n c ∧ n.concept ≠ c := by
  unfold removeNode
  rw [List.mem_filter]
  simp only [List.mem_map]
  constructor
  · rintro ⟨⟨n, hn, rfl⟩, hf⟩
    refine ⟨n, hn, rfl, ?_⟩
    simpa [concept_removeLinksTo, bne_iff_ne] using hf
  · rintro ⟨n, hn, rfl, hne⟩
    exact ⟨⟨n, hn, rfl⟩, by simpa [concept_removeLinksTo, bne_iff_ne] using hne⟩

/-- Links after `remove_node`: exactly the links avoiding the removed
concept at both ends. -/
theorem netLinks_removeNode {net : List Node} (W : NetWF net) {c : Nat} {l : Link} :
    l ∈ netLinks (removeNode net c) ↔
      l ∈ netLinks net ∧ l.source ≠ c ∧ l.target ≠ c := by
  constructor
  · intro h
    obtain ⟨m, hm, p, hp, hpl⟩ := mem_netLinks.mp h
    obtain ⟨n, hn, rfl, hnc⟩ := mem_removeNode.mp hm
    obtain ⟨hpo, hpk⟩ := mem_removeLinksTo_outward.mp hp
    obtain ⟨hs, ht⟩ := W.outSrc n hn p hpo
    refine ⟨mem_netLinks.mpr ⟨n, hn, p, hpo, hpl⟩, ?_, ?_⟩
    · rw [← hpl, hs]; exact hnc
    · rw [← hpl, ht]; exact hpk
  · rintro ⟨h, hsrc, htgt⟩
    obtain ⟨nd, hnd, hcn, hpo⟩ := netLinks_owner W h
    refine mem_netLinks.mpr ⟨removeLinksTo nd c,
      mem_removeNode.mpr ⟨nd, hnd, rfl, by rw [hcn]; exact hsrc⟩,
      (l.target, l), mem_removeLinksTo_outward.mpr ⟨hpo, htgt⟩, rfl⟩

/-- `remove_node` preserves network well-formedness. -/
theorem removeNode_WF {net : List Node} (W : NetWF net) (c : Nat) :
    NetWF (removeNode net c) := by
  constructor
  · have h1 : (removeNode net c).Sublist (net.map (fun n => removeLinksTo n c)) :=
      List.filter_sublist _
    have h2 := h1.map (fun n => n.concept)
    have h3 : (net.map (fun n => removeLinksTo n c)).map (fun n => n.concept)
        = net.map (fun n => n.concept) := by
      rw [List.map_map]; rfl
    rw [h3] at h2
    exact W.nodupC.sublist h2
  · intro m hm p hp
    obtain ⟨n, hn, rfl, hnc⟩ := mem_removeNode.mp hm
    obtain ⟨hpo, hpk⟩ := mem_removeLinksTo_outward.mp hp
    exact W.outSrc n hn p hpo
  · intro m hm p hp
    obtain ⟨n, hn, rfl, hnc⟩ := mem_removeNode.mp hm
    obtain ⟨hpi, hpk⟩ := mem_removeLinksTo_inward.mp hp
    exact W.inTgt n hn p hpi
  · intro m hm p hp
    obtain ⟨n, hn, rfl, hnc⟩ := mem_removeNode.mp hm
    obtain ⟨hpi, hpk⟩ := mem_removeLinksTo_inward.mp hp
    obtain ⟨ht, hs⟩ := W.inTgt n hn p hpi
    refine (netLinks_removeNode W).mpr ⟨W.inLink n hn p hpi, ?_, ?_⟩
    · rw [hs]; exact hpk
    · rw [ht]; exact hnc
  · intro m hm l hl htl
    obtain ⟨n, hn, rfl, hnc⟩ := mem_removeNode.mp hm
    obtain ⟨hl0, hls, hlt⟩ := (netLinks_removeNode W).mp hl
    have := W.inCom n hn l hl0 htl
    exact mem_removeLinksTo_inward.mpr ⟨this, hls⟩
  · intro l hl
    obtain ⟨hl0, hls, hlt⟩ := (netLinks_removeNode W).mp hl
    obtain ⟨m, hm, hmc⟩ := W.tgtMem l hl0
    refine ⟨removeLinksTo m c, mem_removeNode.mpr ⟨m, hm, rfl, by rw [hmc]; exact hlt⟩, hmc⟩

/-- Folded `remove_node` preserves well-formedness. -/
theorem foldl_removeNode_WF (cs : List Nat) :
    ∀ {net : List Node}, NetWF net → NetWF (cs.foldl removeNode net) := by
  induction cs with
  | nil => intro net W; exact W
  | cons c cs ih => intro net W; exact ih (removeNode_WF W c)

/-- Folded `remove_node` only drops links. -/
theorem netLinks_foldl_sub (cs : List Nat) :
    ∀ {net : List Node}, NetWF net → ∀ {l : Link},
      l ∈ netLinks (cs.foldl removeNode net) → l ∈ netLinks net := by
  induction cs with
  | nil => intro net W l h; exact h
  | cons c cs ih =>
    intro net W l h
    exact ((netLinks_removeNode W).mp (ih (removeNode_WF W c) h)).1

/-- The source of a cycle link is a cycle source id. -/
theorem cycle_src_mem {cy : List Link} {l : Link} (hl : l ∈ cy) :
    l.source ∈ Sequence.sourceIds cy :=
  List.mem_map_of_mem _ hl

/-- The target of a cycle link is a cycle source id, by the cyclic chain
condition. -/
theorem cycle_tgt_mem {cy : List Link} (h : IsSimpleLoop cy) {l : Link} (hl : l ∈ cy) :
    l.target ∈ Sequence.sourceIds cy := by
  obtain ⟨i, hi, hil⟩ := List.mem_iff_getElem.mp hl
  have hcyc := h.cyc i hi
  rw [getD_eq_getElem' _ _ hi, hil] at hcyc
  have hj : (i + 1) % cy.length < cy.length := Nat.mod_lt _ h.pos
  rw [hcyc, getD_eq_getElem' _ _ hj]
  exact List.mem_map_of_mem _ (List.getElem_mem hj)

/-- Every cycle source id has an incoming cycle link. -/
theorem cycle_pred {cy : List Link} (h : IsSimpleLoop cy) {v : Nat}
    (hv : v ∈ Sequence.sourceIds cy) : ∃ l ∈ cy, l.target = v := by
  obtain ⟨l0, hl0, hs⟩ := List.mem_map.mp hv
  obtain ⟨i, hi, hil⟩ := List.mem_iff_getElem.mp hl0
  have hm : 0 < cy.length := h.pos
  have hj : (i + cy.length - 1) % cy.length < cy.length := Nat.mod_lt _ hm
  have hcyc := h.cyc ((i + cy.length - 1) % cy.length) hj
  have hstep : ((i + cy.length - 1) % cy.length + 1) % cy.length = i := by
    rw [Nat.mod_add_mod]
    have h1 : i + cy.length - 1 + 1 = i + cy.length := by omega
    rw [h1, Nat.add_mod_right, Nat.mod_eq_of_lt hi]
  rw [hstep] at hcyc
  refine ⟨cy.getD ((i + cy.length - 1) % cy.length) default, ?_, ?_⟩
  · rw [getD_eq_getElem' _ _ hj]
    exact List.getElem_mem hj
  · rw [hcyc, getD_eq_getElem' _ _ hi, hil, hs]

/-- Every cycle source id has an outgoing cycle link. -/
theorem cycle_succ {cy : List Link} {v : Nat}
    (hv : v ∈ Sequence.sourceIds cy) : ∃ l ∈ cy, l.source = v := by
  obtain ⟨l0, hl0, hs⟩ := List.mem_map.mp hv
  exact ⟨l0, hl0, hs⟩

/-- A node carrying a cycle concept is neither a source nor a sink while
the cycle's links are in the network. -/
theorem cycle_not_prunable {net : List Node} (W : NetWF net) {cy : List Link}
    (hcy : IsSimpleLoop cy) (hsub : ∀ l ∈ cy, l ∈ netLinks net) {n : Node}
    (hn : n ∈ net) (hv : n.concept ∈ Sequence.sourceIds cy) :
    isSource n = false ∧ isSink n = false := by
  obtain ⟨ls, hls, hlss⟩ := cycle_succ hv
  obtain ⟨lp, hlp, hlpt⟩ := cycle_pred hcy hv
  constructor
  · have hin : (lp.source, lp) ∈ n.inward :=
      W.inCom n hn lp (hsub lp hlp) (by rw [hlpt])
    have : n.inward ≠ [] := by
      intro e; rw [e] at hin; exact absurd hin (List.not_mem_nil _)
    unfold isSource
    simpa [List.length_eq_zero] using this
  · obtain ⟨nd, hnd, hndc, hpo⟩ := netLinks_owner W (hsub ls hls)
    have heq : nd = n := node_unique W hnd hn (by rw [hndc, hlss])
    subst heq
    have : nd.outward ≠ [] := by
      intro e; rw [e] at hpo; exact absurd hpo (List.not_mem_nil _)
    unfold isSink
    simpa [List.length_eq_zero] using this

/-- Folded `remove_node` over concepts off the cycle keeps every cycle
link. -/
theorem foldl_removeNode_cycle (cs : List Nat) :
    ∀ {net : List Node}, NetWF net → ∀ {cy : List Link}, IsSimpleLoop cy →
      (∀ x ∈ cs, x ∉ Sequence.sourceIds cy) →
      (∀ l ∈ cy, l ∈ netLinks net) →
      ∀ l ∈ cy, l ∈ netLinks (cs.foldl removeNode net) := by
  induction cs with
  | nil => intro net W cy hcy hoff hsub l hl; exact hsub l hl
  | cons c cs ih =>
    intro net W cy hcy hoff hsub l hl
    refine ih (removeNode_WF W c) hcy (fun x hx => hoff x (List.mem_cons_of_mem _ hx)) ?_ l hl
    intro l' hl'
    refine (netLinks_removeNode W).mpr ⟨hsub l' hl', ?_, ?_⟩
    · intro e
      exact hoff c (List.mem_cons_self _ _) (by rw [← e]; exact cycle_src_mem hl')
    · intro e
      exact hoff c (List.mem_cons_self _ _) (by rw [← e]; exact cycle_tgt_mem hcy hl')

/-- One pruning pass preserves well-formedness. -/
theorem pruneOnce_WF {net : List Node} (W : NetWF net) : NetWF (pruneOnce net).1 :=
  foldl_removeNode_WF _ W

/-- One pruning pass only drops links. -/
theorem netLinks_pruneOnce_sub {net : List Node} (W : NetWF net) {l : Link}
    (h : l ∈ netLinks (pruneOnce net).1) : l ∈ netLinks net :=
  netLinks_foldl_sub _ W h

/-- One pruning pass keeps every link of a cycle whose links are all in
the network: cycle concepts are never collected as sources or sinks. -/
theorem pruneOnce_cycle {net : List Node} (W : NetWF net) {cy : List Link}
    (hcy : IsSimpleLoop cy) (hsub : ∀ l ∈ cy, l ∈ netLinks net) :
    ∀ l ∈ cy, l ∈ netLinks (pruneOnce net).1 := by
  refine foldl_removeNode_cycle _ W hcy ?_ hsub
  intro x hx hxcy
  obtain ⟨n, hn, hnc⟩ := List.mem_map.mp hx
  obtain ⟨hnn, hp⟩ := List.mem_filter.mp hn
  obtain ⟨hns, hnk⟩ := cycle_not_prunable W hcy hsub hnn (by rw [hnc]; exact hxcy)
  rw [hns, hnk] at hp
  exact Bool.noConfusion hp

/-- The pruning loop preserves well-formedness. -/
theorem pruneLoop_WF (fuel : Nat) :
    ∀ {net : List Node}, NetWF net → NetWF (pruneLoop fuel net) := by
  induction fuel with
  | zero => intro net W; exact W
  | succ fuel ih =>
    intro net W
    show NetWF (if (pruneOnce net).2 == 0 then net else pruneLoop fuel (pruneOnce net).1)
    by_cases h : (pruneOnce net).2 == 0
    · rw [if_pos h]; exact W
    · rw [if_neg h]; exact ih (pruneOnce_WF W)

/-- The pruning loop only drops links. -/
theorem netLinks_pruneLoop_sub (fuel : Nat) :
    ∀ {net : List Node}, NetWF net → ∀ {l : Link},
      l ∈ netLinks (pruneLoop fuel net) → l ∈ netLinks net := by
  induction fuel with
  | zero => intro net W l h; exact h
  | succ fuel ih =>
    intro net W l h
    rw [show pruneLoop (fuel + 1) net
      = if (pruneOnce net).2 == 0 then net else pruneLoop fuel (pruneOnce net).1 from rfl] at h
    by_cases hz : (pruneOnce net).2 == 0
    · rw [if_pos hz] at h; exact h
    · rw [if_neg hz] at h
      exact netLinks_pruneOnce_sub W (ih (pruneOnce_WF W) h)

/-- The pruning loop keeps every link of a cycle contained in the
network. -/
theorem pruneLoop_cycle (fuel : Nat) :
    ∀ {net : List Node}, NetWF net → ∀ {cy : List Link}, IsSimpleLoop cy →
      (∀ l ∈ cy, l ∈ netLinks net) →
      ∀ l ∈ cy, l ∈ netLinks (pruneLoop fuel net) := by
  induction fuel with
  | zero => intro net W cy hcy hsub l hl; exact hsub l hl
  | succ fuel ih =>
    intro net W cy hcy hsub l hl
    show l ∈ netLinks (if (pruneOnce net).2 == 0 then net else pruneLoop fuel (pruneOnce net).1)
    by_cases hz : (pruneOnce net).2 == 0
    · rw [if_pos hz]; exact hsub l hl
    · rw [if_neg hz]
      exact ih (pruneOnce_WF W) hcy (pruneOnce_cycle W hcy hsub) l hl

/-- `pruneFix` preserves well-formedness. -/
theorem pruneFix_WF {net : List Node} (W : NetWF net) : NetWF (pruneFix net) :=
  pruneLoop_WF _ W

/-- `pruneFix` only drops links. -/
theorem netLinks_pruneFix_sub {net : List Node} (W : NetWF net) {l : Link}
    (h : l ∈ netLinks (pruneFix net)) : l ∈ netLinks net :=
  netLinks_pruneLoop_sub _ W h

/-- `pruneFix` keeps every link of a cycle contained in the network. -/
theorem pruneFix_cycle {net : List Node} (W : NetWF net) {cy : List Link}
    (hcy : IsSimpleLoop cy) (hsub : ∀ l ∈ cy, l ∈ netLinks net) :
    ∀ l ∈ cy, l ∈ netLinks (pruneFix net) :=
  pruneLoop_cycle _ W hcy hsub

/-- A successful association-list lookup exhibits a member. -/
theorem lookup_mem {ps : List (Nat × Link)} {a : Nat} {b : Link}
    (h : ps.lookup a = some b) : (a, b) ∈ ps := by
  induction ps with
  | nil => exact absurd h (by simp [List.lookup])
  | cons p ps ih =>
    obtain ⟨k, v⟩ := p
    rw [List.lookup_cons] at h
    by_cases hk : (a == k) = true
    · rw [hk] at h
      have hk' : a = k := eq_of_beq hk
      have hv : v = b := Option.some_inj.mp h
      rw [hk', ← hv]
      exact List.mem_cons_self _ _
    · rw [Bool.not_eq_true] at hk
      rw [hk] at h
      exact List.mem_cons_of_mem _ (ih h)

/-- `add_outward_link` never changes the concept. -/
theorem concept_addOutwardLink (n : Node) (l : Link) :
    (addOutwardLink n l).concept = n.concept := by
  unfold addOutwardLink
  by_cases h : (n.outward.lookup l.target).isSome <;> simp [h]

/-- `add_outward_link` never changes the inward table. -/
theorem inward_addOutwardLink (n : Node) (l : Link) :
    (addOutwardLink n l).inward = n.inward := by
  unfold addOutwardLink
  by_cases h : (n.outward.lookup l.target).isSome <;> simp [h]

/-- `add_inward_link` never changes the concept. -/
theorem concept_addInwardLink (n : Node) (l : Link) :
    (addInwardLink n l).concept = n.concept := by
  unfold addInwardLink
  by_cases h : (n.inward.lookup l.source).isSome <;> simp [h]

/-- `add_inward_link` never changes the outward table. -/
theorem outward_addInwardLink (n : Node) (l : Link) :
    (addInwardLink n l).outward = n.outward := by
  unfold addInwardLink
  by_cases h : (n.inward.lookup l.source).isSome <;> simp [h]

/-- Membership in an updated node table. -/
theorem mem_updateNode {net : List Node} {c : Nat} {f : Node → Node} {m : Node} :
    m ∈ updateNode net c f ↔ ∃ n ∈ net, m = if n.concept = c then f n else n := by
  unfold updateNode
  rw [List.mem_map]
  constructor
  · rintro ⟨n, hn, rfl⟩
    refine ⟨n, hn, ?_⟩
    by_cases h : n.concept = c <;> simp [h]
  · rintro ⟨n, hn, rfl⟩
    refine ⟨n, hn, ?_⟩
    by_cases h : n.concept = c <;> simp [h]

/-- The image of a member under a table update is a member. -/
theorem image_mem_updateNode {net : List Node} {c : Nat} {f : Node → Node} {n : Node}
    (hn : n ∈ net) : (if n.concept = c then f n else n) ∈ updateNode net c f :=
  mem_updateNode.mpr ⟨n, hn, rfl⟩

/-- A table update through a concept-preserving function preserves the
concept column. -/
theorem map_concept_updateNode {net : List Node} {c : Nat} {f : Node → Node}
    (hf : ∀ n, (f n).concept = n.concept) :
    (updateNode net c f).map (fun n => n.concept) = net.map (fun n => n.concept) := by
  unfold updateNode
  rw [List.map_map]
  apply List.map_congr_left
  intro n hn
  by_cases h : n.concept = c <;> simp [h, hf]

/-- Decomposition of membership after `ensureNode`. -/
theorem mem_ensureNode {net : List Node} {c : Nat} {m : Node}
    (h : m ∈ ensureNode net c) : m ∈ net ∨ m = ⟨c, [], []⟩ := by
  unfold ensureNode at h
  by_cases hc : hasNode net c = true
  · rw [if_pos hc] at h
    exact Or.inl h
  · rw [if_neg hc] at h
    rcases List.mem_append.mp h with h' | h'
    · exact Or.inl h'
    · exact Or.inr (List.mem_singleton.mp h')

/-- `ensureNode` keeps every existing node. -/
theorem ensureNode_sub {net : List Node} {c : Nat} {n : Node} (h : n ∈ net) :
    n ∈ ensureNode net c := by
  unfold ensureNode
  by_cases hc : hasNode net c = true
  · rw [if_pos hc]; exact h
  · rw [if_neg hc]; exact List.mem_append_left _ h

/-- `ensureNode` adds no links. -/
theorem netLinks_ensureNode (net : List Node) (c : Nat) :
    netLinks (ensureNode net c) = netLinks net := by
  unfold ensureNode
  by_cases hc : hasNode net c = true
  · rw [if_pos hc]
  · rw [if_neg hc]
    unfold netLinks
    rw [List.flatMap_append]
    simp

/-- After `ensureNode`, the concept is present. -/
theorem hasNode_ensureNode (net : List Node) (c : Nat) :
    hasNode (ensureNode net c) c = true := by
  unfold ensureNode
  by_cases hc : hasNode net c = true
  · rw [if_pos hc]; exact hc
  · rw [if_neg hc]
    unfold hasNode
    exact findNode_isSome.mpr ⟨⟨c, [], []⟩, List.mem_append_right _ (List.mem_singleton.mpr rfl), rfl⟩

/-- `ensureNode` does not affect presence of other concepts. -/
theorem hasNode_ensureNode_ne {net : List Node} {c c' : Nat} (h : c' ≠ c) :
    hasNode (ensureNode net c) c' = hasNode net c' := by
  have key : ∀ b1 b2 : Bool, (b1 = true ↔ b2 = true) → b1 = b2 := by decide
  apply key
  constructor
  · intro hb
    obtain ⟨n, hn, hnc⟩ := findNode_isSome.mp hb
    rcases mem_ensureNode hn with h' | h'
    · exact findNode_isSome.mpr ⟨n, h', hnc⟩
    · rw [h'] at hnc
      exact absurd hnc.symm h
  · intro hb
    obtain ⟨n, hn, hnc⟩ := findNode_isSome.mp hb
    exact findNode_isSome.mpr ⟨n, ensureNode_sub hn, hnc⟩

/-- `ensureNode` preserves the whole network invariant. -/
theorem ensureNode_WF {net : List Node} (W : NetWF net) (c : Nat) :
    NetWF (ensureNode net c) := by
  unfold ensureNode
  by_cases hc : hasNode net c = true
  · rw [if_pos hc]; exact W
  · rw [if_neg hc]
    have hnot : ∀ n ∈ net, n.concept ≠ c := by
      intro n hn e
      exact hc (findNode_isSome.mpr ⟨n, hn, e⟩)
    have hlinks : netLinks (net ++ [⟨c, [], []⟩]) = netLinks net := by
      unfold netLinks
      rw [List.flatMap_append]
      simp
    constructor
    · rw [List.map_append]
      rw [List.nodup_append]
      refine ⟨W.nodupC, List.nodup_singleton _, ?_⟩
      intro x hx hx'
      obtain ⟨n, hn, hnc⟩ := List.mem_map.mp hx
      have : x = c := by simpa using hx'
      exact hnot n hn (by rw [hnc, this])
    · intro n hn p hp
      rcases List.mem_append.mp hn with h' | h'
      · exact W.outSrc n h' p hp
      · rw [List.mem_singleton.mp h'] at hp
        exact absurd hp (List.not_mem_nil _)
    · intro n hn p hp
      rcases List.mem_append.mp hn with h' | h'
      · exact W.inTgt n h' p hp
      · rw [List.mem_singleton.mp h'] at hp
        exact absurd hp (List.not_mem_nil _)
    · intro n hn p hp
      rcases List.mem_append.mp hn with h' | h'
      · rw [hlinks]; exact W.inLink n h' p hp
      · rw [List.mem_singleton.mp h'] at hp
        exact absurd hp (List.not_mem_nil _)
    · intro n hn l hl htl
      rw [hlinks] at hl
      rcases List.mem_append.mp hn with h' | h'
      · exact W.inCom n h' l hl htl
      · exfalso
        obtain ⟨m, hm, hmc⟩ := W.tgtMem l hl
        rw [List.mem_singleton.mp h'] at htl
        refine hnot m hm ?_
        rw [hmc]
        exact htl
    · intro l hl
      rw [hlinks] at hl
      obtain ⟨m, hm, hmc⟩ := W.tgtMem l hl
      exact ⟨m, List.mem_append_left _ hm, hmc⟩

/-- The source half of `add_link`: ensure the source node and file the
link in its outward table. -/
def addLinkOut (net : List Node) (l : Link) : List Node :=
  updateNode (ensureNode net l.source) l.source (fun n => addOutwardLink n l)

/-- The target half of `add_link`: ensure the target node and file the
link in its inward table. -/
def addLinkIn (net : List Node) (l : Link) : List Node :=
  updateNode (ensureNode net l.target) l.target (fun n => addInwardLink n l)

/-- `add_link` is the source half followed by the target half. -/
theorem addLink_decomp (net : List Node) (l : Link) :
    addLink net l = addLinkIn (addLinkOut net l) l := rfl

/-- The network invariant in the halfway state of `add_link` for the
link `l`: everything of `NetWF` except that `l`, although present in the
outward tables, is not yet registered in any inward table and its target
node may not exist yet. -/
structure NetPreWF (net : List Node) (l : Link) : Prop where
  nodupC : (net.map (fun n => n.concept)).Nodup
  outSrc : ∀ n ∈ net, ∀ p ∈ n.outward, (p.2).source = n.concept ∧ (p.2).target = p.1
  inTgt : ∀ n ∈ net, ∀ p ∈ n.inward, (p.2).target = n.concept ∧ (p.2).source = p.1
  inLink : ∀ n ∈ net, ∀ p ∈ n.inward, p.2 ∈ netLinks net ∧ p.2 ≠ l
  inCom : ∀ n ∈ net, ∀ x ∈ netLinks net, x ≠ l → x.target = n.concept →
    (x.source, x) ∈ n.inward
  tgtMem : ∀ x ∈ netLinks net, x ≠ l → ∃ m ∈ net, m.concept = x.target

/-- The source half of adding a fresh link: the link appears in the
network's link collection and the halfway invariant holds. -/
theorem addLinkOut_spec {net : List Node} (W : NetWF net) {l : Link}
    (fresh : ∀ l' ∈ netLinks net, ¬(l'.source = l.source ∧ l'.target = l.target)) :
    NetPreWF (addLinkOut net l) l ∧
      (∀ x, x ∈ netLinks (addLinkOut net l) ↔ x ∈ netLinks net ∨ x = l) := by
  have W1 : NetWF (ensureNode net l.source) := ensureNode_WF W l.source
  have hl1 : netLinks (ensureNode net l.source) = netLinks net :=
    netLinks_ensureNode net l.source
  have fresh1 : ∀ l' ∈ netLinks (ensureNode net l.source),
      ¬(l'.source = l.source ∧ l'.target = l.target) := by
    rw [hl1]; exact fresh
  have hfeq : ∀ n ∈ ensureNode net l.source, n.concept = l.source →
      addOutwardLink n l = { n with outward := n.outward ++ [(l.target, l)] } := by
    intro n hn hc
    have hlk : ¬((n.outward.lookup l.target).isSome = true) := by
      intro hsome
      obtain ⟨l'', hl''⟩ := Option.isSome_iff_exists.mp hsome
      have hmem : (l.target, l'') ∈ n.outward := lookup_mem hl''
      obtain ⟨hs, ht⟩ := W1.outSrc n hn _ hmem
      have hml : l'' ∈ netLinks (ensureNode net l.source) :=
        mem_netLinks.mpr ⟨n, hn, _, hmem, rfl⟩
      exact fresh1 l'' hml ⟨by rw [hs, hc], ht⟩
    unfold addOutwardLink
    rw [if_neg hlk]
  have hmem2 : ∀ m, m ∈ addLinkOut net l ↔ ∃ n ∈ ensureNode net l.source,
      m = if n.concept = l.source then { n with outward := n.outward ++ [(l.target, l)] }
        else n := by
    intro m
    unfold addLinkOut
    rw [mem_updateNode]
    constructor
    · rintro ⟨n, hn, rfl⟩
      refine ⟨n, hn, ?_⟩
      by_cases h : n.concept = l.source
      · rw [if_pos h, if_pos h, hfeq n hn h]
      · rw [if_neg h, if_neg h]
    · rintro ⟨n, hn, rfl⟩
      refine ⟨n, hn, ?_⟩
      by_cases h : n.concept = l.source
      · rw [if_pos h, if_pos h, hfeq n hn h]
      · rw [if_neg h, if_neg h]
  have hlinks2 : ∀ x, x ∈ netLinks (addLinkOut net l) ↔ x ∈ netLinks net ∨ x = l := by
    intro x
    constructor
    · intro hx
      obtain ⟨m, hm, p, hp, hpx⟩ := mem_netLinks.mp hx
      obtain ⟨n, hn, hmn⟩ := (hmem2 m).mp hm
      by_cases h : n.concept = l.source
      · rw [if_pos h] at hmn
        subst hmn
        rcases List.mem_append.mp hp with hp' | hp'
        · refine Or.inl ?_
          rw [← hl1]
          exact mem_netLinks.mpr ⟨n, hn, p, hp', hpx⟩
        · refine Or.inr ?_
          rw [← hpx, List.mem_singleton.mp hp']
      · rw [if_neg h] at hmn
        subst hmn
        refine Or.inl ?_
        rw [← hl1]
        exact mem_netLinks.mpr ⟨m, hn, p, hp, hpx⟩
    · intro hx
      rcases hx with hx | hx
      · rw [← hl1] at hx
        obtain ⟨n, hn, p, hp, hpx⟩ := mem_netLinks.mp hx
        refine mem_netLinks.mpr ⟨_, (hmem2 _).mpr ⟨n, hn, rfl⟩, p, ?_, hpx⟩
        by_cases h : n.concept = l.source
        · rw [if_pos h]
          exact List.mem_append_left _ hp
        · rw [if_neg h]
          exact hp
      · subst hx
        obtain ⟨nd, hnd, hndc⟩ := findNode_isSome.mp (hasNode_ensureNode net x.source)
        refine mem_netLinks.mpr ⟨_, (hmem2 _).mpr ⟨nd, hnd, rfl⟩, (x.target, x), ?_, rfl⟩
        rw [if_pos hndc]
        exact List.mem_append_right _ (List.mem_singleton.mpr rfl)
  have himg : ∀ n ∈ ensureNode net l.source, ∃ m ∈ addLinkOut net l,
      m.concept = n.concept ∧ m.inward = n.inward := by
    intro n hn
    refine ⟨_, (hmem2 _).mpr ⟨n, hn, rfl⟩, ?_⟩
    by_cases h : n.concept = l.source
    · rw [if_pos h]; exact ⟨rfl, rfl⟩
    · rw [if_neg h]; exact ⟨rfl, rfl⟩
  refine ⟨⟨?_, ?_, ?_, ?_, ?_, ?_⟩, hlinks2⟩
  · show ((updateNode (ensureNode net l.source) l.source
      (fun n => addOutwardLink n l)).map (fun n => n.concept)).Nodup
    rw [map_concept_updateNode (fun n => concept_addOutwardLink n l)]
    exact W1.nodupC
  · intro m hm p hp
    obtain ⟨n, hn, hmn⟩ := (hmem2 m).mp hm
    by_cases h : n.concept = l.source
    · rw [if_pos h] at hmn
      subst hmn
      rcases List.mem_append.mp hp with hp' | hp'
      · exact W1.outSrc n hn p hp'
      · rw [List.mem_singleton.mp hp']
        exact ⟨h.symm, rfl⟩
    · rw [if_neg h] at hmn
      subst hmn
      exact W1.outSrc m hn p hp
  · intro m hm p hp
    obtain ⟨n, hn, hmn⟩ := (hmem2 m).mp hm
    by_cases h : n.concept = l.source
    · rw [if_pos h] at hmn
      subst hmn
      exact W1.inTgt n hn p hp
    · rw [if_neg h] at hmn
      subst hmn
      exact W1.inTgt m hn p hp
  · intro m hm p hp
    obtain ⟨n, hn, hmn⟩ := (hmem2 m).mp hm
    have hpn : p ∈ n.inward := by
      by_cases h : n.concept = l.source
      · rw [if_pos h] at hmn; subst hmn; exact hp
      · rw [if_neg h] at hmn; subst hmn; exact hp
    have hplink : p.2 ∈ netLinks net := by
      rw [← hl1]; exact W1.inLink n hn p hpn
    refine ⟨(hlinks2 _).mpr (Or.inl hplink), ?_⟩
    intro e
    rw [e] at hplink
    exact fresh l hplink ⟨rfl, rfl⟩
  · intro m hm x hx hxl htl
    have hxn : x ∈ netLinks (ensureNode net l.source) := by
      rw [hl1]
      rcases (hlinks2 x).mp hx with h' | h'
      · exact h'
      · exact absurd h' hxl
    obtain ⟨n, hn, hmn⟩ := (hmem2 m).mp hm
    have hin : m.inward = n.inward ∧ m.concept = n.concept := by
      by_cases h : n.concept = l.source
      · rw [if_pos h] at hmn; subst hmn; exact ⟨rfl, rfl⟩
      · rw [if_neg h] at hmn; subst hmn; exact ⟨rfl, rfl⟩
    rw [hin.1]
    exact W1.inCom n hn x hxn (by rw [← hin.2]; exact htl)
  · intro x hx hxl
    have hxn : x ∈ netLinks (ensureNode net l.source) := by
      rw [hl1]
      rcases (hlinks2 x).mp hx with h' | h'
      · exact h'
      · exact absurd h' hxl
    obtain ⟨m, hm, hmc⟩ := W1.tgtMem x hxn
    obtain ⟨m', hm', hmc', _⟩ := himg m hm
    exact ⟨m', hm', by rw [hmc', hmc]⟩

/-- Decomposition of membership after `ensureNode`, remembering that a
pristine node is only appended when the concept was absent. -/
theorem mem_ensureNode' {net : List Node} {c : Nat} {m : Node}
    (h : m ∈ ensureNode net c) :
    m ∈ net ∨ (hasNode net c = false ∧ m = ⟨c, [], []⟩) := by
  unfold ensureNode at h
  by_cases hc : hasNode net c = true
  · rw [if_pos hc] at h
    exact Or.inl h
  · rw [if_neg hc] at h
    rcases List.mem_append.mp h with h' | h'
    · exact Or.inl h'
    · exact Or.inr ⟨Bool.not_eq_true _ ▸ hc, List.mem_singleton.mp h'⟩

/-- `ensureNode` preserves uniqueness of the concept column. -/
theorem nodupC_ensureNode {net : List Node} (h : (net.map (fun n => n.concept)).Nodup)
    (c : Nat) : ((ensureNode net c).map (fun n => n.concept)).Nodup := by
  unfold ensureNode
  by_cases hc : hasNode net c = true
  · rw [if_pos hc]; exact h
  · rw [if_neg hc]
    rw [List.map_append, List.nodup_append]
    refine ⟨h, List.nodup_singleton _, ?_⟩
    intro x hx hx'
    obtain ⟨n, hn, hnc⟩ := List.mem_map.mp hx
    have hxc : x = c := by simpa using hx'
    exact hc (findNode_isSome.mpr ⟨n, hn, by rw [hnc, hxc]⟩)

/-- The target half of adding a fresh link restores the full invariant
and leaves the link collection unchanged. -/
theorem addLinkIn_spec {M : List Node} {l : Link} (P : NetPreWF M l)
    (hl : l ∈ netLinks M)
    (freshM : ∀ l' ∈ netLinks M, l' ≠ l → ¬(l'.source = l.source ∧ l'.target = l.target)) :
    NetWF (addLinkIn M l) ∧ (∀ x, x ∈ netLinks (addLinkIn M l) ↔ x ∈ netLinks M) := by
  have hlinks3 : netLinks (ensureNode M l.target) = netLinks M :=
    netLinks_ensureNode M l.target
  have outSrc3 : ∀ n ∈ ensureNode M l.target, ∀ p ∈ n.outward,
      (p.2).source = n.concept ∧ (p.2).target = p.1 := by
    intro n hn p hp
    rcases mem_ensureNode hn with h' | h'
    · exact P.outSrc n h' p hp
    · rw [h'] at hp
      exact absurd hp (List.not_mem_nil _)
  have inTgt3 : ∀ n ∈ ensureNode M l.target, ∀ p ∈ n.inward,
      (p.2).target = n.concept ∧ (p.2).source = p.1 := by
    intro n hn p hp
    rcases mem_ensureNode hn with h' | h'
    · exact P.inTgt n h' p hp
    · rw [h'] at hp
      exact absurd hp (List.not_mem_nil _)
  have inLink3 : ∀ n ∈ ensureNode M l.target, ∀ p ∈ n.inward,
      p.2 ∈ netLinks M ∧ p.2 ≠ l := by
    intro n hn p hp
    rcases mem_ensureNode hn with h' | h'
    · exact P.inLink n h' p hp
    · rw [h'] at hp
      exact absurd hp (List.not_mem_nil _)
  have inCom3 : ∀ n ∈ ensureNode M l.target, ∀ x ∈ netLinks M, x ≠ l →
      x.target = n.concept → (x.source, x) ∈ n.inward := by
    intro n hn x hx hxl htl
    rcases mem_ensureNode' hn with h' | ⟨habs, h'⟩
    · exact P.inCom n h' x hx hxl htl
    · exfalso
      obtain ⟨m, hm, hmc⟩ := P.tgtMem x hx hxl
      rw [h'] at htl
      have : hasNode M l.target = true :=
        findNode_isSome.mpr ⟨m, hm, by rw [hmc]; exact htl⟩
      rw [habs] at this
      exact Bool.noConfusion this
  have hgeq : ∀ n ∈ ensureNode M l.target, n.concept = l.target →
      addInwardLink n l = { n with inward := n.inward ++ [(l.source, l)] } := by
    intro n hn hc
    have hlk : ¬((n.inward.lookup l.source).isSome = true) := by
      intro hsome
      obtain ⟨l'', hl''⟩ := Option.isSome_iff_exists.mp hsome
      have hmem : (l.source, l'') ∈ n.inward := lookup_mem hl''
      obtain ⟨hml, hne⟩ := inLink3 n hn _ hmem
      obtain ⟨ht, hs⟩ := inTgt3 n hn _ hmem
      exact freshM l'' hml hne ⟨hs, by rw [ht, hc]⟩
    unfold addInwardLink
    rw [if_neg hlk]
  have hmem4 : ∀ m, m ∈ addLinkIn M l ↔ ∃ n ∈ ensureNode M l.target,
      m = if n.concept = l.target then { n with inward := n.inward ++ [(l.source, l)] }
        else n := by
    intro m
    unfold addLinkIn
    rw [mem_updateNode]
    constructor
    · rintro ⟨n, hn, rfl⟩
      refine ⟨n, hn, ?_⟩
      by_cases h : n.concept = l.target
      · rw [if_pos h, if_pos h, hgeq n hn h]
      · rw [if_neg h, if_neg h]
    · rintro ⟨n, hn, rfl⟩
      refine ⟨n, hn, ?_⟩
      by_cases h : n.concept = l.target
      · rw [if_pos h, if_pos h, hgeq n hn h]
      · rw [if_neg h, if_neg h]
  have hout4 : ∀ m ∈ addLinkIn M l, ∃ n ∈ ensureNode M l.target,
      m.concept = n.concept ∧ m.outward = n.outward := by
    intro m hm
    obtain ⟨n, hn, hmn⟩ := (hmem4 m).mp hm
    by_cases h : n.concept = l.target
    · rw [if_pos h] at hmn; subst hmn; exact ⟨n, hn, rfl, rfl⟩
    · rw [if_neg h] at hmn; subst hmn; exact ⟨m, hn, rfl, rfl⟩
  have himg4 : ∀ n ∈ ensureNode M l.target, ∃ m ∈ addLinkIn M l,
      m.concept = n.concept ∧ m.outward = n.outward := by
    intro n hn
    refine ⟨_, (hmem4 _).mpr ⟨n, hn, rfl⟩, ?_⟩
    by_cases h : n.concept = l.target
    · rw [if_pos h]; exact ⟨rfl, rfl⟩
    · rw [if_neg h]; exact ⟨rfl, rfl⟩
  have hlinks4 : ∀ x, x ∈ netLinks (addLinkIn M l) ↔ x ∈ netLinks M := by
    intro x
    rw [← hlinks3]
    constructor
    · intro hx
      obtain ⟨m, hm, p, hp, hpx⟩ := mem_netLinks.mp hx
      obtain ⟨n, hn, _, ho⟩ := hout4 m hm
      rw [ho] at hp
      exact mem_netLinks.mpr ⟨n, hn, p, hp, hpx⟩
    · intro hx
      obtain ⟨n, hn, p, hp, hpx⟩ := mem_netLinks.mp hx
      obtain ⟨m, hm, _, ho⟩ := himg4 n hn
      rw [← ho] at hp
      exact mem_netLinks.mpr ⟨m, hm, p, hp, hpx⟩
  refine ⟨⟨?_, ?_, ?_, ?_, ?_, ?_⟩, hlinks4⟩
  · show ((updateNode (ensureNode M l.target) l.target
      (fun n => addInwardLink n l)).map (fun n => n.concept)).Nodup
    rw [map_concept_updateNode (fun n => concept_addInwardLink n l)]
    exact nodupC_ensureNode P.nodupC l.target
  · intro m hm p hp
    obtain ⟨n, hn, hc, ho⟩ := hout4 m hm
    rw [ho] at hp
    obtain ⟨h1, h2⟩ := outSrc3 n hn p hp
    exact ⟨by rw [h1, hc], h2⟩
  · intro m hm p hp
    obtain ⟨n, hn, hmn⟩ := (hmem4 m).mp hm
    by_cases h : n.concept = l.target
    · rw [if_pos h] at hmn
      subst hmn
      rcases List.mem_append.mp hp with hp' | hp'
      · exact inTgt3 n hn p hp'
      · rw [List.mem_singleton.mp hp']
        exact ⟨h.symm, rfl⟩
    · rw [if_neg h] at hmn
      subst hmn
      exact inTgt3 m hn p hp
  · intro m hm p hp
    obtain ⟨n, hn, hmn⟩ := (hmem4 m).mp hm
    have hp' : p ∈ n.inward ∨ p = (l.source, l) := by
      by_cases h : n.concept = l.target
      · rw [if_pos h] at hmn
        subst hmn
        rcases List.mem_append.mp hp with h' | h'
        · exact Or.inl h'
        · exact Or.inr (List.mem_singleton.mp h')
      · rw [if_neg h] at hmn
        subst hmn
        exact Or.inl hp
    rcases hp' with h' | h'
    · obtain ⟨hml, _⟩ := inLink3 n hn p h'
      exact (hlinks4 _).mpr hml
    · rw [h']
      exact (hlinks4 _).mpr hl
  · intro m hm x hx htl
    have hxM : x ∈ netLinks M := (hlinks4 x).mp hx
    obtain ⟨n, hn, hmn⟩ := (hmem4 m).mp hm
    by_cases hxl : x = l
    · subst hxl
      have hct : m.concept = x.target := htl.symm
      have hnct : n.concept = x.target := by
        by_cases h : n.concept = x.target
        · exact h
        · rw [if_neg h] at hmn
          subst hmn
          exact hct
      rw [if_pos hnct] at hmn
      subst hmn
      exact List.mem_append_right _ (List.mem_singleton.mpr rfl)
    · have hni : (x.source, x) ∈ n.inward :=
        inCom3 n hn x hxM hxl (by
          by_cases h : n.concept = l.target
          · rw [if_pos h] at hmn
            subst hmn
            exact htl
          · rw [if_neg h] at hmn
            subst hmn
            exact htl)
      by_cases h : n.concept = l.target
      · rw [if_pos h] at hmn
        subst hmn
        exact List.mem_append_left _ hni
      · rw [if_neg h] at hmn
        subst hmn
        exact hni
  · intro x hx
    have hxM : x ∈ netLinks M := (hlinks4 x).mp hx
    by_cases hxl : x = l
    · subst hxl
      obtain ⟨nd, hnd, hndc⟩ := findNode_isSome.mp (hasNode_ensureNode M x.target)
      obtain ⟨m, hm, hmc, _⟩ := himg4 nd hnd
      exact ⟨m, hm, by rw [hmc, hndc]⟩
    · obtain ⟨n, hn, hnc⟩ := P.tgtMem x hxM hxl
      obtain ⟨m, hm, hmc, _⟩ := himg4 n (ensureNode_sub hn)
      exact ⟨m, hm, by rw [hmc, hnc]⟩

/-- Adding a link between distinct concepts whose ordered pair is not
yet present preserves well-formedness and adds exactly that link. -/
theorem addLink_fresh {net : List Node} (W : NetWF net) {l : Link}
    (fresh : ∀ l' ∈ netLinks net, ¬(l'.source = l.source ∧ l'.target = l.target)) :
    NetWF (addLink net l) ∧
      (∀ x, x ∈ netLinks (addLink net l) ↔ x ∈ netLinks net ∨ x = l) := by
  obtain ⟨P, hlinks⟩ := addLinkOut_spec W fresh
  have hl : l ∈ netLinks (addLinkOut net l) := (hlinks l).mpr (Or.inr rfl)
  have freshM : ∀ l' ∈ netLinks (addLinkOut net l), l' ≠ l →
      ¬(l'.source = l.source ∧ l'.target = l.target) := by
    intro l' hl' hne
    rcases (hlinks l').mp hl' with h' | h'
    · exact fresh l' h'
    · exact absurd h' hne
  obtain ⟨W4, hlinks4⟩ := addLinkIn_spec P hl freshM
  rw [addLink_decomp]
  refine ⟨W4, ?_⟩
  intro x
  rw [hlinks4 x, hlinks x]

/-- The empty network is well-formed. -/
theorem netWF_nil : NetWF ([] : List Node) := by
  constructor
  · simp
  · intro n hn; exact absurd hn (List.not_mem_nil _)
  · intro n hn; exact absurd hn (List.not_mem_nil _)
  · intro n hn; exact absurd hn (List.not_mem_nil _)
  · intro n hn; exact absurd hn (List.not_mem_nil _)
  · intro x hx; exact absurd hx (by simp [netLinks] at hx)

/-- Folding `add_link` over links with pairwise distinct ordered
endpoint pairs, none of which is present yet, preserves well-formedness
and adds exactly those links. -/
theorem build_aux (E : List Link) :
    ∀ (net : List Node), NetWF net →
      (∀ l' ∈ netLinks net, ∀ e ∈ E, ¬(l'.source = e.source ∧ l'.target = e.target)) →
      (E.map (fun l => (l.source, l.target))).Nodup →
      NetWF (E.foldl addLink net) ∧
        (∀ x, x ∈ netLinks (E.foldl addLink net) ↔ x ∈ netLinks net ∨ x ∈ E) := by
  induction E with
  | nil =>
    intro net W _ _
    refine ⟨W, fun x => ?_⟩
    simp
  | cons e E ih =>
    intro net W hdisj hnd
    have fresh : ∀ l' ∈ netLinks net, ¬(l'.source = e.source ∧ l'.target = e.target) :=
      fun l' hl' => hdisj l' hl' e (List.mem_cons_self _ _)
    obtain ⟨W', hlinks'⟩ := addLink_fresh W fresh
    have hndE : (E.map (fun l => (l.source, l.target))).Nodup := by
      rw [List.map_cons, List.nodup_cons] at hnd
      exact hnd.2
    have hnotE : (e.source, e.target) ∉ E.map (fun l => (l.source, l.target)) := by
      rw [List.map_cons, List.nodup_cons] at hnd
      exact hnd.1
    have hdisj' : ∀ l' ∈ netLinks (addLink net e), ∀ e' ∈ E,
        ¬(l'.source = e'.source ∧ l'.target = e'.target) := by
      intro l' hl' e' he' ⟨h1, h2⟩
      rcases (hlinks' l').mp hl' with h' | h'
      · exact hdisj l' h' e' (List.mem_cons_of_mem _ he') ⟨h1, h2⟩
      · subst h'
        exact hnotE (List.mem_map.mpr ⟨e', he', by rw [← h1, ← h2]⟩)
    obtain ⟨Wf, hlf⟩ := ih (addLink net e) W' hdisj' hndE
    refine ⟨Wf, fun x => ?_⟩
    rw [List.foldl_cons] at *
    rw [hlf x, hlinks' x, List.mem_cons]
    constructor
    · rintro ((h | h) | h)
      · exact Or.inl h
      · exact Or.inr (Or.inl h)
      · exact Or.inr (Or.inr h)
    · rintro (h | h | h)
      · exact Or.inl (Or.inl h)
      · exact Or.inl (Or.inr h)
      · exact Or.inr h

/-- The network built from a simple signed digraph's links is
well-formed and holds exactly those links. -/
theorem buildNetwork_spec (E : List Link)
    (hpairs : (E.map (fun l => (l.source, l.target))).Nodup) :
    NetWF (buildNetwork E) ∧ (∀ x, x ∈ netLinks (buildNetwork E) ↔ x ∈ E) := by
  have hdisj : ∀ l' ∈ netLinks ([] : List Node), ∀ e ∈ E,
      ¬(l'.source = e.source ∧ l'.target = e.target) := by
    intro l' hl'
    simp [netLinks] at hl'
  obtain ⟨W, hl⟩ := build_aux E [] netWF_nil hdisj hpairs
  refine ⟨W, fun x => ?_⟩
  rw [buildNetwork, hl x]
  simp [netLinks]

/-- Default indexing into an extension, left part. -/
theorem getD_append_left {seq : List Link} {l : Link} {i : Nat} (h : i < seq.length) :
    (seq ++ [l]).getD i default = seq.getD i default := by
  have h' : i < (seq ++ [l]).length := by rw [List.length_append]; omega
  rw [getD_eq_getElem' _ _ h', getD_eq_getElem' _ _ h]
  exact List.getElem_append_left h

/-- Default indexing into an extension, appended element. -/
theorem getD_append_last (seq : List Link) (l : Link) :
    (seq ++ [l]).getD seq.length default = l := by
  have h' : seq.length < (seq ++ [l]).length := by simp
  rw [getD_eq_getElem' _ _ h']
  exact List.getElem_concat_length _ _ _ rfl h'

/-- Source ids of an extended walk. -/
theorem sourceIds_append (seq : List Link) (l : Link) :
    Sequence.sourceIds (seq ++ [l]) = Sequence.sourceIds seq ++ [l.source] := by
  simp [Sequence.sourceIds]

/-- The closure test reads: the last target occurs among the sources. -/
theorem isClosed_true_iff {seq : List Link} {lastL : Link}
    (h : seq.getLast? = some lastL) :
    Sequence.isClosed seq = true ↔ lastL.target ∈ Sequence.sourceIds seq := by
  unfold Sequence.isClosed
  rw [h]
  show (Sequence.indexOfSourceWithConcept seq lastL.target).isSome = true ↔ _
  unfold Sequence.indexOfSourceWithConcept
  rw [List.findIdx?_isSome, List.any_eq_true]
  constructor
  · rintro ⟨x, hx, hp⟩
    exact List.mem_map.mpr ⟨x, hx, eq_of_beq hp⟩
  · intro hm
    obtain ⟨x, hx, hxs⟩ := List.mem_map.mp hm
    exact ⟨x, hx, by simp [hxs]⟩

/-- Negated closure test. -/
theorem isClosed_false_iff {seq : List Link} {lastL : Link}
    (h : seq.getLast? = some lastL) :
    Sequence.isClosed seq = false ↔ lastL.target ∉ Sequence.sourceIds seq := by
  constructor
  · intro hf hm
    have ht : Sequence.isClosed seq = true := (isClosed_true_iff h).mpr hm
    rw [hf] at ht
    exact Bool.noConfusion ht
  · intro hm
    cases hb : Sequence.isClosed seq with
    | false => rfl
    | true => exact absurd ((isClosed_true_iff h).mp hb) hm

/-- The loop test reads: the last target equals the head's source. -/
theorem isLoop_true_iff {seq : List Link} {lastL h0 : Link}
    (h : seq.getLast? = some lastL) (hh : seq.head? = some h0) :
    Sequence.isLoop seq = true ↔ h0.source = lastL.target := by
  obtain ⟨a, tl, rfl⟩ : ∃ a tl, seq = a :: tl := by
    cases seq with
    | nil => exact absurd hh (by simp)
    | cons a tl => exact ⟨a, tl, rfl⟩
  have ha : h0 = a := by
    rw [List.head?_cons] at hh
    exact (Option.some_inj.mp hh).symm
  subst ha
  unfold Sequence.isLoop
  rw [h]
  show (Sequence.indexOfSourceWithConcept (h0 :: tl) lastL.target == some 0) = true ↔ _
  rw [beq_iff_eq]
  unfold Sequence.indexOfSourceWithConcept
  rw [List.findIdx?_eq_some_iff_getElem]
  constructor
  · rintro ⟨hpos, hp, _⟩
    exact eq_of_beq hp
  · intro he
    refine ⟨by simp, by simpa using he, ?_⟩
    intro j hj
    omega

/-- Invariant of a DFS walk: all links lie in the network, consecutive
links chain, source concepts are pairwise distinct, and the walk has not
closed. -/
def WalkInv (net : List Node) (seq : List Link) : Prop :=
  (∀ x ∈ seq, x ∈ netLinks net) ∧
  (∀ i, i + 1 < seq.length →
    (seq.getD i default).target = (seq.getD (i + 1) default).source) ∧
  (Sequence.sourceIds seq).Nodup ∧ Sequence.isClosed seq = false

/-- Invariant of the pending outward entries of the DFS: each entry's
link is in the network, is keyed by its target, and departs from the
walk's last target. -/
def OutInv (net : List Node) (seq : List Link) (out : List (Nat × Link)) : Prop :=
  ∀ p ∈ out, p.2 ∈ netLinks net ∧ (p.2).target = p.1 ∧
    ∀ lastL ∈ seq.getLast?, (p.2).source = lastL.target

/-- Extending a chained walk by a link departing from its last target
keeps it chained. -/
theorem extend_chain {seq : List Link} {l : Link}
    (hchain : ∀ i, i + 1 < seq.length →
      (seq.getD i default).target = (seq.getD (i + 1) default).source)
    (hsrc : ∀ lastL ∈ seq.getLast?, l.source = lastL.target) :
    ∀ i, i + 1 < (seq ++ [l]).length →
      ((seq ++ [l]).getD i default).target = ((seq ++ [l]).getD (i + 1) default).source := by
  intro i hi
  rw [List.length_append, List.length_singleton] at hi
  have hiv : i < seq.length := by omega
  by_cases hiv2 : i + 1 < seq.length
  · rw [getD_append_left hiv, getD_append_left hiv2]
    exact hchain i hiv2
  · have hieq : i + 1 = seq.length := by omega
    rw [getD_append_left hiv, hieq, getD_append_last]
    have hslast : seq.getLast? = some (seq.getD i default) := by
      rw [List.getLast?_eq_getElem?, show seq.length - 1 = i from by omega,
        List.getElem?_eq_getElem hiv, getD_eq_getElem' _ _ hiv]
    exact (hsrc _ hslast).symm

/-- Extending an open walk by a link departing from its last target
keeps the source concepts distinct. -/
theorem extend_nodup {seq : List Link} {l : Link}
    (hnodup : (Sequence.sourceIds seq).Nodup) (hcl : Sequence.isClosed seq = false)
    (hsrc : ∀ lastL ∈ seq.getLast?, l.source = lastL.target) :
    (Sequence.sourceIds (seq ++ [l])).Nodup := by
  rw [sourceIds_append, List.nodup_append]
  refine ⟨hnodup, List.nodup_singleton _, ?_⟩
  intro x hx hx'
  have hxl : x = l.source := by simpa using hx'
  subst hxl
  have hne2 : seq ≠ [] := by
    intro e
    rw [e] at hx
    simp [Sequence.sourceIds] at hx
  obtain ⟨lastL, hlastL⟩ : ∃ y, seq.getLast? = some y := by
    cases seq with
    | nil => exact absurd rfl hne2
    | cons a t =>
      cases hg : (a :: t).getLast? with
      | none => exact absurd (List.getLast?_eq_none_iff.mp hg) (by simp)
      | some y => exact ⟨y, rfl⟩
  have hls : l.source = lastL.target := hsrc lastL hlastL
  have hnot : lastL.target ∉ Sequence.sourceIds seq := (isClosed_false_iff hlastL).mp hcl
  rw [hls] at hx
  exact hnot hx

/-- A walk extension that passes the code's `is_loop` test is a simple
cycle. -/
theorem walk_extend_loop {net : List Node} {seq : List Link} {l : Link}
    (hwalk : WalkInv net seq)
    (hsrc : ∀ lastL ∈ seq.getLast?, l.source = lastL.target)
    (hloop : Sequence.isLoop (seq ++ [l]) = true) :
    IsSimpleLoop (seq ++ [l]) := by
  obtain ⟨hsub, hchain, hnodup, hclosed⟩ := hwalk
  have hlast : (seq ++ [l]).getLast? = some l := by simp
  have hlen : (seq ++ [l]).length = seq.length + 1 := by simp
  have hne : seq ++ [l] ≠ [] := by simp
  have hh : (seq ++ [l]).head? = some ((seq ++ [l]).getD 0 default) := by
    obtain ⟨a, t, he⟩ : ∃ a t, seq ++ [l] = a :: t := by
      cases hseq : seq ++ [l] with
      | nil => exact absurd hseq hne
      | cons a t => exact ⟨a, t, rfl⟩
    rw [he]
    simp
  have hsource0 : ((seq ++ [l]).getD 0 default).source = l.target :=
    (isLoop_true_iff hlast hh).mp hloop
  refine ⟨?_, ?_, ?_⟩
  · rw [hlen]; omega
  · intro i hi
    rw [hlen] at hi
    by_cases hiw : i + 1 < seq.length + 1
    · have hmod : (i + 1) % (seq ++ [l]).length = i + 1 := by
        rw [hlen]; exact Nat.mod_eq_of_lt hiw
      rw [hmod]
      exact extend_chain hchain hsrc i (by rw [List.length_append, List.length_singleton]; omega)
    · have hieq : i = seq.length := by omega
      subst hieq
      have hmod : (seq.length + 1) % (seq ++ [l]).length = 0 := by
        rw [hlen]; exact Nat.mod_self _
      rw [hmod, getD_append_last]
      exact hsource0.symm
  · exact extend_nodup hnodup hclosed hsrc

/-- A walk extension that does not close keeps the walk invariant. -/
theorem walk_extend_open {net : List Node} {seq : List Link} {l : Link}
    (hwalk : WalkInv net seq)
    (hsrc : ∀ lastL ∈ seq.getLast?, l.source = lastL.target)
    (hlnet : l ∈ netLinks net)
    (hclosed : Sequence.isClosed (seq ++ [l]) = false) :
    WalkInv net (seq ++ [l]) := by
  obtain ⟨hsub, hchain, hnodup, hcl⟩ := hwalk
  refine ⟨?_, extend_chain hchain hsrc, extend_nodup hnodup hcl hsrc, hclosed⟩
  intro x hx
  rcases List.mem_append.mp hx with h' | h'
  · exact hsub x h'
  · rw [List.mem_singleton.mp h']
    exact hlnet

/-- Descending into the target node of the walk's new last link yields a
valid pending-entries state. -/
theorem outInv_descend {net : List Node} (W : NetWF net) {t : Nat} {l : Link}
    {seq : List Link} {nd : Node} (hfind : findNode net t = some nd)
    (hts : l.target = t) : OutInv net (seq ++ [l]) nd.outward := by
  obtain ⟨hnd, hndc⟩ := findNode_some hfind
  intro p hp
  obtain ⟨hs, ht⟩ := W.outSrc nd hnd p hp
  refine ⟨mem_netLinks.mpr ⟨nd, hnd, p, hp, rfl⟩, ht, ?_⟩
  intro lastL hlastL
  have hll : (seq ++ [l]).getLast? = some l := by simp
  have hl' : lastL = l := by
    have : some lastL = some l := by rw [← hll]; exact hlastL.symm
    exact Option.some_inj.mp this
  rw [hl', hs, hndc, ← hts]

/-- One DFS layer only emits canonical rotations of simple cycles whose
links lie in the network (given the recursive calls do). -/
theorem dfsRound_sound {net : List Node} (W : NetWF net)
    {rec : List (Nat × Link) → List Link → List (List Link) → List (List Link)}
    (hrec : ∀ out seq acc, WalkInv net seq → OutInv net seq out →
      ∀ s ∈ rec out seq acc, s ∈ acc ∨ GoodLoop (netLinks net) s) :
    ∀ out seq acc, WalkInv net seq → OutInv net seq out →
      ∀ s ∈ dfsRound net rec out seq acc, s ∈ acc ∨ GoodLoop (netLinks net) s := by
  intro out
  induction out with
  | nil => intro seq acc _ _ s hs; exact Or.inl hs
  | cons p rest ih =>
    obtain ⟨t, l⟩ := p
    intro seq acc hwalk hout s hs
    obtain ⟨hlnet, hlt, hlsrc⟩ := hout (t, l) (List.mem_cons_self _ _)
    have hrest : OutInv net seq rest := fun q hq => hout q (List.mem_cons_of_mem _ hq)
    have hunf : dfsRound net rec ((t, l) :: rest) seq acc
        = dfsRound net rec rest seq
          (if Sequence.isLoop (seq ++ [l]) = true then LoopSet.addLoop acc (seq ++ [l])
           else if Sequence.isClosed (seq ++ [l]) = true then acc
           else
             match findNode net t with
             | some nd => rec nd.outward (seq ++ [l]) acc
             | none => acc) := rfl
    rw [hunf] at hs
    rcases ih seq _ hwalk hrest s hs with hmem | hgood
    · by_cases hloop : Sequence.isLoop (seq ++ [l]) = true
      · rw [if_pos hloop] at hmem
        rcases mem_addLoop hmem with h' | ⟨_, h'⟩
        · exact Or.inl h'
        · refine Or.inr ⟨seq ++ [l], walk_extend_loop hwalk hlsrc hloop, ?_, h'⟩
          intro x hx
          rcases List.mem_append.mp hx with h'' | h''
          · exact hwalk.1 x h''
          · rw [List.mem_singleton.mp h'']
            exact hlnet
      · rw [if_neg hloop] at hmem
        by_cases hcl : Sequence.isClosed (seq ++ [l]) = true
        · rw [if_pos hcl] at hmem
          exact Or.inl hmem
        · rw [if_neg hcl] at hmem
          cases hfind : findNode net t with
          | none =>
            rw [hfind] at hmem
            exact Or.inl hmem
          | some nd =>
            rw [hfind] at hmem
            have hclf : Sequence.isClosed (seq ++ [l]) = false := by
              rwa [Bool.not_eq_true] at hcl
            have hwalk' : WalkInv net (seq ++ [l]) :=
              walk_extend_open hwalk hlsrc hlnet hclf
            exact hrec nd.outward (seq ++ [l]) acc hwalk' (outInv_descend W hfind hlt) s hmem
    · exact Or.inr hgood

/-- The DFS only emits canonical rotations of simple cycles whose links
lie in the network. -/
theorem dfsFuel_sound {net : List Node} (W : NetWF net) :
    ∀ fuel out seq acc, WalkInv net seq → OutInv net seq out →
      ∀ s ∈ dfsFuel net fuel out seq acc, s ∈ acc ∨ GoodLoop (netLinks net) s := by
  intro fuel
  induction fuel with
  | zero => intro out seq acc _ _ s hs; exact Or.inl hs
  | succ fuel ih =>
    intro out seq acc hw ho s hs
    exact dfsRound_sound W ih out seq acc hw ho s hs

/-- One DFS layer keeps every stored sequence. -/
theorem dfsRound_sub {net : List Node}
    {rec : List (Nat × Link) → List Link → List (List Link) → List (List Link)}
    (hrec : ∀ out seq acc, ∀ s ∈ acc, s ∈ rec out seq acc) :
    ∀ out seq acc, ∀ s ∈ acc, s ∈ dfsRound net rec out seq acc := by
  intro out
  induction out with
  | nil => intro seq acc s hs; exact hs
  | cons p rest ih =>
    obtain ⟨t, l⟩ := p
    intro seq acc s hs
    have hunf : dfsRound net rec ((t, l) :: rest) seq acc
        = dfsRound net rec rest seq
          (if Sequence.isLoop (seq ++ [l]) = true then LoopSet.addLoop acc (seq ++ [l])
           else if Sequence.isClosed (seq ++ [l]) = true then acc
           else
             match findNode net t with
             | some nd => rec nd.outward (seq ++ [l]) acc
             | none => acc) := rfl
    rw [hunf]
    apply ih
    by_cases hloop : Sequence.isLoop (seq ++ [l]) = true
    · rw [if_pos hloop]
      exact addLoop_keeps hs
    · rw [if_neg hloop]
      by_cases hcl : Sequence.isClosed (seq ++ [l]) = true
      · rw [if_pos hcl]; exact hs
      · rw [if_neg hcl]
        cases hfind : findNode net t with
        | none => exact hs
        | some nd => exact hrec nd.outward (seq ++ [l]) acc s hs

/-- The DFS keeps every stored sequence. -/
theorem dfsFuel_sub {net : List Node} :
    ∀ fuel out seq acc, ∀ s ∈ acc, s ∈ dfsFuel net fuel out seq acc := by
  intro fuel
  induction fuel with
  | zero => intro out seq acc s hs; exact hs
  | succ fuel ih =>
    intro out seq acc s hs
    exact dfsRound_sub ih out seq acc s hs

/-- One DFS layer keeps stored representations pairwise distinct. -/
theorem dfsRound_reprNodup {net : List Node}
    {rec : List (Nat × Link) → List Link → List (List Link) → List (List Link)}
    (hrec : ∀ out seq acc, ReprNodup acc → ReprNodup (rec out seq acc)) :
    ∀ out seq acc, ReprNodup acc → ReprNodup (dfsRound net rec out seq acc) := by
  intro out
  induction out with
  | nil => intro seq acc h; exact h
  | cons p rest ih =>
    obtain ⟨t, l⟩ := p
    intro seq acc h
    have hunf : dfsRound net rec ((t, l) :: rest) seq acc
        = dfsRound net rec rest seq
          (if Sequence.isLoop (seq ++ [l]) = true then LoopSet.addLoop acc (seq ++ [l])
           else if Sequence.isClosed (seq ++ [l]) = true then acc
           else
             match findNode net t with
             | some nd => rec nd.outward (seq ++ [l]) acc
             | none => acc) := rfl
    rw [hunf]
    apply ih
    by_cases hloop : Sequence.isLoop (seq ++ [l]) = true
    · rw [if_pos hloop]
      exact addLoop_reprNodup h
    · rw [if_neg hloop]
      by_cases hcl : Sequence.isClosed (seq ++ [l]) = true
      · rw [if_pos hcl]; exact h
      · rw [if_neg hcl]
        cases hfind : findNode net t with
        | none => exact h
        | some nd => exact hrec nd.outward (seq ++ [l]) acc h

/-- The DFS keeps stored representations pairwise distinct. -/
theorem dfsFuel_reprNodup {net : List Node} :
    ∀ fuel out seq acc, ReprNodup acc → ReprNodup (dfsFuel net fuel out seq acc) := by
  intro fuel
  induction fuel with
  | zero => intro out seq acc h; exact h
  | succ fuel ih =>
    intro out seq acc h
    exact dfsRound_reprNodup ih out seq acc h

/-- A representation match survives growing the store. -/
theorem reprIn_mono {a b : List (List Link)} {x : List Link}
    (hsub : ∀ s ∈ a, s ∈ b) (h : ReprIn a x) : ReprIn b x := by
  obtain ⟨s, hs, hr⟩ := h
  exact ⟨s, hsub s hs, hr⟩

/-- Taking one more element appends the element at the cut. -/
theorem take_succ_getD {cy : List Link} {k : Nat} (h : k < cy.length) :
    cy.take (k + 1) = cy.take k ++ [cy.getD k default] := by
  rw [List.take_succ, List.getElem?_eq_getElem h, getD_eq_getElem' _ _ h]
  rfl

/-- Source ids of a prefix. -/
theorem sourceIds_take (cy : List Link) (k : Nat) :
    Sequence.sourceIds (cy.take k) = (Sequence.sourceIds cy).take k := by
  simp [Sequence.sourceIds, List.map_take]

/-- In a duplicate-free list, an element does not occur before its
position. -/
theorem nodup_getElem_not_mem_take {xs : List Nat} (h : xs.Nodup) {j : Nat}
    (hj : j < xs.length) : xs[j] ∉ xs.take j := by
  intro hmem
  obtain ⟨i, hi, hieq⟩ := List.mem_iff_getElem.mp hmem
  rw [List.length_take] at hi
  have hi2 : i < j := lt_of_lt_of_le hi (min_le_left _ _)
  have hilen : i < xs.length := lt_of_lt_of_le hi (min_le_right _ _)
  have hgeq : xs[i] = xs[j] := by
    rw [← hieq, List.getElem_take]
  have : i = j := h.getElem_inj_iff.mp hgeq
  omega

/-- A sequence passing the loop test also passes the closure test. -/
theorem isClosed_of_isLoop {seq : List Link} (h : Sequence.isLoop seq = true) :
    Sequence.isClosed seq = true := by
  unfold Sequence.isLoop at h
  unfold Sequence.isClosed
  cases hg : seq.getLast? with
  | none => rw [hg] at h; exact Bool.noConfusion h
  | some l =>
    rw [hg] at h
    have h' : (Sequence.indexOfSourceWithConcept seq l.target == some 0) = true := h
    show (Sequence.indexOfSourceWithConcept seq l.target).isSome = true
    rw [eq_of_beq h']
    rfl

/-- Completeness of the DFS: a simple cycle whose links are all in the
network, rooted so that its walked prefix matches the DFS state, leads
to its canonical representation being stored, provided enough fuel for
the remaining depth. -/
theorem dfsFuel_complete {net : List Node} (W : NetWF net) {cy : List Link}
    (hcy : IsSimpleLoop cy) (hsub : ∀ x ∈ cy, x ∈ netLinks net) :
    ∀ fuel, ∀ (k : Nat) (acc : List (List Link)) (nd : Node),
      k < cy.length → cy.length - k ≤ fuel →
      nd ∈ net → nd.concept = (cy.getD k default).source →
      ReprIn (dfsFuel net fuel nd.outward (cy.take k) acc)
        (Sequence.rotateToStandard cy) := by
  intro fuel
  induction fuel with
  | zero =>
    intro k acc nd hk hfuel _ _
    omega
  | succ fuel ih =>
    intro k acc nd hk hfuel hnd hndc
    have hmemk : cy.getD k default ∈ cy := by
      rw [getD_eq_getElem' _ _ hk]
      exact List.getElem_mem hk
    obtain ⟨own, hown, hoc, hpo⟩ := netLinks_owner W (hsub _ hmemk)
    have hone : own = nd := node_unique W hown hnd (by rw [hoc, hndc])
    subst hone
    suffices H : ∀ (out : List (Nat × Link)) (a : List (List Link)),
        ((cy.getD k default).target, cy.getD k default) ∈ out →
        ReprIn (dfsRound net (dfsFuel net fuel) out (cy.take k) a)
          (Sequence.rotateToStandard cy) by
      exact H own.outward acc hpo
    intro out
    induction out with
    | nil =>
      intro a habs
      exact absurd habs (List.not_mem_nil _)
    | cons p rest ihout =>
      obtain ⟨t', l'⟩ := p
      intro a hentry
      have hunf : dfsRound net (dfsFuel net fuel) ((t', l') :: rest) (cy.take k) a
          = dfsRound net (dfsFuel net fuel) rest (cy.take k)
            (if Sequence.isLoop (cy.take k ++ [l']) = true
              then LoopSet.addLoop a (cy.take k ++ [l'])
             else if Sequence.isClosed (cy.take k ++ [l']) = true then a
             else
               match findNode net t' with
               | some nd => dfsFuel net fuel nd.outward (cy.take k ++ [l']) a
               | none => a) := rfl
      rw [hunf]
      rcases List.mem_cons.mp hentry with heq | hrest
      · have h1 : t' = (cy.getD k default).target := (congrArg Prod.fst heq).symm
        have h2 : l' = cy.getD k default := (congrArg Prod.snd heq).symm
        subst h1
        subst h2
        refine reprIn_mono
          (fun s hs => dfsRound_sub (fun o sq b => dfsFuel_sub fuel o sq b) rest
            (cy.take k) _ s hs) ?_
        rw [← take_succ_getD hk]
        by_cases hend : k + 1 = cy.length
        · have hfull : cy.take (k + 1) = cy := by
            rw [hend]
            exact List.take_length ..
          rw [hfull, if_pos (isLoop_of_isSimpleLoop hcy)]
          exact addLoop_reprIn (isLoop_of_isSimpleLoop hcy)
        · have hk1 : k + 1 < cy.length := by omega
          have hlastk : (cy.take (k + 1)).getLast? = some (cy.getD k default) := by
            rw [take_succ_getD hk]
            exact List.getLast?_concat _
          have hcyc := hcy.cyc k hk
          rw [Nat.mod_eq_of_lt hk1] at hcyc
          have hclosed : Sequence.isClosed (cy.take (k + 1)) = false := by
            rw [isClosed_false_iff hlastk, hcyc, sourceIds_take]
            intro hmem
            have hlen2 : k + 1 < (Sequence.sourceIds cy).length := by
              simpa [Sequence.sourceIds] using hk1
            have hmem' : (Sequence.sourceIds cy)[k + 1] ∈
                (Sequence.sourceIds cy).take (k + 1) := by
              have hgd : (Sequence.sourceIds cy)[k + 1] = (cy.getD (k + 1) default).source := by
                simp only [Sequence.sourceIds, List.getElem_map]
                rw [getD_eq_getElem' _ _ hk1]
              rw [hgd]
              exact hmem
            exact nodup_getElem_not_mem_take hcy.nodup hlen2 hmem'
          have hloopf : ¬(Sequence.isLoop (cy.take (k + 1)) = true) := by
            intro hb
            have := isClosed_of_isLoop hb
            rw [hclosed] at this
            exact Bool.noConfusion this
          rw [if_neg hloopf, if_neg (by rw [hclosed]; simp)]
          obtain ⟨m, hm, hmc⟩ := W.tgtMem _ (hsub _ hmemk)
          have hfind : findNode net (cy.getD k default).target = some m := by
            rw [← hmc]
            exact findNode_of_mem W hm
          rw [hfind]
          have hmsrc : m.concept = (cy.getD (k + 1) default).source := by
            rw [hmc, hcyc]
          exact ih (k + 1) a m hk1 (by omega) hm hmsrc
      · exact ihout _ hrest

/-- A simple cycle inside a well-formed network has at most as many
links as the network has nodes. -/
theorem cycle_length_le {net : List Node} (W : NetWF net) {cy : List Link}
    (hcy : IsSimpleLoop cy) (hsub : ∀ x ∈ cy, x ∈ netLinks net) :
    cy.length ≤ net.length := by
  have hsubc : Sequence.sourceIds cy ⊆ net.map (fun n => n.concept) := by
    intro v hv
    obtain ⟨l0, hl0, hs⟩ := List.mem_map.mp hv
    obtain ⟨ndo, hndo, hoc, _⟩ := netLinks_owner W (hsub l0 hl0)
    exact List.mem_map.mpr ⟨ndo, hndo, by rw [hoc, hs]⟩
  have hlen : (Sequence.sourceIds cy).length = cy.length := by
    simp [Sequence.sourceIds]
  have hlen2 : (net.map (fun n => n.concept)).length = net.length := by
    simp
  rw [← hlen, ← hlen2]
  exact (hcy.nodup.subperm hsubc).length_le

/-- A good loop over a smaller link collection is one over a larger. -/
theorem goodLoop_mono {U V : List Link} {s : List Link}
    (hUV : ∀ x ∈ U, x ∈ V) (h : GoodLoop U s) : GoodLoop V s := by
  obtain ⟨cy, h1, h2, h3⟩ := h
  exact ⟨cy, h1, fun x hx => hUV x (h2 x hx), h3⟩

/-- The empty walk satisfies the walk invariant. -/
theorem walkInv_nil (net : List Node) : WalkInv net [] := by
  refine ⟨?_, ?_, ?_, rfl⟩
  · intro x hx; exact absurd hx (List.not_mem_nil _)
  · intro i hi; simp at hi
  · simp [Sequence.sourceIds]

/-- The outward table of a member node is a valid pending state for the
empty walk. -/
theorem outInv_root {net : List Node} (W : NetWF net) {nd : Node} (hnd : nd ∈ net) :
    OutInv net [] nd.outward := by
  intro p hp
  obtain ⟨hs, ht⟩ := W.outSrc nd hnd p hp
  refine ⟨mem_netLinks.mpr ⟨nd, hnd, p, hp, rfl⟩, ht, ?_⟩
  intro lastL hlastL
  exact absurd hlastL (by simp)

/-- The driver loop keeps every stored sequence. -/
theorem processRoots_sub :
    ∀ (roots : List Nat) (net : List Node) (acc : List (List Link)),
      ∀ s ∈ acc, s ∈ (processRoots roots net acc).2 := by
  intro roots
  induction roots with
  | nil => intro net acc s hs; exact hs
  | cons c rest ih =>
    intro net acc s hs
    cases hfind : findNode net c with
    | none =>
      have hunf : processRoots (c :: rest) net acc = processRoots rest net acc := by
        show (match findNode net c with
          | none => processRoots rest net acc
          | some nd =>
            if !isSink nd && !isSource nd then
              processRoots rest (pruneFix (removeNode net c))
                (dfsFuel net (net.length + 1) nd.outward [] acc)
            else processRoots rest net acc) = _
        rw [hfind]
      rw [hunf]
      exact ih net acc s hs
    | some nd =>
      by_cases hguard : (!isSink nd && !isSource nd) = true
      · have hunf : processRoots (c :: rest) net acc
            = processRoots rest (pruneFix (removeNode net c))
              (dfsFuel net (net.length + 1) nd.outward [] acc) := by
          show (match findNode net c with
            | none => processRoots rest net acc
            | some nd =>
              if !isSink nd && !isSource nd then
                processRoots rest (pruneFix (removeNode net c))
                  (dfsFuel net (net.length + 1) nd.outward [] acc)
              else processRoots rest net acc) = _
          rw [hfind]
          exact if_pos hguard
        rw [hunf]
        exact ih _ _ s (dfsFuel_sub _ _ _ _ s hs)
      · have hunf : processRoots (c :: rest) net acc = processRoots rest net acc := by
          show (match findNode net c with
            | none => processRoots rest net acc
            | some nd =>
              if !isSink nd && !isSource nd then
                processRoots rest (pruneFix (removeNode net c))
                  (dfsFuel net (net.length + 1) nd.outward [] acc)
              else processRoots rest net acc) = _
          rw [hfind]
          exact if_neg hguard
        rw [hunf]
        exact ih net acc s hs

/-- The driver loop keeps stored representations pairwise distinct. -/
theorem processRoots_reprNodup :
    ∀ (roots : List Nat) (net : List Node) (acc : List (List Link)),
      ReprNodup acc → ReprNodup (processRoots roots net acc).2 := by
  intro roots
  induction roots with
  | nil => intro net acc h; exact h
  | cons c rest ih =>
    intro net acc h
    cases hfind : findNode net c with
    | none =>
      have hunf : processRoots (c :: rest) net acc = processRoots rest net acc := by
        show (match findNode net c with
          | none => processRoots rest net acc
          | some nd =>
            if !isSink nd && !isSource nd then
              processRoots rest (pruneFix (removeNode net c))
                (dfsFuel net (net.length + 1) nd.outward [] acc)
            else processRoots rest net acc) = _
        rw [hfind]
      rw [hunf]
      exact ih net acc h
    | some nd =>
      by_cases hguard : (!isSink nd && !isSource nd) = true
      · have hunf : processRoots (c :: rest) net acc
            = processRoots rest (pruneFix (removeNode net c))
              (dfsFuel net (net.length + 1) nd.outward [] acc) := by
          show (match findNode net c with
            | none => processRoots rest net acc
            | some nd =>
              if !isSink nd && !isSource nd then
                processRoots rest (pruneFix (removeNode net c))
                  (dfsFuel net (net.length + 1) nd.outward [] acc)
              else processRoots rest net acc) = _
          rw [hfind]
          exact if_pos hguard
        rw [hunf]
        exact ih _ _ (dfsFuel_reprNodup _ _ _ _ h)
      · have hunf : processRoots (c :: rest) net acc = processRoots rest net acc := by
          show (match findNode net c with
            | none => processRoots rest net acc
            | some nd =>
              if !isSink nd && !isSource nd then
                processRoots rest (pruneFix (removeNode net c))
                  (dfsFuel net (net.length + 1) nd.outward [] acc)
              else processRoots rest net acc) = _
          rw [hfind]
          exact if_neg hguard
        rw [hunf]
        exact ih net acc h

/-- The driver loop only emits canonical rotations of simple cycles over
the given link collection. -/
theorem processRoots_sound (E : List Link) :
    ∀ (roots : List Nat) (net : List Node) (acc : List (List Link)),
      NetWF net → (∀ x ∈ netLinks net, x ∈ E) →
      ∀ s ∈ (processRoots roots net acc).2, s ∈ acc ∨ GoodLoop E s := by
  intro roots
  induction roots with
  | nil => intro net acc _ _ s hs; exact Or.inl hs
  | cons c rest ih =>
    intro net acc W hE s hs
    cases hfind : findNode net c with
    | none =>
      have hunf : processRoots (c :: rest) net acc = processRoots rest net acc := by
        show (match findNode net c with
          | none => processRoots rest net acc
          | some nd =>
            if !isSink nd && !isSource nd then
              processRoots rest (pruneFix (removeNode net c))
                (dfsFuel net (net.length + 1) nd.outward [] acc)
            else processRoots rest net acc) = _
        rw [hfind]
      rw [hunf] at hs
      exact ih net acc W hE s hs
    | some nd =>
      by_cases hguard : (!isSink nd && !isSource nd) = true
      · have hunf : processRoots (c :: rest) net acc
            = processRoots rest (pruneFix (removeNode net c))
              (dfsFuel net (net.length + 1) nd.outward [] acc) := by
          show (match findNode net c with
            | none => processRoots rest net acc
            | some nd =>
              if !isSink nd && !isSource nd then
                processRoots rest (pruneFix (removeNode net c))
                  (dfsFuel net (net.length + 1) nd.outward [] acc)
              else processRoots rest net acc) = _
          rw [hfind]
          exact if_pos hguard
        rw [hunf] at hs
        have W' : NetWF (pruneFix (removeNode net c)) := pruneFix_WF (removeNode_WF W c)
        have hE' : ∀ x ∈ netLinks (pruneFix (removeNode net c)), x ∈ E := by
          intro x hx
          exact hE x ((netLinks_removeNode W).mp
            (netLinks_pruneFix_sub (removeNode_WF W c) hx)).1
        rcases ih _ _ W' hE' s hs with hmem | hgood
        · rcases dfsFuel_sound W (net.length + 1) nd.outward [] acc (walkInv_nil net)
            (outInv_root W (findNode_some hfind).1) s hmem with h' | h'
          · exact Or.inl h'
          · exact Or.inr (goodLoop_mono hE h')
        · exact Or.inr hgood
      · have hunf : processRoots (c :: rest) net acc = processRoots rest net acc := by
          show (match findNode net c with
            | none => processRoots rest net acc
            | some nd =>
              if !isSink nd && !isSource nd then
                processRoots rest (pruneFix (removeNode net c))
                  (dfsFuel net (net.length + 1) nd.outward [] acc)
              else processRoots rest net acc) = _
          rw [hfind]
          exact if_neg hguard
        rw [hunf] at hs
        exact ih net acc W hE s hs

/-- Completeness of the driver loop: a simple cycle whose canonical
representation is already stored, or whose links all survive in the
network with a pending root on the cycle, ends with its representation
stored. -/
theorem processRoots_complete :
    ∀ (roots : List Nat) (net : List Node) (acc : List (List Link)),
      NetWF net → ∀ cy : List Link, IsSimpleLoop cy →
      (ReprIn acc (Sequence.rotateToStandard cy) ∨
        ((∀ x ∈ cy, x ∈ netLinks net) ∧ ∃ r ∈ roots, r ∈ Sequence.sourceIds cy)) →
      ReprIn (processRoots roots net acc).2 (Sequence.rotateToStandard cy) := by
  intro roots
  induction roots with
  | nil =>
    intro net acc _ cy _ hinv
    rcases hinv with h | ⟨_, r, hr, _⟩
    · exact h
    · exact absurd hr (List.not_mem_nil _)
  | cons c rest ih =>
    intro net acc W cy hcy hinv
    rcases hinv with hdone | ⟨hin, r, hr, hrcy⟩
    · exact reprIn_mono (fun s hs => processRoots_sub (c :: rest) net acc s hs) hdone
    · cases hfind : findNode net c with
      | none =>
        have hrne : r ≠ c := by
          intro e
          subst e
          obtain ⟨l0, hl0, hs⟩ := cycle_succ hrcy
          obtain ⟨ndo, hndo, hoc, _⟩ := netLinks_owner W (hin l0 hl0)
          exact findNode_none hfind ndo hndo (by rw [hoc, hs])
        have hr' : r ∈ rest := by
          rcases List.mem_cons.mp hr with h' | h'
          · exact absurd h' hrne
          · exact h'
        have hunf : processRoots (c :: rest) net acc = processRoots rest net acc := by
          show (match findNode net c with
            | none => processRoots rest net acc
            | some nd =>
              if !isSink nd && !isSource nd then
                processRoots rest (pruneFix (removeNode net c))
                  (dfsFuel net (net.length + 1) nd.outward [] acc)
              else processRoots rest net acc) = _
          rw [hfind]
        rw [hunf]
        exact ih net acc W cy hcy (Or.inr ⟨hin, r, hr', hrcy⟩)
      | some nd =>
        by_cases hguard : (!isSink nd && !isSource nd) = true
        · obtain ⟨hndm, hndc⟩ := findNode_some hfind
          have hunf : processRoots (c :: rest) net acc
              = processRoots rest (pruneFix (removeNode net c))
                (dfsFuel net (net.length + 1) nd.outward [] acc) := by
            show (match findNode net c with
              | none => processRoots rest net acc
              | some nd =>
                if !isSink nd && !isSource nd then
                  processRoots rest (pruneFix (removeNode net c))
                    (dfsFuel net (net.length + 1) nd.outward [] acc)
                else processRoots rest net acc) = _
            rw [hfind]
            exact if_pos hguard
          rw [hunf]
          by_cases hrc : c ∈ Sequence.sourceIds cy
          · obtain ⟨l0, hl0, hl0s⟩ := List.mem_map.mp hrc
            obtain ⟨j, hj, hjl⟩ := List.mem_iff_getElem.mp hl0
            have hjc : (cy.getD j default).source = c := by
              rw [getD_eq_getElem' _ _ hj, hjl, hl0s]
            have hcyr : IsSimpleLoop (cy.rotate j) := rotate_isSimpleLoop hcy j
            have hsubr : ∀ x ∈ cy.rotate j, x ∈ netLinks net := by
              intro x hx
              exact hin x ((List.rotate_perm cy j).mem_iff.mp hx)
            have hlen0 : 0 < (cy.rotate j).length := by
              rw [List.length_rotate]; exact hcy.pos
            have hgd0 : ((cy.rotate j).getD 0 default).source = c := by
              rw [getD_rotate _ _ _ hcy.pos]
              rw [show (0 + j) % cy.length = j from by
                rw [Nat.zero_add]; exact Nat.mod_eq_of_lt hj]
              exact hjc
            have hfuel : (cy.rotate j).length ≤ net.length := by
              rw [List.length_rotate]
              exact cycle_length_le W hcy hin
            have hroot : nd.concept = ((cy.rotate j).getD 0 default).source := by
              rw [hndc, hgd0]
            have hdone := dfsFuel_complete W hcyr hsubr (net.length + 1) 0 acc nd
              hlen0 (by rw [List.length_rotate] at *; omega) hndm hroot
            rw [rotateToStandard_rotate hcy j] at hdone
            exact reprIn_mono (fun s hs => processRoots_sub rest _ _ s hs) hdone
          · have hrne : r ≠ c := fun e => hrc (e ▸ hrcy)
            have hr' : r ∈ rest := by
              rcases List.mem_cons.mp hr with h' | h'
              · exact absurd h' hrne
              · exact h'
            have W'' := removeNode_WF W c
            have hin' : ∀ x ∈ cy, x ∈ netLinks (pruneFix (removeNode net c)) := by
              apply pruneFix_cycle W'' hcy
              intro x hx
              refine (netLinks_removeNode W).mpr ⟨hin x hx, ?_, ?_⟩
              · intro e
                exact hrc (e ▸ cycle_src_mem hx)
              · intro e
                exact hrc (e ▸ cycle_tgt_mem hcy hx)
            exact ih _ _ (pruneFix_WF W'') cy hcy (Or.inr ⟨hin', r, hr', hrcy⟩)
        · have hrne : r ≠ c := by
            intro e
            subst e
            obtain ⟨hnsrc, hnsnk⟩ := cycle_not_prunable W hcy hin (findNode_some hfind).1
              (by rw [(findNode_some hfind).2]; exact hrcy)
            apply hguard
            rw [hnsrc, hnsnk]
            rfl
          have hr' : r ∈ rest := by
            rcases List.mem_cons.mp hr with h' | h'
            · exact absurd h' hrne
            · exact h'
          have hunf : processRoots (c :: rest) net acc = processRoots rest net acc := by
            show (match findNode net c with
              | none => processRoots rest net acc
              | some nd =>
                if !isSink nd && !isSource nd then
                  processRoots rest (pruneFix (removeNode net c))
                    (dfsFuel net (net.length + 1) nd.outward [] acc)
                else processRoots rest net acc) = _
            rw [hfind]
            exact if_neg hguard
          rw [hunf]
          exact ih net acc W cy hcy (Or.inr ⟨hin, r, hr', hrcy⟩)

/-- Decimal value of a digit character string, most significant first. -/
def decValChars (cs : List Char) : Nat :=
  cs.foldl (fun a c => a * 10 + (c.toNat - 48)) 0

/-- The digit characters for values below ten are decimal digits. -/
theorem digitChar_isDigit {m : Nat} (h : m < 10) : (Nat.digitChar m).isDigit = true := by
  interval_cases m <;> decide

/-- Numeric value of the digit characters for values below ten. -/
theorem digitChar_val {m : Nat} (h : m < 10) : (Nat.digitChar m).toNat - 48 = m := by
  interval_cases m <;> decide

/-- The digit accumulator of `Nat.toDigitsCore` is a suffix. -/
theorem toDigitsCore_acc (b : Nat) : ∀ (fuel n : Nat) (acc : List Char),
    Nat.toDigitsCore b fuel n acc = Nat.toDigitsCore b fuel n [] ++ acc := by
  intro fuel
  induction fuel with
  | zero => intro n acc; rfl
  | succ fuel ih =>
    intro n acc
    show (if n / b = 0 then Nat.digitChar (n % b) :: acc
        else Nat.toDigitsCore b fuel (n / b) (Nat.digitChar (n % b) :: acc))
      = (if n / b = 0 then Nat.digitChar (n % b) :: ([] : List Char)
        else Nat.toDigitsCore b fuel (n / b) (Nat.digitChar (n % b) :: []))
        ++ acc
    by_cases h : n / b = 0
    · rw [if_pos h, if_pos h]
      rfl
    · rw [if_neg h, if_neg h, ih (n / b) (Nat.digitChar (n % b) :: acc),
        ih (n / b) (Nat.digitChar (n % b) :: []), List.append_assoc]
      rfl

/-- `Nat.toDigitsCore` never empties a nonempty accumulator. -/
theorem toDigitsCore_ne_nil (b : Nat) : ∀ (fuel n : Nat) (acc : List Char),
    acc ≠ [] → Nat.toDigitsCore b fuel n acc ≠ [] := by
  intro fuel
  induction fuel with
  | zero => intro n acc h; exact h
  | succ fuel ih =>
    intro n acc h
    show (if n / b = 0 then Nat.digitChar (n % b) :: acc
        else Nat.toDigitsCore b fuel (n / b) (Nat.digitChar (n % b) :: acc)) ≠ []
    by_cases hz : n / b = 0
    · rw [if_pos hz]
      exact List.cons_ne_nil _ _
    · rw [if_neg hz]
      exact ih (n / b) _ (List.cons_ne_nil _ _)

/-- The decimal rendering of a natural number is nonempty. -/
theorem toDigits_ne_nil (n : Nat) : Nat.toDigits 10 n ≠ [] := by
  show (if n / 10 = 0 then Nat.digitChar (n % 10) :: ([] : List Char)
      else Nat.toDigitsCore 10 n (n / 10) (Nat.digitChar (n % 10) :: [])) ≠ []
  by_cases hz : n / 10 = 0
  · rw [if_pos hz]
    exact List.cons_ne_nil _ _
  · rw [if_neg hz]
    exact toDigitsCore_ne_nil 10 n _ _ (List.cons_ne_nil _ _)

/-- Every character of the decimal rendering is a digit. -/
theorem toDigitsCore_digits : ∀ (fuel n : Nat) (acc : List Char),
    (∀ c ∈ acc, c.isDigit = true) →
    ∀ c ∈ Nat.toDigitsCore 10 fuel n acc, c.isDigit = true := by
  intro fuel
  induction fuel with
  | zero => intro n acc h; exact h
  | succ fuel ih =>
    intro n acc h c hc
    have hc' : c ∈ (if n / 10 = 0 then Nat.digitChar (n % 10) :: acc
        else Nat.toDigitsCore 10 fuel (n / 10) (Nat.digitChar (n % 10) :: acc)) := hc
    have hdig : ∀ x ∈ Nat.digitChar (n % 10) :: acc, x.isDigit = true := by
      intro x hx
      rcases List.mem_cons.mp hx with h' | h'
      · rw [h']
        exact digitChar_isDigit (Nat.mod_lt _ (by omega))
      · exact h x h'
    by_cases hz : n / 10 = 0
    · rw [if_pos hz] at hc'
      exact hdig c hc'
    · rw [if_neg hz] at hc'
      exact ih (n / 10) _ hdig c hc'

/-- Every character of `Nat.toDigits 10 n` is a digit. -/
theorem toDigits_digits (n : Nat) : ∀ c ∈ Nat.toDigits 10 n, c.isDigit = true :=
  toDigitsCore_digits (n + 1) n []
    (fun c hc => absurd hc (List.not_mem_nil _))

/-- Value computed over the decimal rendering with arbitrary leading
accumulator. -/
theorem toDigitsCore_val : ∀ (fuel n : Nat), n < 10 ^ fuel → ∀ (a : Nat),
    (Nat.toDigitsCore 10 fuel n []).foldl (fun a c => a * 10 + (c.toNat - 48)) a
      = a * 10 ^ (Nat.toDigitsCore 10 fuel n []).length + n := by
  intro fuel
  induction fuel with
  | zero =>
    intro n hn a
    have hn0 : n = 0 := by
      have : (10 : Nat) ^ 0 = 1 := by norm_num
      omega
    subst hn0
    show a = a * 10 ^ ([] : List Char).length + 0
    simp
  | succ fuel ih =>
    intro n hn a
    have hkey : Nat.toDigitsCore 10 (fuel + 1) n []
        = (if n / 10 = 0 then Nat.digitChar (n % 10) :: ([] : List Char)
          else Nat.toDigitsCore 10 fuel (n / 10) (Nat.digitChar (n % 10) :: [])) := rfl
    rw [hkey]
    by_cases hz : n / 10 = 0
    · rw [if_pos hz]
      have hn10 : n < 10 := by omega
      have hd := digitChar_val (Nat.mod_lt n (by omega))
      show a * 10 + ((Nat.digitChar (n % 10)).toNat - 48) = a * 10 ^ 1 + n
      rw [hd, Nat.mod_eq_of_lt hn10, pow_one]
    · rw [if_neg hz]
      rw [toDigitsCore_acc 10 fuel (n / 10) (Nat.digitChar (n % 10) :: []),
        List.foldl_append]
      have hlt : n / 10 < 10 ^ fuel := by
        have h2 : (10 : Nat) ^ (fuel + 1) = 10 ^ fuel * 10 := pow_succ 10 fuel
        rw [Nat.div_lt_iff_lt_mul (by omega : (0 : Nat) < 10)]
        rw [h2] at hn
        exact hn
      rw [ih (n / 10) hlt a]
      show (a * 10 ^ (Nat.toDigitsCore 10 fuel (n / 10) []).length + n / 10) * 10
          + ((Nat.digitChar (n % 10)).toNat - 48)
        = a * 10 ^ ((Nat.toDigitsCore 10 fuel (n / 10) []) ++ [Nat.digitChar (n % 10)]).length + n
      rw [digitChar_val (Nat.mod_lt _ (by omega)), List.length_append,
        List.length_singleton, pow_succ]
      calc (a * 10 ^ (Nat.toDigitsCore 10 fuel (n / 10) []).length + n / 10) * 10 + n % 10
          = a * (10 ^ (Nat.toDigitsCore 10 fuel (n / 10) []).length * 10)
            + (10 * (n / 10) + n % 10) := by ring
        _ = a * (10 ^ (Nat.toDigitsCore 10 fuel (n / 10) []).length * 10) + n := by
            rw [Nat.div_add_mod]

/-- Round trip: reading the decimal rendering back gives the number. -/
theorem toDigits_val (n : Nat) : decValChars (Nat.toDigits 10 n) = n := by
  have hlt : n < 10 ^ (n + 1) := by
    have h1 : n < 10 ^ n := Nat.lt_pow_self (by omega) n
    have h2 : (10 : Nat) ^ n ≤ 10 ^ (n + 1) :=
      Nat.pow_le_pow_right (by omega) (by omega)
    omega
  have hv := toDigitsCore_val (n + 1) n hlt 0
  show (Nat.toDigitsCore 10 (n + 1) n []).foldl (fun a c => a * 10 + (c.toNat - 48)) 0 = n
  rw [hv, Nat.zero_mul, Nat.zero_add]

/-- Decimal renderings are injective. -/
theorem toDigits_inj {m n : Nat} (h : Nat.toDigits 10 m = Nat.toDigits 10 n) :
    m = n := by
  rw [← toDigits_val m, ← toDigits_val n, h]

/-- Maximal-munch uniqueness of a leading digit block: two digit blocks
followed by non-digit (or empty) remainders split an equal string
equally. -/
theorem digit_prefix_eq : ∀ (d1 d2 r1 r2 : List Char),
    (∀ c ∈ d1, c.isDigit = true) → (∀ c ∈ d2, c.isDigit = true) →
    (∀ c ∈ r1.head?, c.isDigit = false) → (∀ c ∈ r2.head?, c.isDigit = false) →
    d1 ++ r1 = d2 ++ r2 → d1 = d2 ∧ r1 = r2 := by
  intro d1
  induction d1 with
  | nil =>
    intro d2 r1 r2 _ hd2 hr1 _ he
    cases d2 with
    | nil => exact ⟨rfl, he⟩
    | cons c cs =>
      exfalso
      have hre : r1 = c :: (cs ++ r2) := he
      have hc : c.isDigit = true := hd2 c (List.mem_cons_self _ _)
      have hc' : c.isDigit = false := hr1 c (by rw [hre]; rfl)
      rw [hc] at hc'
      exact Bool.noConfusion hc'
  | cons c1 cs1 ih =>
    intro d2 r1 r2 hd1 hd2 hr1 hr2 he
    cases d2 with
    | nil =>
      exfalso
      have hre : r2 = c1 :: (cs1 ++ r1) := he.symm
      have hc : c1.isDigit = true := hd1 c1 (List.mem_cons_self _ _)
      have hc' : c1.isDigit = false := hr2 c1 (by rw [hre]; rfl)
      rw [hc] at hc'
      exact Bool.noConfusion hc'
    | cons c2 cs2 =>
      injection he with hx hxs
      obtain ⟨hd, hr⟩ := ih cs2 r1 r2 (fun c hc => hd1 c (List.mem_cons_of_mem _ hc))
        (fun c hc => hd2 c (List.mem_cons_of_mem _ hc)) hr1 hr2 hxs
      exact ⟨by rw [hx, hd], hr⟩

/-- The sign character an influence renders to. -/
def symChar : Influence → Char
  | .increases => '+'
  | .decreases => '-'

/-- Characters of the rendered sign. -/
theorem toList_symbol (i : Influence) : (Influence.symbol i).toList = [symChar i] := by
  cases i <;> rfl

/-- Sign characters are not digits. -/
theorem symChar_not_digit (i : Influence) : (symChar i).isDigit = false := by
  cases i <;> decide

/-- The sign character determines the influence. -/
theorem symChar_inj {i j : Influence} (h : symChar i = symChar j) : i = j := by
  cases i <;> cases j <;> first | rfl | exact absurd h (by decide)

/-- Characters of a string concatenation. -/
theorem string_toList_append (s t : String) :
    (s ++ t).toList = s.toList ++ t.toList :=
  String.data_append s t

/-- The characters of a rendered natural number. -/
theorem toString_nat_toList (n : Nat) : (toString n).toList = Nat.toDigits 10 n := rfl

/-- Characters of the loop body of a final link. -/
theorem reprBody_single (x : Link) :
    (Sequence.reprBody true [x]).toList
      = symChar x.influence :: '\x7b' :: (Nat.toDigits 10 x.target ++ ['\x7d']) := by
  show ((Influence.symbol x.influence) ++
      ("\x7b" ++ toString x.target ++ "\x7d")).toList = _
  rw [string_toList_append, string_toList_append, string_toList_append,
    toList_symbol, toString_nat_toList]
  rfl

/-- Characters of the loop body at an interior link. -/
theorem reprBody_cons (x y : Link) (rest : List Link) :
    (Sequence.reprBody true (x :: y :: rest)).toList
      = symChar x.influence :: (Nat.toDigits 10 x.target
          ++ (Sequence.reprBody true (y :: rest)).toList) := by
  show ((Influence.symbol x.influence) ++ toString x.target
      ++ Sequence.reprBody true (y :: rest)).toList = _
  rw [string_toList_append, string_toList_append, toList_symbol, toString_nat_toList]
  rfl

/-- The loop body of a nonempty sequence starts with a sign character. -/
theorem reprBody_head (x : Link) (rest : List Link) :
    ∃ cs, (Sequence.reprBody true (x :: rest)).toList = symChar x.influence :: cs := by
  cases rest with
  | nil => exact ⟨_, reprBody_single x⟩
  | cons y ys => exact ⟨_, reprBody_cons x y ys⟩

/-- The loop body determines the influences and targets of the links. -/
theorem reprBody_inj : ∀ (xs ys : List Link), xs ≠ [] → ys ≠ [] →
    (Sequence.reprBody true xs).toList = (Sequence.reprBody true ys).toList →
    xs.map (fun l => (l.influence, l.target)) = ys.map (fun l => (l.influence, l.target)) := by
  intro xs
  induction xs with
  | nil => intro ys h; exact absurd rfl h
  | cons x xt ih =>
    intro ys _ hys he
    cases ys with
    | nil => exact absurd rfl hys
    | cons y yt =>
      cases xt with
      | nil =>
        cases yt with
        | nil =>
          rw [reprBody_single, reprBody_single] at he
          injection he with h1 h2
          injection h2 with _ h2b
          have hinf : x.influence = y.influence := symChar_inj h1
          obtain ⟨hd, _⟩ := digit_prefix_eq (Nat.toDigits 10 x.target)
            (Nat.toDigits 10 y.target) ['\x7d'] ['\x7d']
            (toDigits_digits _) (toDigits_digits _)
            (by
              intro c hc
              have hcc : '\x7d' = c := Option.some_inj.mp hc
              rw [← hcc]
              decide)
            (by
              intro c hc
              have hcc : '\x7d' = c := Option.some_inj.mp hc
              rw [← hcc]
              decide)
            h2b
          have htgt : x.target = y.target := toDigits_inj hd
          simp [hinf, htgt]
        | cons y2 yts =>
          exfalso
          rw [reprBody_single, reprBody_cons] at he
          injection he with h1 h2
          cases hds : Nat.toDigits 10 y.target with
          | nil => exact toDigits_ne_nil _ hds
          | cons d ds =>
            rw [hds] at h2
            injection h2 with h2a _
            have hdig : d.isDigit = true :=
              toDigits_digits _ d (by rw [hds]; exact List.mem_cons_self _ _)
            have hbr : ('\x7b').isDigit = true := by rw [h2a]; exact hdig
            exact Bool.noConfusion ((by decide : ('\x7b').isDigit = false) ▸ hbr)
      | cons x2 xts =>
        cases yt with
        | nil =>
          exfalso
          rw [reprBody_cons, reprBody_single] at he
          injection he with h1 h2
          cases hds : Nat.toDigits 10 x.target with
          | nil => exact toDigits_ne_nil _ hds
          | cons d ds =>
            rw [hds] at h2
            injection h2 with h2a _
            have hdig : d.isDigit = true :=
              toDigits_digits _ d (by rw [hds]; exact List.mem_cons_self _ _)
            have hbr : ('\x7b').isDigit = true := by rw [← h2a]; exact hdig
            exact Bool.noConfusion ((by decide : ('\x7b').isDigit = false) ▸ hbr)
        | cons y2 yts =>
          rw [reprBody_cons, reprBody_cons] at he
          injection he with h1 h2
          have hinf : x.influence = y.influence := symChar_inj h1
          obtain ⟨cs1, hb1⟩ := reprBody_head x2 xts
          obtain ⟨cs2, hb2⟩ := reprBody_head y2 yts
          obtain ⟨hd, hr⟩ := digit_prefix_eq (Nat.toDigits 10 x.target)
            (Nat.toDigits 10 y.target)
            ((Sequence.reprBody true (x2 :: xts)).toList)
            ((Sequence.reprBody true (y2 :: yts)).toList)
            (toDigits_digits _) (toDigits_digits _)
            (by
              intro c hc
              rw [hb1] at hc
              have hcc : symChar x2.influence = c := Option.some_inj.mp hc
              rw [← hcc]
              exact symChar_not_digit _)
            (by
              intro c hc
              rw [hb2] at hc
              have hcc : symChar y2.influence = c := Option.some_inj.mp hc
              rw [← hcc]
              exact symChar_not_digit _)
            h2
          have htgt : x.target = y.target := toDigits_inj hd
          have hrec := ih (y2 :: yts) (List.cons_ne_nil _ _) (List.cons_ne_nil _ _) hr
          show (x.influence, x.target) :: List.map (fun l => (l.influence, l.target)) (x2 :: xts)
            = (y.influence, y.target) :: List.map (fun l => (l.influence, l.target)) (y2 :: yts)
          rw [hinf, htgt, hrec]

/-- Links are determined by their three fields. -/
theorem link_ext {a b : Link} (h1 : a.source = b.source) (h2 : a.influence = b.influence)
    (h3 : a.target = b.target) : a = b := by
  cases a with
  | mk s1 i1 t1 =>
    cases b with
    | mk s2 i2 t2 =>
      have e1 : s1 = s2 := h1
      have e2 : i1 = i2 := h2
      have e3 : t1 = t2 := h3
      rw [e1, e2, e3]

/-- A simple loop is determined by its first source and its sequence of
influences and targets. -/
theorem simple_loop_ext {c1 c2 : List Link} (h1 : IsSimpleLoop c1) (h2 : IsSimpleLoop c2)
    (hhead : (c1.getD 0 default).source = (c2.getD 0 default).source)
    (hmap : c1.map (fun l => (l.influence, l.target))
      = c2.map (fun l => (l.influence, l.target))) :
    c1 = c2 := by
  have hlen : c1.length = c2.length := by
    have := congrArg List.length hmap
    simpa using this
  have hmapi : ∀ i (h : i < c1.length),
      (c1[i].influence, c1[i].target) = (c2[i].influence, c2[i].target) := by
    intro i hi
    have hi2 : i < c2.length := by omega
    have hil1 : i < (c1.map (fun l => (l.influence, l.target))).length := by simpa using hi
    have hil2 : i < (c2.map (fun l => (l.influence, l.target))).length := by simpa using hi2
    have hgm : (c1.map (fun l => (l.influence, l.target)))[i]
        = (c2.map (fun l => (l.influence, l.target)))[i] := by
      congr 1
    rw [List.getElem_map, List.getElem_map] at hgm
    exact hgm
  have hsrc : ∀ i, i < c1.length → (c1.getD i default).source = (c2.getD i default).source := by
    intro i
    induction i with
    | zero => intro _; exact hhead
    | succ i ihs =>
      intro hi
      have hii : i < c1.length := by omega
      have hi2 : i + 1 < c2.length := by omega
      have hii2 : i < c2.length := by omega
      have e1 := h1.cyc i hii
      have e2 := h2.cyc i hii2
      rw [Nat.mod_eq_of_lt hi] at e1
      rw [Nat.mod_eq_of_lt hi2] at e2
      have htgt : (c1.getD i default).target = (c2.getD i default).target := by
        rw [getD_eq_getElem' _ _ hii, getD_eq_getElem' _ _ hii2]
        exact congrArg Prod.snd (hmapi i hii)
      rw [← e1, ← e2, htgt]
  apply List.ext_getElem hlen
  intro i hi1 hi2
  refine link_ext ?_ ?_ ?_
  · have := hsrc i hi1
    rw [getD_eq_getElem' _ _ hi1, getD_eq_getElem' _ _ hi2] at this
    exact this
  · exact congrArg Prod.fst (hmapi i hi1)
  · exact congrArg Prod.snd (hmapi i hi1)

/-- On simple loops, the string representation is injective. -/
theorem loopRepr_inj {c1 c2 : List Link} (h1 : IsSimpleLoop c1) (h2 : IsSimpleLoop c2)
    (h : Sequence.seqRepr c1 = Sequence.seqRepr c2) : c1 = c2 := by
  have hl1 := isLoop_of_isSimpleLoop h1
  have hl2 := isLoop_of_isSimpleLoop h2
  have hne1 : c1 ≠ [] := by
    intro e
    rw [e] at h1
    exact absurd h1.pos (by simp)
  have hne2 : c2 ≠ [] := by
    intro e
    rw [e] at h2
    exact absurd h2.pos (by simp)
  rw [seqRepr_loop_shape c1 hne1 hl1, seqRepr_loop_shape c2 hne2 hl2,
    isClosed_of_isLoop hl1, isClosed_of_isLoop hl2] at h
  have h' := congrArg String.toList h
  rw [string_toList_append, string_toList_append, string_toList_append,
    string_toList_append, toString_nat_toList, toString_nat_toList,
    List.append_assoc, List.append_assoc] at h'
  have h'' := List.append_cancel_left h'
  obtain ⟨a1, t1, he1⟩ : ∃ a t, c1 = a :: t := by
    cases c1 with
    | nil => exact absurd rfl hne1
    | cons a t => exact ⟨a, t, rfl⟩
  obtain ⟨a2, t2, he2⟩ : ∃ a t, c2 = a :: t := by
    cases c2 with
    | nil => exact absurd rfl hne2
    | cons a t => exact ⟨a, t, rfl⟩
  have hb1' : ∃ cs, (Sequence.reprBody true c1).toList = symChar a1.influence :: cs := by
    rw [he1]
    exact reprBody_head a1 t1
  have hb2' : ∃ cs, (Sequence.reprBody true c2).toList = symChar a2.influence :: cs := by
    rw [he2]
    exact reprBody_head a2 t2
  obtain ⟨cs1, hb1⟩ := hb1'
  obtain ⟨cs2, hb2⟩ := hb2'
  obtain ⟨hdg, hbody⟩ := digit_prefix_eq
    (Nat.toDigits 10 ((c1.headD default).source))
    (Nat.toDigits 10 ((c2.headD default).source))
    ((Sequence.reprBody true c1).toList) ((Sequence.reprBody true c2).toList)
    (toDigits_digits _) (toDigits_digits _)
    (by
      intro c hc
      rw [hb1] at hc
      have hcc : symChar a1.influence = c := Option.some_inj.mp hc
      rw [← hcc]
      exact symChar_not_digit _)
    (by
      intro c hc
      rw [hb2] at hc
      have hcc : symChar a2.influence = c := Option.some_inj.mp hc
      rw [← hcc]
      exact symChar_not_digit _)
    h''
  have hhead : (c1.headD default).source = (c2.headD default).source := toDigits_inj hdg
  have hmap := reprBody_inj c1 c2 hne1 hne2 hbody
  refine simple_loop_ext h1 h2 ?_ hmap
  rw [← headD_eq_getD, ← headD_eq_getD]
  exact hhead

/-- Canonical rotations of simple loops are simple loops. -/
theorem rotateToStandard_isSimpleLoop {cy : List Link} (h : IsSimpleLoop cy) :
    IsSimpleLoop (Sequence.rotateToStandard cy) := by
  rw [rotateToStandard_eq h]
  exact rotate_isSimpleLoop h _

/-- Distinct representations imply distinct sequences. -/
theorem nodup_of_reprNodup {acc : List (List Link)} (h : ReprNodup acc) : acc.Nodup :=
  h.imp (fun hne he => hne (congrArg Sequence.seqRepr he))

/-- The raw loop store produced by the driver on the pruned built
network: sound, complete up to representation, and duplicate-free. -/
theorem getLoops_raw_spec (E : List Link)
    (hpairs : (E.map (fun l => (l.source, l.target))).Nodup) :
    (∀ s ∈ (processRoots ((pruneFix (buildNetwork E)).map (fun n => n.concept))
        (pruneFix (buildNetwork E)) []).2, GoodLoop E s) ∧
    (∀ cy, IsSimpleLoop cy → (∀ l ∈ cy, l ∈ E) →
      Sequence.rotateToStandard cy ∈
        (processRoots ((pruneFix (buildNetwork E)).map (fun n => n.concept))
          (pruneFix (buildNetwork E)) []).2) ∧
    ReprNodup (processRoots ((pruneFix (buildNetwork E)).map (fun n => n.concept))
      (pruneFix (buildNetwork E)) []).2 := by
  obtain ⟨W0, hE0⟩ := buildNetwork_spec E hpairs
  have W1 : NetWF (pruneFix (buildNetwork E)) := pruneFix_WF W0
  have hE1 : ∀ x ∈ netLinks (pruneFix (buildNetwork E)), x ∈ E :=
    fun x hx => (hE0 x).mp (netLinks_pruneFix_sub W0 hx)
  have hsound : ∀ s ∈ (processRoots ((pruneFix (buildNetwork E)).map (fun n => n.concept))
      (pruneFix (buildNetwork E)) []).2, GoodLoop E s := by
    intro s hs
    rcases processRoots_sound E _ _ _ W1 hE1 s hs with h' | h'
    · exact absurd h' (List.not_mem_nil _)
    · exact h'
  have hnodup : ReprNodup (processRoots ((pruneFix (buildNetwork E)).map (fun n => n.concept))
      (pruneFix (buildNetwork E)) []).2 :=
    processRoots_reprNodup _ _ _ List.Pairwise.nil
  refine ⟨hsound, ?_, hnodup⟩
  intro cy hcy hEcy
  have hin1 : ∀ l ∈ cy, l ∈ netLinks (pruneFix (buildNetwork E)) :=
    pruneFix_cycle W0 hcy (fun l hl => (hE0 l).mpr (hEcy l hl))
  have hmem0 : cy.getD 0 default ∈ cy := by
    rw [getD_eq_getElem' _ _ hcy.pos]
    exact List.getElem_mem hcy.pos
  obtain ⟨ndo, hndo, hoc, _⟩ := netLinks_owner W1 (hin1 _ hmem0)
  have hreprIn := processRoots_complete _ _ [] W1 cy hcy
    (Or.inr ⟨hin1, ndo.concept, List.mem_map.mpr ⟨ndo, hndo, rfl⟩,
      by rw [hoc]; exact cycle_src_mem hmem0⟩)
  obtain ⟨s, hs, hrepr⟩ := hreprIn
  obtain ⟨cy', hcy', _, hseq⟩ := hsound s hs
  have hs1 : IsSimpleLoop (Sequence.rotateToStandard cy') := rotateToStandard_isSimpleLoop hcy'
  have hs2 : IsSimpleLoop (Sequence.rotateToStandard cy) := rotateToStandard_isSimpleLoop hcy
  have heq : s = Sequence.rotateToStandard cy := by
    rw [hseq]
    refine loopRepr_inj hs1 hs2 ?_
    rw [← hseq]
    exact hrepr
  rw [← heq]
  exact hs

/-- Claim C1: for every network built by `add_link` from links forming a
simple signed digraph (no self-loops, at most one link per ordered
source/target pair), `get_loops` followed by `finalize` stores exactly
one loop for each simple directed cycle of the input graph, namely its
canonical rotation; the stored list has no duplicates, and
canonicalization is constant on each rotation class, so the size of the
loop set is the number of simple cycles, and the prune and
node-elimination steps lose no cycle and duplicate none. -/
theorem get_loops_finds_all_simple_cycles (E : List Link)
    (hself : ∀ l ∈ E, l.source ≠ l.target)
    (hpairs : (E.map (fun l => (l.source, l.target))).Nodup) :
    (∀ s, s ∈ getLoopsList E ↔
      ∃ cy, IsSimpleLoop cy ∧ (∀ l ∈ cy, l ∈ E) ∧ s = Sequence.rotateToStandard cy) ∧
    (getLoopsList E).Nodup ∧
    (∀ (cy : List Link) (k : Nat), IsSimpleLoop cy →
      Sequence.rotateToStandard (cy.rotate k) = Sequence.rotateToStandard cy) := by
  obtain ⟨hsound, hcomplete, hnodup⟩ := getLoops_raw_spec E hpairs
  have hperm : List.Perm (getLoopsList E)
      (processRoots ((pruneFix (buildNetwork E)).map (fun n => n.concept))
        (pruneFix (buildNetwork E)) []).2 :=
    List.mergeSort_perm _ _
  refine ⟨?_, ?_, fun cy k hcy => rotateToStandard_rotate hcy k⟩
  · intro s
    constructor
    · intro hs
      exact hsound s (hperm.mem_iff.mp hs)
    · rintro ⟨cy, hcy, hEcy, rfl⟩
      exact hperm.mem_iff.mpr (hcomplete cy hcy hEcy)
  · exact hperm.nodup_iff.mpr (nodup_of_reprNodup hnodup)

/-- A concrete simple signed digraph with two 2-cycles through concept
0, used as the witness input for C1. -/
def c1wit : List Link :=
  [⟨0, Influence.increases, 1⟩, ⟨1, Influence.increases, 0⟩,
   ⟨0, Influence.increases, 2⟩, ⟨2, Influence.decreases, 0⟩,
   ⟨2, Influence.increases, 3⟩]

/-- Witness for C1 at a concrete simple signed digraph. -/
theorem get_loops_finds_all_simple_cycles_witness :
    ((∀ l ∈ c1wit, l.source ≠ l.target) ∧
      (c1wit.map (fun l => (l.source, l.target))).Nodup) ∧
    ((∀ s, s ∈ getLoopsList c1wit ↔
      ∃ cy, IsSimpleLoop cy ∧ (∀ l ∈ cy, l ∈ c1wit) ∧
        s = Sequence.rotateToStandard cy) ∧
    (getLoopsList c1wit).Nodup ∧
    (∀ (cy : List Link) (k : Nat), IsSimpleLoop cy →
      Sequence.rotateToStandard (cy.rotate k) = Sequence.rotateToStandard cy)) :=
  ⟨⟨by decide, by decide⟩,
    get_loops_finds_all_simple_cycles c1wit (by decide) (by decide)⟩

end NetworkC1Lemmas

end CLD
